import Mathlib

/-!
# wyapi-golang: a shallow embedding of the crypto primitives, the parameter
signer, the identifier resolver, the cookie store, the provider client (cookie merge,
search limit, playlist lookup, picture URL) and the download pipeline, with the
properties proved about them.

Conventions of the embedding

* A Go `[]byte` (and a Go `string` in package `crypto`, where strings are only
  concatenated and converted to bytes) is a `List Nat`, one entry per byte.
  A conversion `byte(x)` is written with an explicit `% 256`.
* A Go `int` is an `Int`; none of the arithmetic below can leave the 64-bit range.
* In package `api` a string is read as the sequence of its runes (`List Char`), the
  way `strings.TrimSpace` and `regexp` read a well-formed UTF-8 string.
* In the packages `cookie`, `downloader` and `netease`, where strings are also cut at
  byte offsets, a string is a `GoString`: its runes, and its invalid bytes, in order.
* A Go result `(T, error)` is a pair `T × Option Error`, `none` being `nil`.
* A run-time panic (slice out of range, short cipher block) is the `none` of an
  outer `Option`.
* Library functions that are not part of the repository (`md5.Sum`, the AES
  block function, `url.Parse`, the HTTP redirect lookup) are parameters.
-/

set_option autoImplicit false

namespace Wyapi

/-- Go error values that the embedded functions can return. -/
inductive Error where
  | msg (text : String)
  | keySize (n : Nat)
  | badNumber
  | outOfRange
  | external (code : Nat)
  deriving DecidableEq, Repr

/-- A Go byte slice: its bytes in order. -/
abbrev Bytes := List Nat

/-- The Go conversion `byte(n)` of an `int`: the low eight bits. -/
def toByte (n : Int) : Nat := (n % 256).toNat

/-- The bytes of an ASCII string literal. -/
def lit (s : String) : Bytes := s.toList.map Char.toNat

/-! ## internal/crypto/aes.go -/

/-- The Go `PKCS7Pad` of aes.go. Go's `%` truncates toward zero, which is `Int.tmod`. -/
def PKCS7Pad (data : Bytes) (blockSize : Int) : Bytes :=
  if blockSize ≤ 0 then data
  else
    let padding := blockSize - Int.tmod (data.length : Int) blockSize
    let padding := if padding = 0 then blockSize else padding
    let padText := List.replicate padding.toNat (toByte padding)
    data ++ padText

/-- A sixteen-byte array: the Go type `[16]byte`, and one AES block. -/
abbrev Bytes16 := { b : Bytes // b.length = 16 }

/-- The Go slice expression `s[lo:hi]`; `none` is the out-of-range panic. The bound
used is `len(s)`, which is at most the capacity Go checks against. -/
def slice? (s : Bytes) (lo hi : Nat) : Option Bytes :=
  if lo ≤ hi ∧ hi ≤ s.length then some ((s.take hi).drop lo) else none

/-- A `cipher.Block` as returned by `aes.NewCipher`: the block function under one key. -/
structure Block where
  encryptBlock : Bytes16 → Bytes16

/-- The Go `Block.BlockSize()` of an AES cipher. -/
def Block.BlockSize (_b : Block) : Nat := 16

/-- The Go `Block.Encrypt(dst, src)`: panics unless both slices hold a full block, then puts
the encryption of the first sixteen bytes of `src` into the first sixteen bytes of
`dst`. The result is the new content of `dst`. -/
def Block.Encrypt (b : Block) (dst src : Bytes) : Option Bytes :=
  if h : 16 ≤ src.length ∧ 16 ≤ dst.length then
    some ((b.encryptBlock ⟨src.take 16, by rw [List.length_take]; omega⟩).val ++ dst.drop 16)
  else none

/-- The Go `aes.NewCipher(key)`: a key of 16, 24 or 32 bytes gives a cipher, any other length
the error `KeySizeError(len(key))`. The AES block function `aes` is a parameter. -/
def NewCipher (aes : Bytes → Bytes16 → Bytes16) (key : Bytes) : Except Error Block :=
  if key.length = 16 ∨ key.length = 24 ∨ key.length = 32 then .ok ⟨aes key⟩
  else .error (.keySize key.length)

/-- The loop `for start := 0; start < len(data); start += blockSize` of `EncryptECB`,
from the state `(start, encrypted)`. The first argument bounds the number of
iterations; `none` is a panic or an exhausted bound. -/
def encryptLoop (block : Block) (blockSize : Nat) (data : Bytes) :
    Nat → Nat → Bytes → Option Bytes
  | 0, start, encrypted => if start < data.length then none else some encrypted
  | fuel + 1, start, encrypted =>
    if start < data.length then
      match slice? encrypted start (start + blockSize), slice? data start (start + blockSize) with
      | some dst, some src =>
        match block.Encrypt dst src with
        | some out =>
          encryptLoop block blockSize data fuel (start + blockSize)
            (encrypted.take start ++ out ++ encrypted.drop (start + blockSize))
        | none => none
      | _, _ => none
    else some encrypted

/-- The Go `EncryptECB` of aes.go. -/
def EncryptECB (aes : Bytes → Bytes16 → Bytes16) (key data : Bytes) :
    Option (Bytes × Option Error) :=
  if key.length = 0 then some ([], some (.msg "empty key"))
  else
    match NewCipher aes key with
    | .error err => some ([], some err)
    | .ok block =>
      let blockSize := block.BlockSize
      let data := PKCS7Pad data blockSize
      if data.length % blockSize ≠ 0 then
        some ([], some (.msg "data is not a multiple of block size"))
      else
        let encrypted := List.replicate data.length 0
        match encryptLoop block blockSize data data.length 0 encrypted with
        | some encrypted => some (encrypted, none)
        | none => none

/-- The `i`-th sixteen-byte block of a byte sequence, when it has one. -/
def blockAt (xs : Bytes) (i : Nat) : Option Bytes16 :=
  if h : 16 * i + 16 ≤ xs.length then
    some ⟨(xs.drop (16 * i)).take 16, by rw [List.length_take, List.length_drop]; omega⟩
  else none

/-! ## internal/crypto/eapi.go -/

/-- The constant `EAPIKey`. -/
def EAPIKey : String := "e82ckenh8dichen8"

/-- The digit table of `encoding/hex`. -/
def hextable : Bytes := lit "0123456789abcdef"

/-- The Go `hex.EncodeToString`: two digits per byte, `hextable[v>>4]` then `hextable[v&0x0f]`;
for a byte `v`, `v>>4` is `v / 16 % 16`. -/
def hexEncode (src : Bytes) : Bytes :=
  src.flatMap fun v => [hextable.getD (v / 16 % 16) 0, hextable.getD (v % 16) 0]

/-- The Go `md5Hex` of eapi.go; `md5Sum` is the library function `md5.Sum`. -/
def md5Hex (md5Sum : Bytes → Bytes16) (text : Bytes) : Bytes :=
  hexEncode (md5Sum text).val

/-- The Go `strings.Replace(s, old, new, 1)`: the leftmost occurrence of `old` in `s` is
replaced by `new`; without an occurrence `s` is returned. -/
def replaceFirst (old new : Bytes) : Bytes → Bytes
  | [] => if old = [] then new else []
  | c :: t =>
    if old.isPrefixOf (c :: t) then new ++ (c :: t).drop old.length
    else c :: replaceFirst old new t

/-- The path rewrite of `EncryptEAPIParams`:
`strings.Replace(parsed.Path, "/eapi/", "/api/", 1)`. -/
def rewritePath (path : Bytes) : Bytes :=
  replaceFirst (lit "/eapi/") (lit "/api/") path

/-- The Go `EncryptEAPIParams` of eapi.go. `urlParse` stands for `url.Parse` followed by the
selection of the field `Path`, `md5Sum` for `md5.Sum`, `aes` for the AES block
function. -/
def EncryptEAPIParams (urlParse : Bytes → Except Error Bytes) (md5Sum : Bytes → Bytes16)
    (aes : Bytes → Bytes16 → Bytes16) (rawURL payloadJSON : Bytes) :
    Option (Bytes × Option Error) :=
  if rawURL = [] then some ([], some (.msg "empty url"))
  else
    match urlParse rawURL with
    | .error err => some ([], some err)
    | .ok parsedPath =>
      let path := rewritePath parsedPath
      let payload := payloadJSON
      let digest := md5Hex md5Sum (lit "nobody" ++ path ++ lit "use" ++ payload ++ lit "md5forencrypt")
      let params := path ++ lit "-36cd479b6b5-" ++ payload ++ lit "-36cd479b6b5-" ++ digest
      match EncryptECB aes (lit EAPIKey) params with
      | none => none
      | some (_, some err) => some ([], some err)
      | some (encrypted, none) => some (hexEncode encrypted, none)

/-! ## internal/api/handlers.go: the identifier resolver

The input text is the sequence of its runes (`List Char`): `strings.TrimSpace` and the
`regexp` package both read a string rune by rune. -/

/-- A Go string read as its runes. -/
abbrev Text := List Char

/-- The Go `unicode.IsSpace`, which `strings.TrimSpace` trims. -/
def isSpace (c : Char) : Bool :=
  let n := c.toNat
  n == 0x09 || n == 0x0A || n == 0x0B || n == 0x0C || n == 0x0D || n == 0x20 ||
  n == 0x85 || n == 0xA0 || n == 0x1680 || (0x2000 ≤ n && n ≤ 0x200A) ||
  n == 0x2028 || n == 0x2029 || n == 0x202F || n == 0x205F || n == 0x3000

/-- The Go `strings.TrimSpace`. -/
def trimSpace (s : Text) : Text :=
  ((s.dropWhile isSpace).reverse.dropWhile isSpace).reverse

/-- The class `\d` of Go regular expressions: the ASCII digits only. -/
def isDigit (c : Char) : Bool := 48 ≤ c.toNat && c.toNat ≤ 57

/-- The value of an ASCII digit, `c - '0'`. -/
def digitVal (c : Char) : Nat := c.toNat - 48

/-- The Go `strings.Contains(s, sub)`. -/
def containsText (sub : Text) : Text → Bool
  | [] => sub.isEmpty
  | c :: t => sub.isPrefixOf (c :: t) || containsText sub t

/-- The runes a pattern letter matches under the flag `(?i)`: its orbit under
`unicode.SimpleFold`. For the ASCII letters that is the letter in both cases, with one
more rune for `k` (U+212A) and for `s` (U+017F). -/
def foldOrbit (p : Char) : List Char :=
  if p = 's' ∨ p = 'S' then ['s', 'S', Char.ofNat 0x17F]
  else if p = 'k' ∨ p = 'K' then ['k', 'K', Char.ofNat 0x212A]
  else if p.isLower then [p, p.toUpper]
  else if p.isUpper then [p.toLower, p]
  else [p]

/-- A literal of a `(?i)` pattern matched at the head of the text: the text after it. -/
def litFold : List Char → Text → Option Text
  | [], s => some s
  | _ :: _, [] => none
  | p :: ps, c :: s => if (foldOrbit p).contains c then litFold ps s else none

/-- A greedy `(\d+)` that ends the pattern, matched at the head of the text: the run of
all digits there, which must not be empty. -/
def digitRun (s : Text) : Option Text :=
  if s.takeWhile isDigit = [] then none else some (s.takeWhile isDigit)

/-- The leftmost match: the pattern is tried at the head of the text, then at the head
of each later suffix, and the first success is the match. -/
def findFirst (m : Text → Option Text) : Text → Option Text
  | [] => m []
  | c :: t =>
    match m (c :: t) with
    | some g => some g
    | none => findFirst m t

/-- The Go `digitsOnlyRegex.MatchString`, pattern `^\d+$`. -/
def digitsOnlyRegex (s : Text) : Bool := !s.isEmpty && s.all isDigit

/-- The Go `idRegex`, pattern `(?i)(?:id=)(\d+)`, matched at the head of the text: group 1. -/
def idRegexAt (s : Text) : Option Text :=
  (litFold ['i', 'd', '='] s).bind digitRun

/-- The Go `idRegex.FindStringSubmatch`, as its group 1 when there is a match. -/
def idRegexFind (s : Text) : Option Text := findFirst idRegexAt s

/-- The part `[^\d]*(\d+)` of `songIDPattern` at the head of the text. The greedy star
takes every non-digit; if no digit follows them the text has ended, and giving
non-digits back cannot help, so the match fails. -/
def afterKeyword (s : Text) : Option Text :=
  digitRun (s.dropWhile fun c => !isDigit c)

/-- The Go `songIDPattern`, pattern `(?i)(song|album|playlist)[^\d]*(\d+)`, matched at the
head of the text, the alternatives being tried in their order: group 2. -/
def songIDPatternAt (s : Text) : Option Text :=
  match (litFold ['s', 'o', 'n', 'g'] s).bind afterKeyword with
  | some g => some g
  | none =>
    match (litFold ['a', 'l', 'b', 'u', 'm'] s).bind afterKeyword with
    | some g => some g
    | none => (litFold ['p', 'l', 'a', 'y', 'l', 'i', 's', 't'] s).bind afterKeyword

/-- The Go `songIDPattern.FindStringSubmatch`, as its group 2 when there is a match. -/
def songIDPatternFind (s : Text) : Option Text := findFirst songIDPatternAt s

/-- The Go `numberRegex`, pattern `\d{5,}`, matched at the head of the text. -/
def numberRegexAt (s : Text) : Option Text :=
  if 5 ≤ (s.takeWhile isDigit).length then some (s.takeWhile isDigit) else none

/-- The Go `numberRegex.FindString`, `none` when `MatchString` is false. -/
def numberRegexFind (s : Text) : Option Text := findFirst numberRegexAt s

/-- The largest `uint64`. -/
def maxUint64 : Nat := 2 ^ 64 - 1

/-- The digit loop of `strconv.ParseUint(s, 10, 64)` with the value `n` read so far. -/
def parseUintLoop : Text → Nat → Nat × Option Error
  | [], n => (n, none)
  | c :: cs, n =>
    if !isDigit c then (0, some .badNumber)
    else if n ≥ maxUint64 / 10 + 1 then (maxUint64, some .outOfRange)
    else if n * 10 + digitVal c > maxUint64 then (maxUint64, some .outOfRange)
    else parseUintLoop cs (n * 10 + digitVal c)

/-- The Go `strconv.ParseUint(s, 10, 64)`. -/
def ParseUint (s : Text) : Nat × Option Error :=
  if s = [] then (0, some .badNumber) else parseUintLoop s 0

/-- The Go `strconv.ParseInt(s, 10, 64)`. -/
def ParseInt (s : Text) : Int × Option Error :=
  match s with
  | [] => (0, some .badNumber)
  | c :: t =>
    let neg := c = '-'
    let s1 := if c = '+' then t else if c = '-' then t else c :: t
    match ParseUint s1 with
    | (_, some .badNumber) => (0, some .badNumber)
    | (un, _) =>
      if ¬ neg ∧ un ≥ 2 ^ 63 then ((2 : Int) ^ 63 - 1, some .outOfRange)
      else if neg ∧ un > 2 ^ 63 then (-(2 : Int) ^ 63, some .outOfRange)
      else if neg then (-(un : Int), none)
      else ((un : Int), none)

/-- The short-link marker looked for by `extractID`. -/
def shortLinkMarker : Text := "163cn.tv".toList

/-- The Go `Handler.extractID` of handlers.go. `resolve` stands for the network lookup
`h.netease.ResolveShortURLHead(ctx, cleaned)`. -/
def extractID (resolve : Text → Text × Option Error) (input : Text) : Int × Option Error :=
  let cleaned := trimSpace input
  if cleaned = [] then (0, some (.msg "ID不能为空"))
  else if digitsOnlyRegex cleaned then ParseInt cleaned
  else
    let cleaned :=
      if containsText shortLinkMarker cleaned then
        match resolve cleaned with
        | (resolved, none) => if resolved ≠ [] then resolved else cleaned
        | (_, some _) => cleaned
      else cleaned
    match idRegexFind cleaned with
    | some g => ParseInt g
    | none =>
      match songIDPatternFind cleaned with
      | some g => ParseInt g
      | none =>
        match numberRegexFind cleaned with
        | some g => ParseInt g
        | none => (0, some (.msg "无法从输入中提取ID"))

/-- The number a string of ASCII digits denotes in base ten. -/
def decimal (ds : Text) : Nat := ds.foldl (fun n c => n * 10 + digitVal c) 0

/-! ## The notions the resolver's properties are stated with -/

/-- Every rune of the text is an ASCII digit. -/
def AllDigits (ds : Text) : Prop := ∀ c ∈ ds, isDigit c = true

/-- No rune of the text is an ASCII digit. -/
def NoDigit (nd : Text) : Prop := ∀ c ∈ nd, isDigit c = false

/-- Every rune of the text is white space. -/
def AllSpace (ws : Text) : Prop := ∀ c ∈ ws, isSpace c = true

/-- The text does not begin with a digit, so that a digit run before it ends there. -/
def NoDigitAhead (post : Text) : Prop := ∀ c rest, post = c :: rest → isDigit c = false

/-- The three keywords of `songIDPattern`. -/
def keywords : List Text := ["song".toList, "album".toList, "playlist".toList]

/-- The text `kw` is the word `w` with each letter in lower or in upper case. -/
def AnyCase (w kw : Text) : Prop := List.Forall₂ (fun p c => c = p ∨ c = p.toUpper) w kw

/-- The text `kw` is the word `w` up to letter case as Go's case-insensitive matching
takes it: lower case, upper case, and the further case variant U+017F of `s`. -/
def FoldCase (w kw : Text) : Prop := List.Forall₂ (fun p c => c ∈ foldOrbit p) w kw

/-- The text begins with a token `id=<digits>`, `id` in either letter case. -/
def IdTokenAt (t : Text) : Prop :=
  ∃ i d c rest, t = i :: d :: '=' :: c :: rest ∧ (i = 'i' ∨ i = 'I') ∧ (d = 'd' ∨ d = 'D') ∧
    isDigit c = true

/-- The text begins with a keyword that is followed, after non-digits only, by a digit. -/
def KeywordPatternAt (t : Text) : Prop :=
  ∃ w kw nd c rest, w ∈ keywords ∧ FoldCase w kw ∧ NoDigit nd ∧ isDigit c = true ∧
    t = kw ++ nd ++ c :: rest

/-- The text begins with five or more digits. -/
def FiveDigitsAt (t : Text) : Prop :=
  ∃ ds rest, t = ds ++ rest ∧ 5 ≤ ds.length ∧ AllDigits ds

/-- The short-link marker occurs in the text. -/
def HasMarker (t : Text) : Prop := shortLinkMarker <:+: t

/-! ## Go strings in the packages cookie, downloader and netease

A string is read the way Go's decoder reads it: as the sequence of its runes, a byte that
belongs to no well-formed UTF-8 sequence standing for itself. That is how
`strings.TrimSpace`, `strings.ToLower`, `regexp` and `range` see a string; byte offsets
(`len`, `s[:n]`, `s[n:]`) are counted through the width of each element. -/

/-- One element of a decoded Go string. -/
inductive GoRune where
  | rune (c : Char)
  | byte (b : Nat)
  deriving DecidableEq, Repr

/-- A Go string as its decoded elements. -/
abbrev GoString := List GoRune

/-- The UTF-8 encoding of a rune. -/
def utf8Encode (c : Char) : Bytes :=
  let n := c.toNat
  if n < 0x80 then [n]
  else if n < 0x800 then [0xC0 + n / 64, 0x80 + n % 64]
  else if n < 0x10000 then [0xE0 + n / 4096, 0x80 + n / 64 % 64, 0x80 + n % 64]
  else [0xF0 + n / 262144, 0x80 + n / 4096 % 64, 0x80 + n / 64 % 64, 0x80 + n % 64]

/-- The bytes of one element. -/
def GoRune.toBytes : GoRune → Bytes
  | .rune c => utf8Encode c
  | .byte b => [b]

/-- The number of bytes of one element. -/
def GoRune.width (u : GoRune) : Nat := u.toBytes.length

/-- The Go built-in `len(s)` of a string: its number of bytes. -/
def byteLen : GoString → Nat
  | [] => 0
  | u :: t => u.width + byteLen t

/-- The slice `s[:n]`, for `n ≤ len(s)`: a rune cut by the offset leaves its first
bytes, which decode one by one. -/
def byteTake : Nat → GoString → GoString
  | _, [] => []
  | n, u :: t =>
    if u.width ≤ n then u :: byteTake (n - u.width) t
    else (u.toBytes.take n).map GoRune.byte

/-- The slice `s[n:]`, for `n ≤ len(s)`: a rune cut by the offset leaves its last
bytes, which decode one by one. -/
def byteDrop : Nat → GoString → GoString
  | _, [] => []
  | n, u :: t =>
    if n = 0 then u :: t
    else if u.width ≤ n then byteDrop (n - u.width) t
    else (u.toBytes.drop n).map GoRune.byte ++ t

/-- A string literal of the source. -/
def str (s : String) : GoString := s.toList.map GoRune.rune

/-- The test `unicode.IsSpace` on a decoded element; an invalid byte decodes to
U+FFFD, which is no white space. -/
def GoRune.isSpace : GoRune → Bool
  | .rune c => Wyapi.isSpace c
  | .byte _ => false

/-- The Go `strings.TrimLeftFunc(s, unicode.IsSpace)`. -/
def trimLeftSpace (s : GoString) : GoString := s.dropWhile GoRune.isSpace

/-- The Go `strings.TrimRightFunc(s, unicode.IsSpace)`. -/
def trimRightSpace (s : GoString) : GoString := (s.reverse.dropWhile GoRune.isSpace).reverse

/-- The Go `strings.TrimSpace`: white space is trimmed on the left, then on the right. -/
def stringsTrimSpace (s : GoString) : GoString := trimRightSpace (trimLeftSpace s)

/-- The Go `strings.TrimPrefix(s, p)`. -/
def stringsTrimPrefix (s p : GoString) : GoString :=
  if p.isPrefixOf s then s.drop p.length else s

/-- The Go `strings.HasSuffix(s, suffix)`. -/
def stringsHasSuffix (s suffix : GoString) : Bool := suffix.reverse.isPrefixOf s.reverse

/-- The ASCII rune an element lower-cases to under `unicode.ToLower`, if any: the ASCII
runes themselves with `A`..`Z` lowered, and the two other runes whose lower case is
ASCII, U+0130 (`i`) and U+212A (`k`). -/
def lowerASCII : GoRune → Option Char
  | .byte _ => none
  | .rune c =>
    if c.toNat = 0x130 then some 'i'
    else if c.toNat = 0x212A then some 'k'
    else if c.toNat < 0x80 then some c.toLower
    else none

/-- The test `strings.HasPrefix(strings.ToLower(s), p)` for an ASCII text `p`: the
lower-cased string begins with `p` exactly when the first elements of `s` lower-case,
one by one, to the runes of `p`. -/
def hasPrefixLower : List Char → GoString → Bool
  | [], _ => true
  | _ :: _, [] => false
  | p :: ps, u :: t => lowerASCII u == some p && hasPrefixLower ps t

/-- The Go `strings.Split(s, sep)` for a separator of one ASCII rune. -/
def stringsSplit (sep : GoRune) : GoString → List GoString
  | [] => [[]]
  | u :: t =>
    if u = sep then [] :: stringsSplit sep t
    else
      match stringsSplit sep t with
      | [] => [[u]]
      | p :: ps => (u :: p) :: ps

/-- The Go `strings.SplitN(s, sep, 2)` for a separator of one ASCII rune: `none` when
the result has one element (no separator), else the text before the first separator
and the text after it. -/
def stringsSplitN2 (sep : GoRune) : GoString → Option (GoString × GoString)
  | [] => none
  | u :: t =>
    if u = sep then some ([], t)
    else
      match stringsSplitN2 sep t with
      | none => none
      | some (a, b) => some (u :: a, b)

/-- The Go `strings.Join(parts, sep)`. -/
def stringsJoin (sep : GoString) : List GoString → GoString
  | [] => []
  | [p] => p
  | p :: q :: ps => p ++ sep ++ stringsJoin sep (q :: ps)

/-- A Go `map[string]string`: its entries, no key twice. The order of the list stands
for an iteration order, which Go leaves unspecified. -/
abbrev StrMap := List (GoString × GoString)

/-- The map lookup `m[k]` with its presence flag. -/
def StrMap.get : StrMap → GoString → Option GoString
  | [], _ => none
  | (k', v) :: t, k => if k' = k then some v else StrMap.get t k

/-- The map assignment `m[k] = v`. -/
def StrMap.set (m : StrMap) (k v : GoString) : StrMap :=
  (k, v) :: m.filter fun p => p.1 ≠ k

/-! ## internal/cookie/manager.go -/

/-- The byte-order mark U+FEFF, the literal of `strings.TrimPrefix` in manager.go. -/
def bom : GoString := [GoRune.rune (Char.ofNat 0xFEFF)]

/-- The body of the loop over `parts` in `ParseCookieString`: the map after one part. -/
def parseCookiePart (result : StrMap) (part : GoString) : StrMap :=
  let part := stringsTrimSpace part
  if part = [] then result
  else
    match stringsSplitN2 (.rune '=') part with
    | none => result
    | some (k, v) =>
      let key := stringsTrimSpace k
      let value := stringsTrimSpace v
      if key = [] ∨ value = [] then result
      else result.set key value

/-- The part of `ParseCookieString` from the test `cookieString == ""` on: the split
into parts and the loop over them. -/
def cookieBody (cookieString : GoString) : StrMap :=
  let result : StrMap := []
  if cookieString = [] then result
  else
    let parts :=
      if GoRune.rune ';' ∈ cookieString then stringsSplit (.rune ';') cookieString
      else if GoRune.rune '\n' ∈ cookieString then stringsSplit (.rune '\n') cookieString
      else [cookieString]
    parts.foldl parseCookiePart result

/-- The Go `ParseCookieString` of manager.go: the three adjustments of `cookieString`,
then `cookieBody`. -/
def ParseCookieString (cookieString : GoString) : StrMap :=
  let cookieString := stringsTrimSpace cookieString
  let cookieString := stringsTrimPrefix cookieString bom
  let cookieString :=
    if hasPrefixLower "cookie:".toList cookieString then
      stringsTrimSpace (byteDrop 7 cookieString)
    else cookieString
  cookieBody cookieString

/-- The method `Manager.Read` of manager.go, the file being read through `ReadFile`
(`os.ReadFile` followed by the conversion to a string); `IsNotExist` is
`os.IsNotExist`. -/
def ManagerRead (ReadFile : GoString → Except Error GoString) (IsNotExist : Error → Bool)
    (FilePath : GoString) : GoString × Option Error :=
  if FilePath = [] then ([], some (.msg "cookie file path empty"))
  else
    match ReadFile FilePath with
    | .error err => if IsNotExist err then ([], none) else ([], some err)
    | .ok data => (stringsTrimSpace data, none)

/-- The method `Manager.Parse` of manager.go; `none` is the nil map. -/
def ManagerParse (ReadFile : GoString → Except Error GoString) (IsNotExist : Error → Bool)
    (FilePath : GoString) : Option StrMap × Option Error :=
  match ManagerRead ReadFile IsNotExist FilePath with
  | (_, some err) => (none, some err)
  | (content, none) => (some (ParseCookieString content), none)

/-! ## internal/netease: types.go and client.go -/

/-- The struct `SongURLData` of types.go; `Type_` is its field `Type`. -/
structure SongURLData where
  ID : Int
  URL : GoString
  Level : GoString
  Size : Int
  Type_ : GoString
  Br : Int
  deriving DecidableEq, Repr

/-- The struct `SongURLResponse` of types.go. -/
structure SongURLResponse where
  Code : Int
  Data : List SongURLData
  deriving DecidableEq, Repr

/-- The struct `Artist` of types.go. -/
structure Artist where
  Name : GoString
  deriving DecidableEq, Repr

/-- The struct `Album` of types.go. -/
structure Album where
  Name : GoString
  PicURL : GoString
  Pic : Int
  deriving DecidableEq, Repr

/-- The struct `SongDetailSong` of types.go. -/
structure SongDetailSong where
  ID : Int
  Name : GoString
  Ar : List Artist
  Al : Album
  Dt : Int
  No : Int
  deriving DecidableEq, Repr

/-- The struct `SongDetailResponse` of types.go. -/
structure SongDetailResponse where
  Code : Int
  Songs : List SongDetailSong
  deriving DecidableEq, Repr

/-- The struct `LyricLine` of types.go. -/
structure LyricLine where
  Lyric : GoString
  deriving DecidableEq, Repr

/-- The struct `LyricResponse` of types.go. -/
structure LyricResponse where
  Code : Int
  Lrc : LyricLine
  Tlyric : LyricLine
  Romalrc : LyricLine
  Klyric : LyricLine
  deriving DecidableEq, Repr

/-- The provider operations of `netease.Client` that the downloader calls, as given
results. Each of them returns either a response and no error, or no response and an
error, which is what `Except` holds. -/
structure Client where
  GetSongURL : Int → GoString → StrMap → Except Error SongURLResponse
  GetSongDetail : Int → Except Error SongDetailResponse
  GetLyrics : Int → StrMap → Except Error LyricResponse
  FetchSongStream : GoString → Except Error Bytes

/-- The variable `defaultCookies` of client.go. -/
def defaultCookies : StrMap :=
  [(str "os", str "pc"), (str "appver", str ""), (str "osver", str ""),
   (str "deviceId", str "pyncm!")]

/-- The map `merged` that `applyCookies` builds with its two loops. -/
def mergedCookies (cookies : StrMap) : StrMap :=
  let merged : StrMap := defaultCookies.foldl (fun m kv => m.set kv.1 kv.2) []
  cookies.foldl (fun m kv => if kv.1 = [] ∨ kv.2 = [] then m else m.set kv.1 kv.2) merged

/-- The Go `applyCookies` of client.go, as the value it sets for the header `Cookie`;
`none` when it returns without setting the header. `order` stands for the order in which
`for k, v := range merged` visits the entries of the map: Go leaves that order
unspecified, so it is a parameter, a rearrangement of the entries. -/
def applyCookies (order : StrMap → StrMap) (cookies : StrMap) : Option GoString :=
  let merged := mergedCookies cookies
  if merged.length = 0 then none
  else some (stringsJoin (str "; ") ((order merged).map fun kv => kv.1 ++ str "=" ++ kv.2))

/-- The Go `strconv.Itoa`. -/
def Itoa (n : Int) : GoString := str (toString n)

/-- The two adjustments of `limit` at the head of `Client.Search`. -/
def searchLimit (limit : Int) : Int :=
  let limit := if limit ≤ 0 then 10 else limit
  if limit > 100 then 100 else limit

/-- The form `data` that `Client.Search` posts to the provider. -/
def searchForm (keywords : GoString) (limit : Int) : StrMap :=
  let data : StrMap := []
  let data := data.set (str "s") keywords
  let data := data.set (str "type") (str "1")
  data.set (str "limit") (Itoa (searchLimit limit))

/-! ## internal/downloader/downloader.go -/

/-- The struct `MusicInfo` of downloader.go. -/
structure MusicInfo where
  ID : Int
  Name : GoString
  Artists : GoString
  Album : GoString
  PicURL : GoString
  Duration : Int
  FileType : GoString
  FileSize : Int
  Quality : GoString
  URL : GoString
  Lyric : GoString
  TLyric : GoString
  deriving DecidableEq, Repr

/-- The struct `Downloader` of downloader.go: `client` and `cookieManager` are
pointers, `none` being nil; a cookie manager is its field `FilePath`. -/
structure Downloader where
  client : Option Client
  cookieManager : Option GoString
  downloadDir : GoString

/-- The library functions used by the downloader: `os.ReadFile`, `os.IsNotExist`,
`strings.ToLower`, and `url.Parse` followed by the selection of `Path`. -/
structure Lib where
  ReadFile : GoString → Except Error GoString
  IsNotExist : Error → Bool
  ToLower : GoString → GoString
  urlParse : GoString → Except Error GoString

/-- The class `[<>:"/\\|?*]` of `illegalFilenameChars`. -/
def illegalFilenameChars (u : GoRune) : Bool :=
  u = .rune '<' ∨ u = .rune '>' ∨ u = .rune ':' ∨ u = .rune '"' ∨ u = .rune '/' ∨
  u = .rune '\\' ∨ u = .rune '|' ∨ u = .rune '?' ∨ u = .rune '*'

/-- The call `illegalFilenameChars.ReplaceAllString(base, "_")`: every match is one
rune, and is replaced by an underscore. -/
def replaceIllegal (base : GoString) : GoString :=
  base.map fun u => if illegalFilenameChars u then GoRune.rune '_' else u

/-- The method `Downloader.BuildFilename` of downloader.go. -/
def BuildFilename (info : MusicInfo) : GoString :=
  let base := info.Artists ++ str " - " ++ info.Name
  let base := replaceIllegal base
  let base := stringsTrimSpace base
  let base := if byteLen base > 200 then byteTake 200 base else base
  if base = [] then str "unknown" else base

/-- The Go `detectExtension` of downloader.go. -/
def detectExtension (lib : Lib) (rawURL : GoString) : GoString :=
  if rawURL = [] then str "mp3"
  else
    match lib.urlParse rawURL with
    | .error _ => str "mp3"
    | .ok path =>
      let lower := lib.ToLower path
      if stringsHasSuffix lower (str ".flac") then str "flac"
      else if stringsHasSuffix lower (str ".m4a") ∨ stringsHasSuffix lower (str ".mp4") then
        str "m4a"
      else if stringsHasSuffix lower (str ".mp3") then str "mp3"
      else str "mp3"

/-- The method `Downloader.GetMusicInfo` of downloader.go; `none` is the nil record. -/
def GetMusicInfo (lib : Lib) (d : Downloader) (songID : Int) (quality : GoString) :
    Option MusicInfo × Option Error :=
  match d.client with
  | none => (none, some (.msg "netease client is nil"))
  | some client =>
    let cookies : StrMap :=
      match d.cookieManager with
      | none => []
      | some path =>
        match ManagerParse lib.ReadFile lib.IsNotExist path with
        | (some parsed, none) => parsed
        | _ => []
    match client.GetSongURL songID quality cookies with
    | .error err => (none, some err)
    | .ok urlResp =>
      match urlResp.Data with
      | [] => (none, some (.msg "music url not available"))
      | urlData :: _ =>
        if urlData.URL = [] then (none, some (.msg "music url not available"))
        else
          match client.GetSongDetail songID with
          | .error err => (none, some err)
          | .ok detailResp =>
            match detailResp.Songs with
            | [] => (none, some (.msg "music detail not available"))
            | song :: _ =>
              let lyricResp : Option LyricResponse :=
                match client.GetLyrics songID cookies with
                | .ok resp => some resp
                | .error _ => none
              let lyricText := match lyricResp with
                | some resp => resp.Lrc.Lyric
                | none => []
              let tlyricText := match lyricResp with
                | some resp => resp.Tlyric.Lyric
                | none => []
              let artists := (song.Ar.filter fun artist => artist.Name ≠ []).map fun a => a.Name
              let fileType := lib.ToLower urlData.Type_
              let fileType := if fileType = [] then detectExtension lib urlData.URL else fileType
              (some {
                ID := songID
                Name := song.Name
                Artists := stringsJoin (str "/") artists
                Album := song.Al.Name
                PicURL := song.Al.PicURL
                Duration := song.Dt
                FileType := fileType
                FileSize := urlData.Size
                Quality := quality
                URL := urlData.URL
                Lyric := lyricText
                TLyric := tlyricText }, none)

/-- The file-system operations used by `DownloadToFile`, on an explicit state `σ`:
`os.MkdirAll(dir, 0755)`; `os.Stat(path)` followed by `Size()`, which reads the state
only; `os.Create(path)`; `io.Copy(file, stream)` into the file created at `path`, with
the number of bytes written; `filepath.Join`. -/
structure FileOps (σ : Type) where
  MkdirAll : σ → GoString → σ × Option Error
  Stat : σ → GoString → Except Error Int
  Create : σ → GoString → σ × Option Error
  Copy : σ → GoString → Bytes → σ × Int × Option Error
  Join : GoString → GoString → GoString

/-- What a call of `DownloadToFile` leaves: its three results, the file-system state,
and the URLs it fetched a stream from, in order. -/
structure DownloadOutcome (σ : Type) where
  filePath : GoString
  written : Int
  err : Option Error
  state : σ
  fetched : List GoString

/-- The file name that `DownloadToFile` joins to the download directory. -/
def downloadName (info : MusicInfo) : GoString :=
  let filename := BuildFilename info
  if !stringsHasSuffix filename (str "." ++ info.FileType) then
    filename ++ str "." ++ info.FileType
  else filename

/-- The method `Downloader.DownloadToFile` of downloader.go, from the file-system state
`s`; `info` is a pointer, `none` being nil. The outer `none` is the panic of a call
through a nil `client`. The deferred `Close` calls change nothing that is returned and
are left out. -/
def DownloadToFile {σ : Type} (os : FileOps σ) (d : Downloader) (s : σ)
    (info : Option MusicInfo) : Option (DownloadOutcome σ) :=
  match info with
  | none => some ⟨[], 0, some (.msg "music info is nil"), s, []⟩
  | some info =>
    if info.URL = [] then some ⟨[], 0, some (.msg "download url empty"), s, []⟩
    else
      match os.MkdirAll s d.downloadDir with
      | (s, some err) => some ⟨[], 0, some err, s, []⟩
      | (s, none) =>
        let filename := downloadName info
        let filePath := os.Join d.downloadDir filename
        let existing : Option Int :=
          match os.Stat s filePath with
          | .ok size => if size > 0 then some size else none
          | .error _ => none
        match existing with
        | some size => some ⟨filePath, size, none, s, []⟩
        | none =>
          match d.client with
          | none => none
          | some client =>
            match client.FetchSongStream info.URL with
            | .error err => some ⟨[], 0, some err, s, [info.URL]⟩
            | .ok stream =>
              match os.Create s filePath with
              | (s, some err) => some ⟨[], 0, some err, s, [info.URL]⟩
              | (s, none) =>
                match os.Copy s filePath stream with
                | (s, _, some err) => some ⟨[], 0, some err, s, [info.URL]⟩
                | (s, written, none) => some ⟨filePath, written, none, s, [info.URL]⟩

/-! ## The notions the properties of the cookie store are stated with -/

/-- Every element of the string is white space. -/
def SpaceOnly (w : GoString) : Prop := ∀ u ∈ w, u.isSpace = true

/-- The string has no leading and no trailing white space. -/
def NoSpaceAround (s : GoString) : Prop :=
  (∀ u t, s = u :: t → u.isSpace = false) ∧ (∀ u t, s = t ++ [u] → u.isSpace = false)

/-- The string is the ASCII word `w` with each letter in lower or in upper case. -/
def AnyCaseOf (w : List Char) (s : GoString) : Prop :=
  List.Forall₂ (fun c u => u = GoRune.rune c ∨ u = GoRune.rune c.toUpper) w s

/-- A pair written `k=v` in a cookie text. -/
def cookieItem (kv : GoString × GoString) : GoString := kv.1 ++ str "=" ++ kv.2

/-- A key and a value that a cookie text can carry as they are: both non-empty, without
white space around, without `;` and newline, and the key without `=`. -/
def PlainPair (kv : GoString × GoString) : Prop :=
  kv.1 ≠ [] ∧ kv.2 ≠ [] ∧ NoSpaceAround kv.1 ∧ NoSpaceAround kv.2 ∧
  GoRune.rune ';' ∉ kv.1 ∧ GoRune.rune '\n' ∉ kv.1 ∧ GoRune.rune '=' ∉ kv.1 ∧
  GoRune.rune ';' ∉ kv.2 ∧ GoRune.rune '\n' ∉ kv.2

/-! ## Providers, library functions and a file system for the examples -/

/-- A provider for examples: the stream-URL operation answers `urlResp`, the
song-detail operation answers `detail`, the lyrics operation answers `lyrics`. -/
def sampleClient (urlResp : Except Error SongURLResponse)
    (detail : Except Error SongDetailResponse) (lyrics : Except Error LyricResponse) : Client :=
  { GetSongURL := fun _ _ _ => urlResp
    GetSongDetail := fun _ => detail
    GetLyrics := fun _ _ => lyrics
    FetchSongStream := fun _ => .ok [1, 2, 3] }

/-- Library functions for examples. -/
def sampleLib : Lib :=
  { ReadFile := fun _ => .error (.external 2)
    IsNotExist := fun _ => true
    ToLower := fun s => s
    urlParse := fun s => .ok s }

/-- A file system for examples: the state lists the regular files with their content;
every directory can be made. -/
def sampleFS : FileOps (List (GoString × Bytes)) :=
  { MkdirAll := fun s _ => (s, none)
    Stat := fun s p =>
      match s.find? fun f => f.1 = p with
      | some f => .ok f.2.length
      | none => .error (.external 2)
    Create := fun s p => ((p, []) :: s.filter fun f => f.1 ≠ p, none)
    Copy := fun s p data => ((p, data) :: s.filter fun f => f.1 ≠ p, data.length, none)
    Join := fun dir name => dir ++ str "/" ++ name }

/-! ## internal/netease/client.go: the playlist lookup and the picture URL -/

/-- The struct `SongDetailPayload` of types.go. -/
structure SongDetailPayload where
  ID : Int
  V : Int
  deriving DecidableEq, Repr

/-- The struct `TrackInfo` of types.go. -/
structure TrackInfo where
  ID : Int
  Name : GoString
  Artists : GoString
  Album : GoString
  PicURL : GoString
  Duration : Int
  deriving DecidableEq, Repr

/-- The struct `PlaylistCreator` of types.go. -/
structure PlaylistCreator where
  Nickname : GoString
  deriving DecidableEq, Repr

/-- The struct `PlaylistTrackID` of types.go. -/
structure PlaylistTrackID where
  ID : Int
  deriving DecidableEq, Repr

/-- The struct `Playlist` of types.go. -/
structure Playlist where
  ID : Int
  Name : GoString
  CoverImgURL : GoString
  Creator : PlaylistCreator
  TrackCount : Int
  Description : GoString
  TrackIds : List PlaylistTrackID
  deriving DecidableEq, Repr

/-- The struct `PlaylistDetailResponse` of types.go. -/
structure PlaylistDetailResponse where
  Code : Int
  Playlist : Playlist
  deriving DecidableEq, Repr

/-- The struct `PlaylistInfo` of types.go. -/
structure PlaylistInfo where
  ID : Int
  Name : GoString
  CoverImgURL : GoString
  PicURL : GoString
  Creator : GoString
  TrackCount : Int
  Description : GoString
  Tracks : List TrackInfo
  deriving DecidableEq, Repr

/-- The Go `trackInfoFromSong` of client.go. -/
def trackInfoFromSong (song : SongDetailSong) : TrackInfo :=
  let artists := (song.Ar.filter fun artist => artist.Name ≠ []).map fun a => a.Name
  { ID := song.ID
    Name := song.Name
    Artists := stringsJoin (str "/") artists
    Album := song.Al.Name
    PicURL := song.Al.PicURL
    Duration := song.Dt }

/-- The method `Client.getSongDetailBatch` of client.go. `post` stands for the exchange
with the provider under the cookies of the call: the payload is marshalled and posted,
and the answer decoded. -/
def getSongDetailBatch (post : List SongDetailPayload → Except Error SongDetailResponse)
    (ids : List Int) : Except Error (List SongDetailSong) :=
  let payload := ids.map fun id => ({ ID := id, V := 0 } : SongDetailPayload)
  match post payload with
  | .error err => .error err
  | .ok resp =>
    if resp.Code ≠ 200 then .error (.msg "netease: song detail batch failed")
    else .ok resp.Songs

/-- The loop `for i := 0; i < len(trackIDs); i += 100` of `GetPlaylistDetail`, from the
state `(i, info.Tracks)`. With the tracks the loop carries `issued`, the batches handed to
`getSongDetailBatch` so far, in order. The first argument bounds the number of iterations;
`none` is an exhausted bound. The result is the track list, or the error of the lookup
that failed. -/
def playlistLoop (post : List SongDetailPayload → Except Error SongDetailResponse)
    (trackIDs : List Int) :
    Nat → Nat → List TrackInfo → List (List Int) →
      Option (Except Error (List TrackInfo) × List (List Int))
  | 0, i, tracks, issued => if i < trackIDs.length then none else some (.ok tracks, issued)
  | fuel + 1, i, tracks, issued =>
    if i < trackIDs.length then
      let stop := i + 100
      let stop := if stop > trackIDs.length then trackIDs.length else stop
      let batch := (trackIDs.take stop).drop i
      match getSongDetailBatch post batch with
      | .error err => some (.error err, issued ++ [batch])
      | .ok songs =>
        playlistLoop post trackIDs fuel (i + 100) (tracks ++ songs.map trackInfoFromSong)
          (issued ++ [batch])
    else some (.ok tracks, issued)

/-- What a call of `GetPlaylistDetail` leaves: its two results (`none` is nil) and the
batches it handed to `getSongDetailBatch`, in order. -/
structure PlaylistOutcome where
  info : Option PlaylistInfo
  err : Option Error
  lookups : List (List Int)
  deriving DecidableEq, Repr

/-- The method `Client.GetPlaylistDetail` of client.go. `fetch` stands for the playlist
request (form, post, decoding), `post` for the exchange of `getSongDetailBatch`. The outer
`none` is a loop that did not end within its bound. -/
def GetPlaylistDetail (fetch : Int → Except Error PlaylistDetailResponse)
    (post : List SongDetailPayload → Except Error SongDetailResponse) (playlistID : Int) :
    Option PlaylistOutcome :=
  match fetch playlistID with
  | .error err => some ⟨none, some err, []⟩
  | .ok resp =>
    if resp.Code ≠ 200 then some ⟨none, some (.msg "netease: playlist request failed"), []⟩
    else
      let playlist := resp.Playlist
      let info : PlaylistInfo :=
        { ID := playlist.ID
          Name := playlist.Name
          CoverImgURL := playlist.CoverImgURL
          PicURL := playlist.CoverImgURL
          Creator := playlist.Creator.Nickname
          TrackCount := playlist.TrackCount
          Description := playlist.Description
          Tracks := [] }
      let trackIDs := playlist.TrackIds.map fun item => item.ID
      if trackIDs.length = 0 then some ⟨some info, none, []⟩
      else
        match playlistLoop post trackIDs trackIDs.length 0 info.Tracks [] with
        | none => none
        | some (.error err, issued) => some ⟨none, some err, issued⟩
        | some (.ok tracks, issued) => some ⟨some { info with Tracks := tracks }, none, issued⟩

/-! ### internal/crypto/utils.go and `Client.GetPicURL` -/

/-- The Go `strconv.FormatInt(n, 10)`. -/
def FormatInt (n : Int) : GoString := str (toString n)

/-- The conversion `[]byte(s)` of a string. -/
def goBytes (s : GoString) : Bytes := s.flatMap GoRune.toBytes

/-- The alphabet `encodeStd` of `encoding/base64`. -/
def encodeStd : List Char :=
  "ABCDEFGHIJKLMNOPQRSTUVWXYZabcdefghijklmnopqrstuvwxyz0123456789+/".toList

/-- The symbol of `base64.StdEncoding` for a six-bit value. -/
def encodeStdAt (v : Nat) : GoRune := .rune (encodeStd.getD (v % 64) 'A')

/-- The Go `base64.StdEncoding.EncodeToString`: three bytes give the 24-bit value
`b0<<16 | b1<<8 | b2` and the four symbols of its six-bit parts; a remainder of one or
two bytes is encoded with the missing bytes as zero, and padded with `=`. -/
def base64StdEncode : Bytes → GoString
  | b0 :: b1 :: b2 :: rest =>
    let val := b0 * 65536 + b1 * 256 + b2
    encodeStdAt (val / 262144) :: encodeStdAt (val / 4096) :: encodeStdAt (val / 64) ::
      encodeStdAt val :: base64StdEncode rest
  | [b0, b1] =>
    let val := b0 * 65536 + b1 * 256
    [encodeStdAt (val / 262144), encodeStdAt (val / 4096), encodeStdAt (val / 64), .rune '=']
  | [b0] =>
    let val := b0 * 65536
    [encodeStdAt (val / 262144), encodeStdAt (val / 4096), .rune '=', .rune '=']
  | [] => []

/-- The Go `MD5Bytes` of utils.go; `md5Sum` is the library function `md5.Sum`. -/
def MD5Bytes (md5Sum : Bytes → Bytes16) (data : Bytes) : Bytes := (md5Sum data).val

/-- The Go `Base64Encode` of utils.go. -/
def Base64Encode (data : Bytes) : GoString := base64StdEncode data

/-- The Go `strings.ReplaceAll(s, old, new)` for `old` and `new` of one ASCII rune each. -/
def stringsReplaceAll (s : GoString) (old new : Char) : GoString :=
  s.map fun u => if u = .rune old then .rune new else u

/-- The variable `magic` of `GetPicURL`. -/
def magic : Bytes := lit "3go8&$8*3*3h0k(2)2"

/-- The loop `for i := range songID` of `GetPicURL`: the slice after the assignments
`songID[i] = songID[i] ^ magic[i%len(magic)]` for every index. -/
def xorMagic (songID : Bytes) : Bytes :=
  (List.range songID.length).foldl
    (fun songID i => songID.set i (songID.getD i 0 ^^^ magic.getD (i % magic.length) 0)) songID

/-- The method `Client.GetPicURL` of client.go. -/
def GetPicURL (md5Sum : Bytes → Bytes16) (picID : Int) (size : Int) : GoString :=
  if picID = 0 then []
  else
    let size := if size ≤ 0 then 300 else size
    let songID := goBytes (FormatInt picID)
    let songID := xorMagic songID
    let sum := MD5Bytes md5Sum songID
    let encoded := Base64Encode sum
    let encoded := stringsReplaceAll encoded '/' '_'
    let encoded := stringsReplaceAll encoded '+' '-'
    str "https://p3.music.126.net/" ++ encoded ++ str "/" ++ FormatInt picID ++
      str ".jpg?param=" ++ Itoa size ++ str "y" ++ Itoa size

/-! ## The notions the later properties are stated with -/

/-- The strategies of `extractID` that come after the short-link step, on a text: the
`id=` token, then the keyword pattern, then the run of five or more digits, else the
failure. -/
def laterStrategies (t : Text) : Int × Option Error :=
  match idRegexFind t with
  | some g => ParseInt g
  | none =>
    match songIDPatternFind t with
    | some g => ParseInt g
    | none =>
      match numberRegexFind t with
      | some g => ParseInt g
      | none => (0, some (.msg "无法从输入中提取ID"))

/-- The key of `GetPicURL` repeated along a text of `n` bytes: byte `i` of it is byte
`i mod 18` of the key. -/
def repeatingKey (n : Nat) : Bytes := (List.range n).map fun i => magic.getD (i % 18) 0

/-- Two byte strings of one length, XORed byte by byte. -/
def xorBytes (a b : Bytes) : Bytes := List.zipWith (fun x y => x ^^^ y) a b

/-- Each batch of a list is non-empty and holds at most a hundred IDs. -/
def BatchesBounded (batches : List (List Int)) : Prop :=
  ∀ b ∈ batches, b ≠ [] ∧ b.length ≤ 100

/-- A provider for examples that answers every song-detail lookup with one song per
ID asked for. -/
def samplePost (payload : List SongDetailPayload) : Except Error SongDetailResponse :=
  .ok { Code := 200
        Songs := payload.map fun p =>
          { ID := p.ID, Name := str "t", Ar := [], Al := ⟨[], [], 0⟩, Dt := 0, No := 0 } }

/-- A playlist for examples, with the given track IDs. -/
def samplePlaylist (ids : List Int) : Int → Except Error PlaylistDetailResponse :=
  fun id => .ok { Code := 200
                  Playlist := { ID := id, Name := str "p", CoverImgURL := [], Creator := ⟨[]⟩,
                                TrackCount := ids.length, Description := [],
                                TrackIds := ids.map fun i => ⟨i⟩ } }

/-- A hash function for examples. -/
def sampleMd5 : Bytes → Bytes16 := fun _ => ⟨List.replicate 16 251, by decide⟩

/-- The tracks that the lookups of a list of batches give, lookup by lookup. -/
def tracksOf (post : List SongDetailPayload → Except Error SongDetailResponse)
    (batches : List (List Int)) : List TrackInfo :=
  batches.flatMap fun b =>
    match getSongDetailBatch post b with
    | .ok songs => songs.map trackInfoFromSong
    | .error _ => []

/-- The sanitised and trimmed string "<artists> - <name>" that `BuildFilename` then cuts
to its length limit. -/
def sanitisedBase (info : MusicInfo) : GoString :=
  stringsTrimSpace (replaceIllegal (info.Artists ++ str " - " ++ info.Name))

/-- The pair that one part of a cookie text puts into the map, if it puts one: the
trimmed texts before and after the first `=` of the trimmed part, when both are not
empty. -/
def partPair (part : GoString) : Option (GoString × GoString) :=
  match stringsSplitN2 (.rune '=') (stringsTrimSpace part) with
  | none => none
  | some (k, v) =>
    if stringsTrimSpace k = [] ∨ stringsTrimSpace v = [] then none
    else some (stringsTrimSpace k, stringsTrimSpace v)

/-- The cookie text that `ParseCookieString` splits: its argument trimmed, without a
byte-order mark at the head, and without a `cookie:` prefix. -/
def cookieText (cookieString : GoString) : GoString :=
  let cookieString := stringsTrimSpace cookieString
  let cookieString := stringsTrimPrefix cookieString bom
  if hasPrefixLower "cookie:".toList cookieString then
    stringsTrimSpace (byteDrop 7 cookieString)
  else cookieString

/-- An entry whose key and value are not empty and have no white space around, and whose
key has no `=`. -/
def CleanEntry (kv : GoString × GoString) : Prop :=
  kv.1 ≠ [] ∧ kv.2 ≠ [] ∧ NoSpaceAround kv.1 ∧ NoSpaceAround kv.2 ∧ GoRune.rune '=' ∉ kv.1

/-- The value of the last pair of a list that has the key `k`. -/
def lastValue (pairs : StrMap) (k : GoString) : Option GoString :=
  (pairs.reverse.find? fun kv => kv.1 = k).map Prod.snd

/-! ## Proofs: PKCS7Pad -/

theorem tmod_len (n : Nat) {b : Int} (hb : 0 < b) :
    Int.tmod (n : Int) b = (n : Int) % b :=
  Int.tmod_eq_emod (Int.ofNat_nonneg n) (le_of_lt hb)

/-- With a positive block size, the pad length `p` of `PKCS7Pad`. -/
theorem PKCS7Pad_eq (data : Bytes) (blockSize : Int) (hb : 0 < blockSize) :
    PKCS7Pad data blockSize =
      data ++ List.replicate (blockSize - (data.length : Int) % blockSize).toNat
        (toByte (blockSize - (data.length : Int) % blockSize)) := by
  have h1 := Int.emod_lt_of_pos (data.length : Int) hb
  have h0 : ¬ blockSize ≤ 0 := not_le.mpr hb
  have h2 : ¬ (blockSize - (data.length : Int) % blockSize = 0) := by omega
  simp only [PKCS7Pad, tmod_len _ hb, if_neg h0, if_neg h2]

theorem PKCS7Pad_length (data : Bytes) (blockSize : Int) (hb : 0 < blockSize) :
    ((PKCS7Pad data blockSize).length : Int) =
      data.length + (blockSize - (data.length : Int) % blockSize) := by
  have h1 := Int.emod_lt_of_pos (data.length : Int) hb
  rw [PKCS7Pad_eq data blockSize hb]
  simp only [List.length_append, List.length_replicate, Nat.cast_add]
  rw [Int.toNat_of_nonneg (by omega)]

theorem PKCS7Pad_dvd (data : Bytes) (blockSize : Int) (hb : 0 < blockSize) :
    blockSize ∣ ((PKCS7Pad data blockSize).length : Int) := by
  rw [PKCS7Pad_length data blockSize hb]
  have h3 : ((data.length : Int) + (blockSize - (data.length : Int) % blockSize))
      = blockSize * ((data.length : Int) / blockSize + 1) := by
    have := Int.emod_add_ediv (data.length : Int) blockSize
    linarith
  rw [h3]
  exact Dvd.intro _ rfl

/-- C8: for every data and every blockSize > 0 the length of PKCS7Pad(data, blockSize)
is a positive multiple of blockSize, strictly greater than len(data), at most
len(data) + blockSize, and exactly len(data) + blockSize when len(data) is already a
multiple of blockSize (empty data included). -/
theorem PKCS7Pad_length_spec (data : Bytes) (blockSize : Int) (hb : 0 < blockSize) :
    (0 < (PKCS7Pad data blockSize).length) ∧
    (blockSize ∣ ((PKCS7Pad data blockSize).length : Int)) ∧
    (data.length < (PKCS7Pad data blockSize).length) ∧
    (((PKCS7Pad data blockSize).length : Int) ≤ data.length + blockSize) ∧
    ((data.length : Int) % blockSize = 0 →
      ((PKCS7Pad data blockSize).length : Int) = data.length + blockSize) := by
  have hlen := PKCS7Pad_length data blockSize hb
  have h1 := Int.emod_lt_of_pos (data.length : Int) hb
  have h2 := Int.emod_nonneg (data.length : Int) (ne_of_gt hb)
  have hdiv := PKCS7Pad_dvd data blockSize hb
  refine ⟨?_, hdiv, ?_, ?_, ?_⟩
  · omega
  · omega
  · omega
  · intro h0
    omega

theorem PKCS7Pad_length_spec_witness :
    (0 : Int) < 4 ∧ (PKCS7Pad [1, 2, 3, 4] 4).length = 8 :=
  ⟨by decide, by
    have h := (PKCS7Pad_length_spec [1, 2, 3, 4] 4 (by decide)).2.2.2.2 (by decide)
    exact_mod_cast h⟩

/-- C9, as stated, fails: with blockSize 256 and empty data the pad length is 256, and
the 256 padding bytes hold `byte(256) = 0`, not 256. -/
theorem PKCS7Pad_value_counterexample :
    PKCS7Pad [] 256 = List.replicate 256 0 ∧
    PKCS7Pad [] 256 ≠ [] ++ List.replicate 256 256 := by
  constructor
  · rfl
  · intro h
    have := congrArg List.head? h
    revert this
    decide

/-- C9, amended: for every data and every blockSize > 0, PKCS7Pad(data, blockSize) is
data followed by exactly p bytes each holding the low byte of p (p mod 256), where
p = blockSize - (len(data) mod blockSize) and 1 ≤ p ≤ blockSize; the bytes hold p
itself whenever p ≤ 255; data is preserved as a prefix. -/
theorem PKCS7Pad_content (data : Bytes) (blockSize : Int) (hb : 0 < blockSize) :
    PKCS7Pad data blockSize =
      data ++ List.replicate (blockSize - (data.length : Int) % blockSize).toNat
        ((blockSize - (data.length : Int) % blockSize) % 256).toNat ∧
    (1 ≤ blockSize - (data.length : Int) % blockSize ∧
      blockSize - (data.length : Int) % blockSize ≤ blockSize) ∧
    (blockSize - (data.length : Int) % blockSize ≤ 255 →
      PKCS7Pad data blockSize =
        data ++ List.replicate (blockSize - (data.length : Int) % blockSize).toNat
          (blockSize - (data.length : Int) % blockSize).toNat) ∧
    data <+: PKCS7Pad data blockSize := by
  have h1 := Int.emod_lt_of_pos (data.length : Int) hb
  have h2 := Int.emod_nonneg (data.length : Int) (ne_of_gt hb)
  have he := PKCS7Pad_eq data blockSize hb
  refine ⟨he, ⟨by omega, by omega⟩, ?_, ?_⟩
  · intro h255
    rw [he]
    have : toByte (blockSize - (data.length : Int) % blockSize)
        = (blockSize - (data.length : Int) % blockSize).toNat := by
      unfold toByte
      rw [Int.emod_eq_of_lt (by omega) (by omega)]
    rw [this]
  · rw [he]
    exact List.prefix_append _ _

theorem PKCS7Pad_content_witness :
    (0 : Int) < 4 ∧ PKCS7Pad [7, 7, 7] 4 = [7, 7, 7, 1] ∧ PKCS7Pad [9, 9, 9, 9] 4 = [9, 9, 9, 9, 4, 4, 4, 4] :=
  ⟨by decide,
   ((PKCS7Pad_content [7, 7, 7] 4 (by decide)).2.2.1 (by decide)).trans (by decide),
   by decide⟩

theorem take16_drop_update (enc : Bytes) (n j : Nat) (b : Bytes) (hb : b.length = 16)
    (hlen : enc.length = 16 * n) (hj : j < n) (i : Nat) (hi : i < n) :
    ((enc.take (16 * j) ++ b ++ enc.drop (16 * j + 16)).drop (16 * i)).take 16 =
      if i = j then b else (enc.drop (16 * i)).take 16 := by
  apply List.ext_getElem?
  intro k
  by_cases hij : i = j
  · subst hij
    rw [if_pos rfl]
    simp only [List.getElem?_take, List.getElem?_drop, List.getElem?_append, List.length_take,
      List.length_append, hb]
    by_cases hk : k < 16
    · have h1 : min (16 * i) enc.length = 16 * i := by omega
      rw [h1]
      simp [hk]
    · simp [hk]
      omega
  · rw [if_neg hij]
    simp only [List.getElem?_take, List.getElem?_drop, List.getElem?_append, List.length_take,
      List.length_append, hb]
    have h1 : min (16 * j) enc.length = 16 * j := by omega
    rw [h1]
    by_cases hk : k < 16
    · simp only [hk, if_true]
      by_cases hlt : i < j
      · have h2 : 16 * i + k < 16 * j + 16 := by omega
        have h3 : 16 * i + k < 16 * j := by omega
        simp [h2, h3]
      · have h2 : ¬ (16 * i + k < 16 * j + 16) := by omega
        simp only [h2, if_false]
        congr 1
        omega
    · simp [hk]

theorem blockAt_update (enc : Bytes) (n j : Nat) (b : Bytes16) (hlen : enc.length = 16 * n)
    (hj : j < n) (i : Nat) :
    blockAt (enc.take (16 * j) ++ b.val ++ enc.drop (16 * j + 16)) i =
      if i = j then some b else blockAt enc i := by
  have hb := b.property
  have hl : (enc.take (16 * j) ++ b.val ++ enc.drop (16 * j + 16)).length = enc.length := by
    simp only [List.length_append, List.length_take, List.length_drop, hb]
    omega
  unfold blockAt
  by_cases hi : 16 * i + 16 ≤ enc.length
  · rw [dif_pos (by rw [hl]; exact hi), dif_pos hi]
    have h := take16_drop_update enc n j b.val hb hlen hj i (by omega)
    by_cases hij : i = j
    · rw [if_pos hij] at h ⊢
      congr 1
      exact Subtype.ext h
    · rw [if_neg hij] at h ⊢
      congr 1
      exact Subtype.ext h
  · rw [dif_neg (by rw [hl]; exact hi), dif_neg hi]
    have : i ≠ j := by omega
    rw [if_neg this]

theorem encryptLoop_spec (block : Block) (data : Bytes) (n : Nat) (hlen : data.length = 16 * n) :
    ∀ (fuel j : Nat) (enc : Bytes), enc.length = 16 * n → j ≤ n → n - j ≤ fuel →
      ∃ r, encryptLoop block 16 data fuel (16 * j) enc = some r ∧ r.length = 16 * n ∧
        ∀ i, i < n → blockAt r i =
          if i < j then blockAt enc i else (blockAt data i).map block.encryptBlock := by
  intro fuel
  induction fuel with
  | zero =>
    intro j enc he hj hf
    have hjn : j = n := by omega
    refine ⟨enc, ?_, he, ?_⟩
    · simp [encryptLoop, hlen, hjn]
    · intro i hi
      rw [if_pos (by omega)]
  | succ fuel ih =>
    intro j enc he hj hf
    by_cases hjn : j = n
    · refine ⟨enc, ?_, he, ?_⟩
      · simp [encryptLoop, hlen, hjn]
      · intro i hi
        rw [if_pos (by omega)]
    · have hlt : j < n := by omega
      have hs : 16 * j < data.length := by omega
      have hdst : slice? enc (16 * j) (16 * j + 16) = some ((enc.take (16 * j + 16)).drop (16 * j)) := by
        unfold slice?
        rw [if_pos (by omega)]
      have hsrc : slice? data (16 * j) (16 * j + 16) = some ((data.take (16 * j + 16)).drop (16 * j)) := by
        unfold slice?
        rw [if_pos (by omega)]
      have hdl : ((enc.take (16 * j + 16)).drop (16 * j)).length = 16 := by
        simp only [List.length_drop, List.length_take]; omega
      have hsl : ((data.take (16 * j + 16)).drop (16 * j)).length = 16 := by
        simp only [List.length_drop, List.length_take]; omega
      have hbd : blockAt data j = some ⟨(data.drop (16 * j)).take 16, by
          rw [List.length_take, List.length_drop]; omega⟩ := by
        unfold blockAt
        rw [dif_pos (by omega)]
      obtain ⟨out, hout, hov⟩ : ∃ out : Bytes16,
          block.Encrypt ((enc.take (16 * j + 16)).drop (16 * j))
            ((data.take (16 * j + 16)).drop (16 * j)) = some out.val ∧
          (blockAt data j).map block.encryptBlock = some out := by
        refine ⟨block.encryptBlock ⟨(data.drop (16 * j)).take 16, by
          rw [List.length_take, List.length_drop]; omega⟩, ?_, ?_⟩
        · unfold Block.Encrypt
          rw [dif_pos (by omega)]
          have e1 : List.drop 16 ((enc.take (16 * j + 16)).drop (16 * j)) = [] := by
            apply List.drop_of_length_le; omega
          rw [e1, List.append_nil]
          congr 3
          apply Subtype.ext
          show List.take 16 ((data.take (16 * j + 16)).drop (16 * j)) = (data.drop (16 * j)).take 16
          rw [List.drop_take]
          have : 16 * j + 16 - 16 * j = 16 := by omega
          rw [this, List.take_take]
          simp
        · rw [hbd]; rfl
      have he2 : (enc.take (16 * j) ++ out.val ++ enc.drop (16 * j + 16)).length = 16 * n := by
        simp only [List.length_append, List.length_take, List.length_drop, out.property]
        omega
      obtain ⟨r, hr, hrl, hrb⟩ := ih (j + 1) _ he2 (by omega) (by omega)
      refine ⟨r, ?_, hrl, ?_⟩
      · rw [encryptLoop, if_pos hs]
        simp only [hdst, hsrc, hout]
        rw [← hr]
        congr 1
      · intro i hi
        rw [hrb i hi, blockAt_update enc n j out he hlt i]
        by_cases h1 : i < j
        · rw [if_pos (by omega), if_neg (by omega), if_pos h1]
        · by_cases h2 : i = j
          · rw [if_pos (by omega), if_pos h2, if_neg h1, h2, hov]
          · rw [if_neg (by omega), if_neg h1]

theorem PKCS7Pad16_length (data : Bytes) : ∃ n, (PKCS7Pad data 16).length = 16 * n := by
  obtain ⟨k, hk⟩ := PKCS7Pad_dvd data 16 (by decide)
  refine ⟨k.toNat, ?_⟩
  omega

theorem EncryptECB_ok (aes : Bytes → Bytes16 → Bytes16) (key data : Bytes)
    (hk : key.length = 16 ∨ key.length = 24 ∨ key.length = 32) :
    ∃ ct, EncryptECB aes key data = some (ct, none) ∧
      ct.length = (PKCS7Pad data 16).length ∧
      ∀ i, blockAt ct i = (blockAt (PKCS7Pad data 16) i).map (aes key) := by
  obtain ⟨n, hn⟩ := PKCS7Pad16_length data
  obtain ⟨r, hr, hrl, hrb⟩ := encryptLoop_spec ⟨aes key⟩ (PKCS7Pad data 16) n hn
    (PKCS7Pad data 16).length 0 (List.replicate (PKCS7Pad data 16).length 0)
    (by rw [List.length_replicate, hn]) (Nat.zero_le _) (by omega)
  refine ⟨r, ?_, by rw [hrl, hn], ?_⟩
  · have hk0 : ¬ key.length = 0 := by omega
    have hmod : ¬ ((PKCS7Pad data 16).length % 16 ≠ 0) := by omega
    unfold EncryptECB
    rw [if_neg hk0]
    simp only [NewCipher, if_pos hk, Block.BlockSize, Nat.cast_ofNat]
    rw [if_neg hmod]
    simp only [Nat.mul_zero] at hr
    rw [hr]
  · intro i
    by_cases hi : i < n
    · rw [hrb i hi, if_neg (by omega)]
    · have h1 : blockAt r i = none := by
        unfold blockAt; rw [dif_neg (by omega)]
      have h2 : blockAt (PKCS7Pad data 16) i = none := by
        unfold blockAt; rw [dif_neg (by omega)]
      rw [h1, h2]; rfl

/-- C10: for every valid key (16, 24 or 32 bytes) and every data, EncryptECB succeeds;
the ciphertext is as long as PKCS7Pad(data, 16); its i-th sixteen-byte block is the
single-block encryption under the key of the i-th block of the padded data, so that
equal padded blocks give equal ciphertext blocks. Being a function of (key, data), the
ciphertext is the same on every call. -/
theorem EncryptECB_blockwise (aes : Bytes → Bytes16 → Bytes16) (key data : Bytes)
    (hk : key.length = 16 ∨ key.length = 24 ∨ key.length = 32) :
    ∃ ct, EncryptECB aes key data = some (ct, none) ∧
      ct.length = (PKCS7Pad data 16).length ∧
      (∀ i, blockAt ct i = (blockAt (PKCS7Pad data 16) i).map (aes key)) ∧
      (∀ i j, blockAt (PKCS7Pad data 16) i = blockAt (PKCS7Pad data 16) j →
        blockAt ct i = blockAt ct j) := by
  obtain ⟨ct, h1, h2, h3⟩ := EncryptECB_ok aes key data hk
  refine ⟨ct, h1, h2, h3, ?_⟩
  intro i j hij
  rw [h3 i, h3 j, hij]

theorem EncryptECB_blockwise_witness :
    ((lit EAPIKey).length = 16 ∨ (lit EAPIKey).length = 24 ∨ (lit EAPIKey).length = 32) ∧
    ∃ ct, EncryptECB (fun _ b => b) (lit EAPIKey) [1, 2, 3] = some (ct, none) ∧
      ct.length = (PKCS7Pad [1, 2, 3] 16).length ∧
      (∀ i, blockAt ct i = (blockAt (PKCS7Pad [1, 2, 3] 16) i).map ((fun _ b => b) (lit EAPIKey))) ∧
      (∀ i j, blockAt (PKCS7Pad [1, 2, 3] 16) i = blockAt (PKCS7Pad [1, 2, 3] 16) j →
        blockAt ct i = blockAt ct j) :=
  ⟨by decide, EncryptECB_blockwise (fun _ b => b) (lit EAPIKey) [1, 2, 3] (by decide)⟩

/-! ## Proofs: the parameter signer -/

theorem hexEncode_length (xs : Bytes) : (hexEncode xs).length = 2 * xs.length := by
  induction xs with
  | nil => rfl
  | cons x xs ih =>
    have : hexEncode (x :: xs) =
        [hextable.getD (x / 16 % 16) 0, hextable.getD (x % 16) 0] ++ hexEncode xs := by
      simp [hexEncode]
    rw [this, List.length_append, ih]
    simp only [List.length_cons, List.length_nil]
    omega

theorem hextable_getD_mem (n : Nat) (hn : n < 16) : hextable.getD n 0 ∈ hextable := by
  interval_cases n <;> decide

theorem hexEncode_digits (xs : Bytes) : ∀ c ∈ hexEncode xs, c ∈ hextable := by
  intro c hc
  simp only [hexEncode, List.mem_flatMap, List.mem_cons, List.mem_singleton] at hc
  obtain ⟨v, _, hv⟩ := hc
  rcases hv with h | h | h
  · rw [h]; exact hextable_getD_mem _ (Nat.mod_lt _ (by decide))
  · rw [h]; exact hextable_getD_mem _ (Nat.mod_lt _ (by decide))
  · simp at h

theorem replaceFirst_leftmost (old new b : Bytes) (hold : old ≠ []) :
    ∀ a : Bytes, (∀ k, k < a.length → old.isPrefixOf ((a ++ old ++ b).drop k) = false) →
      replaceFirst old new (a ++ old ++ b) = a ++ new ++ b := by
  intro a
  induction a with
  | nil =>
    intro _
    obtain ⟨c, t, rfl⟩ := List.exists_cons_of_ne_nil hold
    have hp : (c :: t).isPrefixOf (c :: t ++ b) = true := by
      rw [List.isPrefixOf_iff_prefix]
      exact List.prefix_append _ _
    simp only [List.nil_append, List.cons_append] at hp ⊢
    rw [replaceFirst, if_pos hp]
    rw [show (c :: (t ++ b)) = (c :: t) ++ b from rfl, List.drop_left]
  | cons x a ih =>
    intro h
    have h0 := h 0 (by simp)
    simp only [List.drop_zero, List.cons_append] at h0
    simp only [List.cons_append]
    rw [replaceFirst, if_neg (by rw [h0]; simp)]
    congr 1
    have := ih (fun k hk => by
      have := h (k + 1) (by simp; omega)
      simpa using this)
    simpa using this

theorem replaceFirst_absent (old new : Bytes) (hold : old ≠ []) :
    ∀ s : Bytes, (∀ k, k < s.length → old.isPrefixOf (s.drop k) = false) →
      replaceFirst old new s = s := by
  intro s
  induction s with
  | nil => intro _; simp [replaceFirst, hold]
  | cons x s ih =>
    intro h
    have h0 := h 0 (by simp)
    simp only [List.drop_zero] at h0
    rw [replaceFirst, if_neg (by rw [h0]; simp)]
    congr 1
    exact ih (fun k hk => by
      have := h (k + 1) (by simp; omega)
      simpa using this)

/-- C7, as stated, fails: the path "/x/eapi/y" does not begin with "/eapi/", and its
rewritten form "/x/api/y" differs from it. -/
theorem rewritePath_inner_counterexample :
    (lit "/eapi/").isPrefixOf (lit "/x/eapi/y") = false ∧
    rewritePath (lit "/x/eapi/y") = lit "/x/api/y" ∧
    rewritePath (lit "/x/eapi/y") ≠ lit "/x/eapi/y" := by
  decide

/-- C7, amended: the rewrite replaces the leftmost occurrence of "/eapi/", wherever it
stands. A path that begins with "/eapi/" becomes "/api/" followed by the remainder
unchanged; a path a ++ "/eapi/" ++ b with no occurrence starting inside a becomes
a ++ "/api/" ++ b; a path with no occurrence at all is returned unchanged. -/
theorem rewritePath_spec :
    (∀ r : Bytes, rewritePath (lit "/eapi/" ++ r) = lit "/api/" ++ r) ∧
    (∀ a b : Bytes,
      (∀ k, k < a.length → (lit "/eapi/").isPrefixOf ((a ++ lit "/eapi/" ++ b).drop k) = false) →
      rewritePath (a ++ lit "/eapi/" ++ b) = a ++ lit "/api/" ++ b) ∧
    (∀ p : Bytes, (∀ k, k < p.length → (lit "/eapi/").isPrefixOf (p.drop k) = false) →
      rewritePath p = p) := by
  have hne : lit "/eapi/" ≠ [] := by decide
  refine ⟨?_, ?_, ?_⟩
  · intro r
    have := replaceFirst_leftmost (lit "/eapi/") (lit "/api/") r hne []
      (fun k hk => absurd hk (by simp))
    simpa [rewritePath] using this
  · intro a b h
    exact replaceFirst_leftmost (lit "/eapi/") (lit "/api/") b hne a h
  · intro p h
    exact replaceFirst_absent (lit "/eapi/") (lit "/api/") hne p h

theorem rewritePath_spec_witness :
    rewritePath (lit "/eapi/" ++ lit "song/url") = lit "/api/" ++ lit "song/url" ∧
    rewritePath (lit "/a" ++ lit "/eapi/" ++ lit "b") = lit "/a" ++ lit "/api/" ++ lit "b" ∧
    rewritePath (lit "/api/x") = lit "/api/x" :=
  ⟨rewritePath_spec.1 (lit "song/url"),
   rewritePath_spec.2.1 (lit "/a") (lit "b") (by decide),
   rewritePath_spec.2.2 (lit "/api/x") (by decide)⟩

/-- C6: for a non-empty URL that parses with path P and any payload J, with P' the
rewritten path and D the hex MD5 of "nobody" + P' + "use" + J + "md5forencrypt",
EncryptECB under "e82ckenh8dichen8" of P' + "-36cd479b6b5-" + J + "-36cd479b6b5-" + D
succeeds with a ciphertext ct, and EncryptEAPIParams returns, without error, the hex
encoding of ct; D has 32 characters; both encodings use only the digits
0123456789abcdef. For the empty URL EncryptEAPIParams returns the empty string and
an error. -/
theorem EncryptEAPIParams_spec (urlParse : Bytes → Except Error Bytes)
    (md5Sum : Bytes → Bytes16) (aes : Bytes → Bytes16 → Bytes16) (rawURL P J : Bytes)
    (hne : rawURL ≠ []) (hparse : urlParse rawURL = .ok P) :
    (∃ ct,
      EncryptECB aes (lit "e82ckenh8dichen8")
        (rewritePath P ++ lit "-36cd479b6b5-" ++ J ++ lit "-36cd479b6b5-" ++
          hexEncode (md5Sum (lit "nobody" ++ rewritePath P ++ lit "use" ++ J ++
            lit "md5forencrypt")).val) = some (ct, none) ∧
      EncryptEAPIParams urlParse md5Sum aes rawURL J = some (hexEncode ct, none) ∧
      (∀ c ∈ hexEncode ct, c ∈ lit "0123456789abcdef")) ∧
    (hexEncode (md5Sum (lit "nobody" ++ rewritePath P ++ lit "use" ++ J ++
        lit "md5forencrypt")).val).length = 32 ∧
    (∀ c ∈ hexEncode (md5Sum (lit "nobody" ++ rewritePath P ++ lit "use" ++ J ++
        lit "md5forencrypt")).val, c ∈ lit "0123456789abcdef") ∧
    EncryptEAPIParams urlParse md5Sum aes [] J = some ([], some (.msg "empty url")) := by
  refine ⟨?_, ?_, hexEncode_digits _, ?_⟩
  · obtain ⟨ct, hct, _, _⟩ := EncryptECB_ok aes (lit "e82ckenh8dichen8")
      (rewritePath P ++ lit "-36cd479b6b5-" ++ J ++ lit "-36cd479b6b5-" ++
        hexEncode (md5Sum (lit "nobody" ++ rewritePath P ++ lit "use" ++ J ++
          lit "md5forencrypt")).val) (by decide)
    refine ⟨ct, hct, ?_, hexEncode_digits ct⟩
    unfold EncryptEAPIParams
    rw [if_neg hne, hparse]
    simp only [md5Hex, EAPIKey]
    rw [hct]
  · rw [hexEncode_length, (md5Sum _).property]
  · unfold EncryptEAPIParams
    rw [if_pos rfl]

theorem EncryptEAPIParams_spec_witness :
    lit "/eapi/song" ≠ [] ∧
    (∃ ct, EncryptEAPIParams (fun u => .ok u) (fun _ => ⟨List.replicate 16 171, by decide⟩)
      (fun _ b => b) (lit "/eapi/song") (lit "x") = some (hexEncode ct, none)) ∧
    EncryptEAPIParams (fun u => .ok u) (fun _ => ⟨List.replicate 16 171, by decide⟩)
      (fun _ b => b) [] (lit "x") = some ([], some (.msg "empty url")) :=
  have h := EncryptEAPIParams_spec (fun u => .ok u)
    (fun _ => ⟨List.replicate 16 171, by decide⟩) (fun _ b => b) (lit "/eapi/song")
    (lit "/eapi/song") (lit "x") (by decide) rfl
  ⟨by decide, h.1.elim (fun ct hct => ⟨ct, hct.2.1⟩), h.2.2.2⟩

/-! ## Proofs: the identifier resolver -/

theorem isDigit_not_space (c : Char) (h : isDigit c = true) : isSpace c = false := by
  simp only [isDigit, Bool.and_eq_true, decide_eq_true_eq] at h
  simp only [isSpace, Bool.or_eq_false_iff, Bool.and_eq_false_iff, beq_eq_false_iff_ne,
    decide_eq_false_iff_not]
  omega

theorem dropWhile_allSpace (pre rest : Text) (h : AllSpace pre) :
    (pre ++ rest).dropWhile isSpace = rest.dropWhile isSpace := by
  induction pre with
  | nil => rfl
  | cons x pre ih =>
    have hx : isSpace x = true := h x (by simp)
    rw [List.cons_append, List.dropWhile_cons, if_pos hx]
    exact ih (fun c hc => h c (by simp [hc]))

theorem dropWhile_stop (c : Char) (t : Text) (h : isSpace c = false) :
    (c :: t).dropWhile isSpace = c :: t := by
  rw [List.dropWhile_cons, if_neg (by rw [h]; simp)]

/-- The Go `strings.TrimSpace` removes white space around a core that neither begins nor ends
with white space. -/
theorem trimSpace_surround (pre post : Text) (a b : Char) (mid : Text)
    (hpre : AllSpace pre) (hpost : AllSpace post)
    (ha : isSpace a = false) (hb : isSpace b = false) :
    trimSpace (pre ++ (a :: mid ++ [b]) ++ post) = a :: mid ++ [b] ∧
    trimSpace (pre ++ [a] ++ post) = [a] := by
  have hrev : AllSpace post.reverse := fun c hc => hpost c (List.mem_reverse.mp hc)
  constructor
  · unfold trimSpace
    rw [List.append_assoc, dropWhile_allSpace _ _ hpre]
    rw [List.cons_append, List.cons_append, dropWhile_stop _ _ ha]
    have : (a :: (mid ++ [b] ++ post)).reverse = post.reverse ++ (b :: (a :: mid).reverse) := by
      simp
    rw [this, dropWhile_allSpace _ _ hrev, dropWhile_stop _ _ hb]
    simp
  · unfold trimSpace
    rw [List.append_assoc, dropWhile_allSpace _ _ hpre]
    rw [List.cons_append, dropWhile_stop _ _ ha]
    have : (a :: ([] ++ post)).reverse = post.reverse ++ [a] := by simp
    rw [this, dropWhile_allSpace _ _ hrev, dropWhile_stop _ _ ha]
    simp

/-- A non-empty text is a single rune or has a first and a last rune. -/
theorem text_ends (s : Text) (hs : s ≠ []) :
    (∃ a, s = [a]) ∨ ∃ a mid b, s = a :: mid ++ [b] := by
  cases s with
  | nil => exact absurd rfl hs
  | cons a t =>
    rcases List.eq_nil_or_concat t with h | ⟨mid, b, h⟩
    · left; exact ⟨a, by rw [h]⟩
    · right; exact ⟨a, mid, b, by rw [h]; simp⟩

theorem trimSpace_core (pre post core : Text) (hpre : AllSpace pre) (hpost : AllSpace post)
    (hne : core ≠ [])
    (hfirst : ∀ c rest, core = c :: rest → isSpace c = false)
    (hlast : ∀ c front, core = front ++ [c] → isSpace c = false) :
    trimSpace (pre ++ core ++ post) = core := by
  rcases text_ends core hne with ⟨a, rfl⟩ | ⟨a, mid, b, rfl⟩
  · exact (trimSpace_surround pre post a a [] hpre hpost (hfirst a [] rfl) (hfirst a [] rfl)).2
  · exact (trimSpace_surround pre post a b mid hpre hpost (hfirst a _ rfl)
      (hlast b (a :: mid) rfl)).1

/-! ### strconv.ParseInt on digit strings -/

theorem decimalFrom_ge (ds : Text) : ∀ n : Nat,
    n ≤ ds.foldl (fun n c => n * 10 + digitVal c) n := by
  induction ds with
  | nil => intro n; exact Nat.le_refl _
  | cons c cs ih =>
    intro n
    rw [List.foldl_cons]
    exact le_trans (by omega) (ih _)

theorem parseUintLoop_digits (ds : Text) (hd : AllDigits ds) : ∀ n : Nat, n ≤ maxUint64 →
    parseUintLoop ds n =
      if ds.foldl (fun n c => n * 10 + digitVal c) n ≤ maxUint64
      then (ds.foldl (fun n c => n * 10 + digitVal c) n, none)
      else (maxUint64, some .outOfRange) := by
  induction ds with
  | nil =>
    intro n hn
    simp only [parseUintLoop, List.foldl_nil]
    rw [if_pos hn]
  | cons c cs ih =>
    intro n hn
    have hc : isDigit c = true := hd c (by simp)
    have hcs : AllDigits cs := fun x hx => hd x (by simp [hx])
    have hge := decimalFrom_ge cs (n * 10 + digitVal c)
    rw [parseUintLoop, List.foldl_cons]
    simp only [hc, Bool.not_true, Bool.false_eq_true, if_false]
    by_cases h1 : n ≥ maxUint64 / 10 + 1
    · rw [if_pos h1, if_neg]
      have : maxUint64 = 18446744073709551615 := by decide
      rw [this] at h1 ⊢
      omega
    · rw [if_neg h1]
      by_cases h2 : n * 10 + digitVal c > maxUint64
      · rw [if_pos h2, if_neg]
        omega
      · rw [if_neg h2]
        exact ih hcs _ (by omega)

theorem digit_not_sign (c : Char) (hc : isDigit c = true) : c ≠ '+' ∧ c ≠ '-' := by
  constructor <;> (intro h; subst h; revert hc; decide)

/-- The Go `strconv.ParseInt` on a non-empty string of digits: the number they denote when it
is below 2^63, otherwise the range error (with the largest `int64`). -/
theorem ParseInt_digits (ds : Text) (hne : ds ≠ []) (hd : AllDigits ds) :
    ParseInt ds =
      if decimal ds < 2 ^ 63 then ((decimal ds : Int), none)
      else ((2 : Int) ^ 63 - 1, some .outOfRange) := by
  cases ds with
  | nil => exact absurd rfl hne
  | cons c t =>
    have hc : isDigit c = true := hd c (by simp)
    obtain ⟨hp, hm⟩ := digit_not_sign c hc
    have hU : ParseUint (c :: t) =
        if decimal (c :: t) ≤ maxUint64 then (decimal (c :: t), none)
        else (maxUint64, some .outOfRange) := by
      unfold ParseUint decimal
      rw [if_neg (by simp)]
      exact parseUintLoop_digits (c :: t) hd 0 (Nat.zero_le _)
    have hmax : maxUint64 = 18446744073709551615 := by decide
    unfold ParseInt
    simp only [hp, hm, if_false]
    rw [hU]
    have h63 : (2 : Nat) ^ 63 = 9223372036854775808 := by decide
    rw [h63]
    by_cases h1 : decimal (c :: t) ≤ maxUint64
    · rw [if_pos h1]
      by_cases h2 : decimal (c :: t) < 9223372036854775808
      · rw [if_pos h2]
        simp only []
        rw [if_neg (by omega), if_neg (by simp [hm])]
      · rw [if_neg h2]
        simp only []
        rw [if_pos ⟨by simp [hm], by omega⟩]
    · rw [if_neg h1]
      have h2 : ¬ decimal (c :: t) < 9223372036854775808 := by rw [hmax] at h1; omega
      rw [if_neg h2]
      simp only []
      rw [if_pos ⟨by simp [hm], by rw [hmax]; omega⟩]

/-! ### Leftmost matching -/

theorem findFirst_head (m : Text → Option Text) (t g : Text) (h : m t = some g) :
    findFirst m t = some g := by
  cases t with
  | nil => simpa [findFirst] using h
  | cons c t => simp [findFirst, h]

theorem findFirst_skip (m : Text → Option Text) (rest : Text) :
    ∀ pre : Text, (∀ k, k < pre.length → m ((pre ++ rest).drop k) = none) →
      findFirst m (pre ++ rest) = findFirst m rest := by
  intro pre
  induction pre with
  | nil => intro _; rfl
  | cons x pre ih =>
    intro h
    have h0 := h 0 (by simp)
    simp only [List.drop_zero, List.cons_append] at h0
    rw [List.cons_append, findFirst, h0]
    exact ih (fun k hk => by
      have := h (k + 1) (by simp; omega)
      simpa using this)

theorem findFirst_none (m : Text → Option Text) :
    ∀ t : Text, (∀ k, m (t.drop k) = none) → findFirst m t = none := by
  intro t
  induction t with
  | nil => intro h; simpa [findFirst] using h 0
  | cons x t ih =>
    intro h
    have h0 := h 0
    simp only [List.drop_zero] at h0
    rw [findFirst, h0]
    exact ih (fun k => by simpa using h (k + 1))

theorem findFirst_some (m : Text → Option Text) :
    ∀ (t g : Text), findFirst m t = some g → ∃ k, m (t.drop k) = some g := by
  intro t
  induction t with
  | nil => intro g h; exact ⟨0, by simpa [findFirst] using h⟩
  | cons x t ih =>
    intro g h
    rw [findFirst] at h
    cases hm : m (x :: t) with
    | some g' =>
      rw [hm] at h
      exact ⟨0, by simpa [hm] using h⟩
    | none =>
      rw [hm] at h
      obtain ⟨k, hk⟩ := ih g h
      exact ⟨k + 1, by simpa using hk⟩

/-! ### Digit runs -/

theorem takeWhile_digits (ds post : Text) (hd : AllDigits ds) (hp : NoDigitAhead post) :
    (ds ++ post).takeWhile isDigit = ds := by
  induction ds with
  | nil =>
    cases post with
    | nil => rfl
    | cons c rest =>
      have := hp c rest rfl
      simp [List.takeWhile_cons, this]
  | cons x ds ih =>
    have hx : isDigit x = true := hd x (by simp)
    rw [List.cons_append, List.takeWhile_cons, if_pos hx]
    congr 1
    exact ih (fun c hc => hd c (by simp [hc]))

theorem takeWhile_digits_ge (ds rest : Text) (hd : AllDigits ds) :
    ds.length ≤ ((ds ++ rest).takeWhile isDigit).length := by
  induction ds with
  | nil => simp
  | cons x ds ih =>
    have hx : isDigit x = true := hd x (by simp)
    rw [List.cons_append, List.takeWhile_cons, if_pos hx]
    simp only [List.length_cons]
    have := ih (fun c hc => hd c (by simp [hc]))
    omega

theorem takeWhile_allDigits (t : Text) : AllDigits (t.takeWhile isDigit) := by
  intro c hc
  exact (List.mem_takeWhile_imp hc)

theorem dropWhile_noDigit (nd rest : Text) (h : NoDigit nd) :
    (nd ++ rest).dropWhile (fun c => !isDigit c) = rest.dropWhile (fun c => !isDigit c) := by
  induction nd with
  | nil => rfl
  | cons x nd ih =>
    have hx : isDigit x = false := h x (by simp)
    rw [List.cons_append, List.dropWhile_cons, if_pos (by simp [hx])]
    exact ih (fun c hc => h c (by simp [hc]))

theorem digitRun_cons (c : Char) (rest : Text) (hc : isDigit c = true) :
    digitRun (c :: rest) = some ((c :: rest).takeWhile isDigit) := by
  unfold digitRun
  rw [if_neg]
  rw [List.takeWhile_cons, if_pos hc]
  simp

theorem digitRun_some (s g : Text) (h : digitRun s = some g) :
    ∃ c rest, s = c :: rest ∧ isDigit c = true ∧ g = s.takeWhile isDigit := by
  unfold digitRun at h
  by_cases he : s.takeWhile isDigit = []
  · rw [if_pos he] at h; exact absurd h (by simp)
  · rw [if_neg he] at h
    cases s with
    | nil => exact absurd rfl he
    | cons c rest =>
      refine ⟨c, rest, rfl, ?_, by simpa using h.symm⟩
      by_contra hc
      apply he
      rw [List.takeWhile_cons, if_neg hc]

theorem afterKeyword_digit (nd : Text) (c : Char) (rest : Text) (hnd : NoDigit nd)
    (hc : isDigit c = true) :
    afterKeyword (nd ++ c :: rest) = some ((c :: rest).takeWhile isDigit) := by
  unfold afterKeyword
  rw [dropWhile_noDigit _ _ hnd, List.dropWhile_cons, if_neg (by simp [hc])]
  exact digitRun_cons c rest hc

theorem afterKeyword_some (s g : Text) (h : afterKeyword s = some g) :
    ∃ nd c rest, s = nd ++ c :: rest ∧ NoDigit nd ∧ isDigit c = true := by
  unfold afterKeyword at h
  obtain ⟨c, rest, hs, hc, _⟩ := digitRun_some _ g h
  refine ⟨s.takeWhile (fun c => !isDigit c), c, rest, ?_, ?_, hc⟩
  · rw [← hs, List.takeWhile_append_dropWhile]
  · intro x hx
    have := List.mem_takeWhile_imp hx
    simpa using this

/-! ### Case-insensitive literals -/

theorem litFold_append (rest : Text) : ∀ (w kw : Text), FoldCase w kw →
    litFold w (kw ++ rest) = some rest := by
  intro w kw h
  induction h with
  | nil => cases rest <;> rfl
  | cons hpc _ ih =>
    rw [List.cons_append, litFold, if_pos (by simpa using hpc)]
    exact ih

theorem litFold_some : ∀ (w t r : Text), litFold w t = some r →
    ∃ kw, FoldCase w kw ∧ t = kw ++ r := by
  intro w
  induction w with
  | nil =>
    intro t r h
    have : t = r := by cases t <;> simpa [litFold] using h
    exact ⟨[], List.Forall₂.nil, by simpa using this⟩
  | cons p ps ih =>
    intro t r h
    cases t with
    | nil => simp [litFold] at h
    | cons c s =>
      rw [litFold] at h
      by_cases hc : (foldOrbit p).contains c = true
      · rw [if_pos hc] at h
        obtain ⟨kw, hkw, hs⟩ := ih s r h
        exact ⟨c :: kw, List.Forall₂.cons (by simpa using hc) hkw, by rw [hs]; rfl⟩
      · rw [if_neg hc] at h
        exact absurd h (by simp)

theorem orbit_i (c : Char) : c ∈ foldOrbit 'i' ↔ (c = 'i' ∨ c = 'I') := by
  have : foldOrbit 'i' = ['i', 'I'] := by decide
  rw [this]; simp

theorem orbit_d (c : Char) : c ∈ foldOrbit 'd' ↔ (c = 'd' ∨ c = 'D') := by
  have : foldOrbit 'd' = ['d', 'D'] := by decide
  rw [this]; simp

theorem orbit_eq (c : Char) : c ∈ foldOrbit '=' ↔ c = '=' := by
  have : foldOrbit '=' = ['='] := by decide
  rw [this]; simp

theorem foldCase_id (kw : Text) :
    FoldCase ['i', 'd', '='] kw ↔
      ∃ i d, kw = [i, d, '='] ∧ (i = 'i' ∨ i = 'I') ∧ (d = 'd' ∨ d = 'D') := by
  constructor
  · intro h
    unfold FoldCase at h
    rw [List.forall₂_cons_left_iff] at h
    obtain ⟨i, r1, h1, h, rfl⟩ := h
    rw [List.forall₂_cons_left_iff] at h
    obtain ⟨d, r2, h2, h, rfl⟩ := h
    rw [List.forall₂_cons_left_iff] at h
    obtain ⟨e, r3, h3, h, rfl⟩ := h
    rw [List.forall₂_nil_left_iff] at h
    subst h
    rw [orbit_i] at h1
    rw [orbit_d] at h2
    rw [orbit_eq] at h3
    subst h3
    exact ⟨_, _, rfl, h1, h2⟩
  · rintro ⟨i, d, rfl, hi, hd⟩
    exact List.Forall₂.cons ((orbit_i i).mpr hi)
      (List.Forall₂.cons ((orbit_d d).mpr hd)
        (List.Forall₂.cons ((orbit_eq '=').mpr rfl) List.Forall₂.nil))

/-! ### idRegex at one position -/

theorem idRegexAt_token (i d c : Char) (rest : Text) (hi : i = 'i' ∨ i = 'I')
    (hd : d = 'd' ∨ d = 'D') (hc : isDigit c = true) :
    idRegexAt (i :: d :: '=' :: c :: rest) = some ((c :: rest).takeWhile isDigit) := by
  have hf : FoldCase ['i', 'd', '='] [i, d, '='] := (foldCase_id _).mpr ⟨i, d, rfl, hi, hd⟩
  have := litFold_append (c :: rest) _ _ hf
  unfold idRegexAt
  simp only [List.cons_append, List.nil_append] at this
  rw [this]
  exact digitRun_cons c rest hc

theorem idRegexAt_some (t g : Text) (h : idRegexAt t = some g) : IdTokenAt t := by
  unfold idRegexAt at h
  cases hl : litFold ['i', 'd', '='] t with
  | none => rw [hl] at h; simp at h
  | some r =>
    rw [hl] at h
    obtain ⟨kw, hkw, ht⟩ := litFold_some _ _ _ hl
    obtain ⟨i, d, rfl, hi, hd⟩ := (foldCase_id kw).mp hkw
    obtain ⟨c, rest, hr, hc, _⟩ := digitRun_some r g (by simpa using h)
    exact ⟨i, d, c, rest, by rw [ht, hr]; rfl, hi, hd, hc⟩

theorem idRegexAt_none_iff (t : Text) : idRegexAt t = none ↔ ¬ IdTokenAt t := by
  constructor
  · rintro h ⟨i, d, c, rest, rfl, hi, hd, hc⟩
    rw [idRegexAt_token i d c rest hi hd hc] at h
    exact absurd h (by simp)
  · intro h
    cases hg : idRegexAt t with
    | none => rfl
    | some g => exact absurd (idRegexAt_some t g hg) h

/-! ### numberRegex at one position -/

theorem numberRegexAt_run (ds post : Text) (h5 : 5 ≤ ds.length) (hd : AllDigits ds)
    (hp : NoDigitAhead post) : numberRegexAt (ds ++ post) = some ds := by
  unfold numberRegexAt
  rw [takeWhile_digits ds post hd hp, if_pos h5]

theorem numberRegexAt_none_iff (t : Text) : numberRegexAt t = none ↔ ¬ FiveDigitsAt t := by
  constructor
  · rintro h ⟨ds, rest, rfl, h5, hd⟩
    unfold numberRegexAt at h
    rw [if_pos (le_trans h5 (takeWhile_digits_ge ds rest hd))] at h
    exact absurd h (by simp)
  · intro h
    unfold numberRegexAt
    by_cases h5 : 5 ≤ (t.takeWhile isDigit).length
    · exact absurd ⟨t.takeWhile isDigit, t.dropWhile isDigit,
        (List.takeWhile_append_dropWhile _ _).symm, h5, takeWhile_allDigits t⟩ h
    · rw [if_neg h5]

/-! ### strings.Contains -/

theorem containsText_iff (sub : Text) : ∀ t : Text, containsText sub t = true ↔ sub <:+: t := by
  intro t
  induction t with
  | nil => simp [containsText]
  | cons c t ih =>
    rw [containsText, Bool.or_eq_true, ih, List.infix_cons_iff, List.isPrefixOf_iff_prefix]

theorem containsText_false (t : Text) (h : ¬ HasMarker t) :
    containsText shortLinkMarker t = false := by
  cases hc : containsText shortLinkMarker t with
  | false => rfl
  | true => exact absurd ((containsText_iff _ t).mp hc) h

/-! ### songIDPattern at one position -/

theorem litFold_head_ne (p c : Char) (ps s : Text) (h : (foldOrbit p).contains c = false) :
    litFold (p :: ps) (c :: s) = none := by
  rw [litFold, if_neg (by rw [h]; simp)]

theorem foldCase_head (p : Char) (ps kw : Text) (h : FoldCase (p :: ps) kw) :
    ∃ c kw', kw = c :: kw' ∧ c ∈ foldOrbit p := by
  unfold FoldCase at h
  rw [List.forall₂_cons_left_iff] at h
  obtain ⟨c, kw', hc, _, rfl⟩ := h
  exact ⟨c, kw', rfl, hc⟩

theorem keyword_bind (w kw nd : Text) (c : Char) (rest : Text) (hf : FoldCase w kw)
    (hnd : NoDigit nd) (hc : isDigit c = true) :
    (litFold w (kw ++ nd ++ c :: rest)).bind afterKeyword =
      some ((c :: rest).takeWhile isDigit) := by
  rw [List.append_assoc, litFold_append _ w kw hf]
  exact afterKeyword_digit nd c rest hnd hc

theorem songIDPatternAt_keyword (w kw nd : Text) (c : Char) (rest : Text)
    (hw : w ∈ keywords) (hf : FoldCase w kw) (hnd : NoDigit nd) (hc : isDigit c = true) :
    songIDPatternAt (kw ++ nd ++ c :: rest) = some ((c :: rest).takeWhile isDigit) := by
  have hb := keyword_bind w kw nd c rest hf hnd hc
  simp only [keywords, List.mem_cons, List.mem_singleton, List.not_mem_nil, or_false] at hw
  rcases hw with rfl | rfl | rfl
  · unfold songIDPatternAt
    rw [show ['s', 'o', 'n', 'g'] = "song".toList from rfl, hb]
  · obtain ⟨a, kw', rfl, ha⟩ := foldCase_head _ _ kw hf
    have ha' : a = 'a' ∨ a = 'A' := by
      have : foldOrbit 'a' = ['a', 'A'] := by decide
      rw [this] at ha; simpa using ha
    have h1 : litFold ['s', 'o', 'n', 'g'] (a :: kw' ++ nd ++ c :: rest) = none := by
      apply litFold_head_ne
      rcases ha' with rfl | rfl <;> decide
    unfold songIDPatternAt
    simp only [h1, Option.none_bind]
    rw [show ['a', 'l', 'b', 'u', 'm'] = "album".toList from rfl, hb]
  · obtain ⟨a, kw', rfl, ha⟩ := foldCase_head _ _ kw hf
    have ha' : a = 'p' ∨ a = 'P' := by
      have : foldOrbit 'p' = ['p', 'P'] := by decide
      rw [this] at ha; simpa using ha
    have h1 : litFold ['s', 'o', 'n', 'g'] (a :: kw' ++ nd ++ c :: rest) = none := by
      apply litFold_head_ne
      rcases ha' with rfl | rfl <;> decide
    have h2 : litFold ['a', 'l', 'b', 'u', 'm'] (a :: kw' ++ nd ++ c :: rest) = none := by
      apply litFold_head_ne
      rcases ha' with rfl | rfl <;> decide
    unfold songIDPatternAt
    simp only [h1, h2, Option.none_bind]
    rw [show ['p', 'l', 'a', 'y', 'l', 'i', 's', 't'] = "playlist".toList from rfl, hb]

theorem bind_keyword_some (w t g : Text) (hw : w ∈ keywords)
    (h : (litFold w t).bind afterKeyword = some g) : KeywordPatternAt t := by
  rw [Option.bind_eq_some] at h
  obtain ⟨r, hr, hg⟩ := h
  obtain ⟨kw, hkw, ht⟩ := litFold_some _ _ _ hr
  obtain ⟨nd, c, rest, hs, hnd, hc⟩ := afterKeyword_some r g hg
  exact ⟨w, kw, nd, c, rest, hw, hkw, hnd, hc, by rw [ht, hs, List.append_assoc]⟩

theorem songIDPatternAt_some (t g : Text) (h : songIDPatternAt t = some g) :
    KeywordPatternAt t := by
  unfold songIDPatternAt at h
  cases h1 : (litFold ['s', 'o', 'n', 'g'] t).bind afterKeyword with
  | some g1 => exact bind_keyword_some "song".toList t g1 (by simp [keywords]) h1
  | none =>
    rw [h1] at h
    cases h2 : (litFold ['a', 'l', 'b', 'u', 'm'] t).bind afterKeyword with
    | some g2 => exact bind_keyword_some "album".toList t g2 (by simp [keywords]) h2
    | none =>
      rw [h2] at h
      exact bind_keyword_some "playlist".toList t g (by simp [keywords]) h

theorem songIDPatternAt_none_iff (t : Text) :
    songIDPatternAt t = none ↔ ¬ KeywordPatternAt t := by
  constructor
  · rintro h ⟨w, kw, nd, c, rest, hw, hf, hnd, hc, rfl⟩
    rw [songIDPatternAt_keyword w kw nd c rest hw hf hnd hc] at h
    exact absurd h (by simp)
  · intro h
    cases hg : songIDPatternAt t with
    | none => rfl
    | some g => exact absurd (songIDPatternAt_some t g hg) h

/-! ### extractID, strategy by strategy -/

/-- Past the digits-only test and without a short-link marker, `extractID` is the chain
of the three searches on the trimmed text. -/
theorem extractID_chain (resolve : Text → Text × Option Error) (input : Text)
    (hne : trimSpace input ≠ []) (hnd : digitsOnlyRegex (trimSpace input) = false)
    (hm : ¬ HasMarker (trimSpace input)) :
    extractID resolve input =
      match idRegexFind (trimSpace input) with
      | some g => ParseInt g
      | none =>
        match songIDPatternFind (trimSpace input) with
        | some g => ParseInt g
        | none =>
          match numberRegexFind (trimSpace input) with
          | some g => ParseInt g
          | none => (0, some (.msg "无法从输入中提取ID")) := by
  unfold extractID
  simp only [if_neg hne, hnd, containsText_false _ hm, Bool.false_eq_true, if_false]

theorem not_digitsOnly_of_mem (t : Text) (c : Char) (hc : c ∈ t) (hd : isDigit c = false) :
    digitsOnlyRegex t = false := by
  unfold digitsOnlyRegex
  have : t.all isDigit = false := by
    rw [List.all_eq_false]
    exact ⟨c, hc, by simp [hd]⟩
  rw [this]; simp

theorem idRegexFind_leftmost (pre : Text) (i d c : Char) (rest : Text)
    (hi : i = 'i' ∨ i = 'I') (hd : d = 'd' ∨ d = 'D') (hc : isDigit c = true)
    (hleft : ∀ k, k < pre.length → ¬ IdTokenAt ((pre ++ i :: d :: '=' :: c :: rest).drop k)) :
    idRegexFind (pre ++ i :: d :: '=' :: c :: rest) = some ((c :: rest).takeWhile isDigit) := by
  unfold idRegexFind
  rw [findFirst_skip _ _ pre (fun k hk => (idRegexAt_none_iff _).mpr (hleft k hk))]
  exact findFirst_head _ _ _ (idRegexAt_token i d c rest hi hd hc)

theorem idRegexFind_none (t : Text) (h : ∀ k, ¬ IdTokenAt (t.drop k)) :
    idRegexFind t = none :=
  findFirst_none _ t (fun k => (idRegexAt_none_iff _).mpr (h k))

theorem songIDPatternFind_leftmost (pre w kw nd : Text) (c : Char) (rest : Text)
    (hw : w ∈ keywords) (hf : FoldCase w kw) (hnd : NoDigit nd) (hc : isDigit c = true)
    (hleft : ∀ k, k < pre.length →
      ¬ KeywordPatternAt ((pre ++ (kw ++ nd ++ c :: rest)).drop k)) :
    songIDPatternFind (pre ++ (kw ++ nd ++ c :: rest)) =
      some ((c :: rest).takeWhile isDigit) := by
  unfold songIDPatternFind
  rw [findFirst_skip _ _ pre (fun k hk => (songIDPatternAt_none_iff _).mpr (hleft k hk))]
  exact findFirst_head _ _ _ (songIDPatternAt_keyword w kw nd c rest hw hf hnd hc)

theorem songIDPatternFind_none (t : Text) (h : ∀ k, ¬ KeywordPatternAt (t.drop k)) :
    songIDPatternFind t = none :=
  findFirst_none _ t (fun k => (songIDPatternAt_none_iff _).mpr (h k))

theorem numberRegexFind_leftmost (pre ds post : Text) (h5 : 5 ≤ ds.length)
    (hd : AllDigits ds) (hp : NoDigitAhead post)
    (hleft : ∀ k, k < pre.length → ¬ FiveDigitsAt ((pre ++ (ds ++ post)).drop k)) :
    numberRegexFind (pre ++ (ds ++ post)) = some ds := by
  unfold numberRegexFind
  rw [findFirst_skip _ _ pre (fun k hk => (numberRegexAt_none_iff _).mpr (hleft k hk))]
  exact findFirst_head _ _ _ (numberRegexAt_run ds post h5 hd hp)

theorem numberRegexFind_none (t : Text) (h : ∀ k, ¬ FiveDigitsAt (t.drop k)) :
    numberRegexFind t = none :=
  findFirst_none _ t (fun k => (numberRegexAt_none_iff _).mpr (h k))

/-! ### Texts made of a digit-free part and a final digit run -/

theorem last_of_run (front ds : Text) (c : Char) (core : Text) (hne : ds ≠ [])
    (h : core ++ ds = front ++ [c]) : c ∈ ds := by
  have h1 : (core ++ ds).getLast? = some c := by rw [h, List.getLast?_concat]
  rw [List.getLast?_append_of_ne_nil _ hne, List.getLast?_eq_some_iff] at h1
  obtain ⟨ys, hys⟩ := h1
  rw [hys]; simp

theorem digit_then_digit (ds : Text) (hds : AllDigits ds) (a b : Char) (Y Z : Text)
    (ha : isDigit a = true) :
    ∀ (A X : Text), NoDigit A → A ++ ds = X ++ a :: (Y ++ b :: Z) → isDigit b = true := by
  intro A
  induction A with
  | nil =>
    intro X _ h
    apply hds
    rw [List.nil_append] at h
    rw [h]; simp
  | cons a0 A ih =>
    intro X hA h
    cases X with
    | nil =>
      simp only [List.cons_append, List.nil_append, List.cons.injEq] at h
      have := hA a0 (by simp)
      rw [h.1, ha] at this
      exact absurd this (by simp)
    | cons x X =>
      simp only [List.cons_append, List.cons.injEq] at h
      exact ih X (fun c hc => hA c (by simp [hc])) h.2

theorem run_boundary (ds : Text) (hds : AllDigits ds) (e y : Char) (Y : Text)
    (he : isDigit e = false) (hy : isDigit y = true) :
    ∀ (A X : Text), NoDigit A → A ++ ds = X ++ e :: y :: Y → y :: Y = ds := by
  intro A
  induction A with
  | nil =>
    intro X _ h
    have : isDigit e = true := by
      apply hds
      rw [List.nil_append] at h
      rw [h]; simp
    rw [he] at this
    exact absurd this (by simp)
  | cons a0 A ih =>
    intro X hA h
    cases X with
    | nil =>
      simp only [List.cons_append, List.nil_append, List.cons.injEq] at h
      cases A with
      | nil => simpa using h.2.symm
      | cons a1 A =>
        simp only [List.cons_append, List.cons.injEq] at h
        have := hA a1 (by simp)
        rw [h.2.1, hy] at this
        exact absurd this (by simp)
    | cons x X =>
      simp only [List.cons_append, List.cons.injEq] at h
      exact ih X (fun c hc => hA c (by simp [hc])) h.2

theorem no_marker_in_run (A ds : Text) (hA : NoDigit A) (hds : AllDigits ds) :
    ¬ HasMarker (A ++ ds) := by
  rintro ⟨x, y, h⟩
  have h' : A ++ ds = x ++ '1' :: (['6', '3'] ++ 'c' :: ("n.tv".toList ++ y)) := by
    rw [← h]
    simp [shortLinkMarker]
  have := digit_then_digit ds hds '1' 'c' _ _ (by decide) A x hA h'
  revert this
  decide

theorem idRegexAt_shape (t g : Text) (h : idRegexAt t = some g) :
    ∃ i d c rest, t = i :: d :: '=' :: c :: rest ∧ isDigit c = true ∧
      g = (c :: rest).takeWhile isDigit := by
  unfold idRegexAt at h
  cases hl : litFold ['i', 'd', '='] t with
  | none => rw [hl] at h; simp at h
  | some r =>
    rw [hl] at h
    obtain ⟨kw, hkw, ht⟩ := litFold_some _ _ _ hl
    obtain ⟨i, d, rfl, _, _⟩ := (foldCase_id kw).mp hkw
    obtain ⟨c, rest, hr, hc, hg⟩ := digitRun_some r g (by simpa using h)
    exact ⟨i, d, c, rest, by rw [ht, hr]; rfl, hc, by rw [hg, hr]⟩

/-- In a text made of a digit-free part and a final digit run, an `id=` token can only
capture that run. -/
theorem idRegexFind_in_run (A ds g : Text) (hA : NoDigit A) (hds : AllDigits ds)
    (h : idRegexFind (A ++ ds) = some g) : g = ds := by
  obtain ⟨k, hk⟩ := findFirst_some _ _ _ h
  obtain ⟨i, d, c, rest, ht, hc, hg⟩ := idRegexAt_shape _ _ hk
  have hsplit : A ++ ds = ((A ++ ds).take k ++ [i, d]) ++ '=' :: c :: rest := by
    rw [List.append_assoc]
    show A ++ ds = List.take k (A ++ ds) ++ (i :: d :: '=' :: c :: rest)
    rw [← ht, List.take_append_drop]
  have := run_boundary ds hds '=' c rest (by decide) hc A _ hA hsplit
  rw [hg, this]
  have := takeWhile_digits ds [] hds (fun c rest h => by simp at h)
  simpa using this

/-- The letters of the three keywords. -/
theorem keyword_letters (w : Text) (hw : w ∈ keywords) :
    w ≠ [] ∧ ∀ p ∈ w, p ∈ "songalbumplaylist".toList := by
  simp only [keywords, List.mem_cons, List.mem_singleton, List.not_mem_nil, or_false] at hw
  rcases hw with rfl | rfl | rfl <;> decide

theorem foldCase_of_anyCase_aux (w kw : Text) (h : AnyCase w kw) :
    (∀ p ∈ w, p ∈ "songalbumplaylist".toList) → FoldCase w kw := by
  have key : ∀ p ∈ "songalbumplaylist".toList, p ∈ foldOrbit p ∧ p.toUpper ∈ foldOrbit p := by
    decide
  unfold AnyCase at h
  unfold FoldCase
  induction h with
  | nil => intro _; exact List.Forall₂.nil
  | @cons p c ps cs hpc _ ih =>
    intro hsub
    refine List.Forall₂.cons ?_ (ih (fun q hq => hsub q (by simp [hq])))
    have := key p (hsub p (by simp))
    rcases hpc with rfl | rfl
    · exact this.1
    · exact this.2

theorem foldCase_of_anyCase (w kw : Text) (hw : w ∈ keywords) (h : AnyCase w kw) :
    FoldCase w kw :=
  foldCase_of_anyCase_aux w kw h (keyword_letters w hw).2

theorem foldCase_plain_aux (w kw : Text) (h : FoldCase w kw) :
    (∀ p ∈ w, p ∈ "songalbumplaylist".toList) →
      ∀ c ∈ kw, isDigit c = false ∧ isSpace c = false := by
  have key : ∀ p ∈ "songalbumplaylist".toList, ∀ c ∈ foldOrbit p,
      isDigit c = false ∧ isSpace c = false := by
    decide
  unfold FoldCase at h
  induction h with
  | nil => intro _ c hc; simp at hc
  | @cons p x ps xs hpx _ ih =>
    intro hsub c hc
    rcases List.mem_cons.mp hc with rfl | hc'
    · exact key p (hsub p (by simp)) _ hpx
    · exact ih (fun q hq => hsub q (by simp [hq])) c hc'

/-- A keyword in any letter case has no digit and no white space, and is not empty. -/
theorem foldCase_plain (w kw : Text) (hw : w ∈ keywords) (h : FoldCase w kw) :
    (∀ c ∈ kw, isDigit c = false ∧ isSpace c = false) ∧ ∃ c rest, kw = c :: rest := by
  obtain ⟨hne, hsub⟩ := keyword_letters w hw
  refine ⟨foldCase_plain_aux w kw h hsub, ?_⟩
  unfold FoldCase at h
  cases h with
  | nil => exact absurd rfl hne
  | @cons p x ps xs hpx _ => exact ⟨x, xs, rfl⟩

/-! ### extractID on each kind of input -/

theorem extractID_purelyDigits (resolve : Text → Text × Option Error) (pre ds post : Text)
    (hpre : AllSpace pre) (hpost : AllSpace post) (hne : ds ≠ []) (hds : AllDigits ds) :
    extractID resolve (pre ++ ds ++ post) = ParseInt ds := by
  have ht : trimSpace (pre ++ ds ++ post) = ds :=
    trimSpace_core pre post ds hpre hpost hne
      (fun c rest h => isDigit_not_space c (hds c (by rw [h]; simp)))
      (fun c front h => isDigit_not_space c (hds c (by rw [h]; simp)))
  have hdo : digitsOnlyRegex ds = true := by
    unfold digitsOnlyRegex
    rw [Bool.and_eq_true]
    constructor
    · cases ds with
      | nil => exact absurd rfl hne
      | cons c t => rfl
    · rw [List.all_eq_true]; exact hds
  unfold extractID
  simp only [ht, if_neg hne, hdo, if_true]

theorem extractID_idToken (resolve : Text → Text × Option Error) (input pre : Text)
    (i d : Char) (ds post : Text)
    (ht : trimSpace input = pre ++ i :: d :: '=' :: (ds ++ post))
    (hi : i = 'i' ∨ i = 'I') (hd : d = 'd' ∨ d = 'D')
    (hne : ds ≠ []) (hds : AllDigits ds) (hp : NoDigitAhead post)
    (hleft : ∀ k, k < pre.length → ¬ IdTokenAt ((trimSpace input).drop k))
    (hm : ¬ HasMarker (trimSpace input)) :
    extractID resolve input = ParseInt ds := by
  obtain ⟨c, ds', rfl⟩ := List.exists_cons_of_ne_nil hne
  have hc : isDigit c = true := hds c (by simp)
  have hfind : idRegexFind (trimSpace input) = some (c :: ds') := by
    rw [ht] at hleft ⊢
    rw [List.cons_append]
    rw [idRegexFind_leftmost pre i d c (ds' ++ post) hi hd hc hleft]
    rw [← List.cons_append, takeWhile_digits _ post hds hp]
  rw [extractID_chain resolve input (by rw [ht]; simp)
    (not_digitsOnly_of_mem _ '=' (by rw [ht]; simp) (by decide)) hm, hfind]

theorem extractID_keyword (resolve : Text → Text × Option Error) (input pre w kw nd ds post : Text)
    (ht : trimSpace input = pre ++ (kw ++ nd ++ (ds ++ post)))
    (hw : w ∈ keywords) (hf : FoldCase w kw) (hnd : NoDigit nd)
    (hne : ds ≠ []) (hds : AllDigits ds) (hp : NoDigitAhead post)
    (hnoid : ∀ k, ¬ IdTokenAt ((trimSpace input).drop k))
    (hleft : ∀ k, k < pre.length → ¬ KeywordPatternAt ((trimSpace input).drop k))
    (hm : ¬ HasMarker (trimSpace input)) :
    extractID resolve input = ParseInt ds := by
  obtain ⟨c, ds', rfl⟩ := List.exists_cons_of_ne_nil hne
  have hc : isDigit c = true := hds c (by simp)
  obtain ⟨hplain, c0, kw', hkw⟩ := foldCase_plain w kw hw hf
  have hc0 : c0 ∈ kw := by rw [hkw]; simp
  have hfind : songIDPatternFind (trimSpace input) = some (c :: ds') := by
    rw [ht] at hleft ⊢
    rw [List.cons_append] at hleft ⊢
    rw [songIDPatternFind_leftmost pre w kw nd c (ds' ++ post) hw hf hnd hc hleft]
    rw [← List.cons_append, takeWhile_digits _ post hds hp]
  rw [extractID_chain resolve input (by rw [ht]; simp)
    (not_digitsOnly_of_mem _ c0 (by rw [ht]; simp [hc0]) (hplain c0 hc0).1) hm,
    idRegexFind_none _ hnoid, hfind]

theorem extractID_number (resolve : Text → Text × Option Error) (input pre ds post : Text)
    (ht : trimSpace input = pre ++ (ds ++ post))
    (h5 : 5 ≤ ds.length) (hds : AllDigits ds) (hp : NoDigitAhead post)
    (hnd : digitsOnlyRegex (trimSpace input) = false)
    (hnoid : ∀ k, ¬ IdTokenAt ((trimSpace input).drop k))
    (hnokw : ∀ k, ¬ KeywordPatternAt ((trimSpace input).drop k))
    (hleft : ∀ k, k < pre.length → ¬ FiveDigitsAt ((trimSpace input).drop k))
    (hm : ¬ HasMarker (trimSpace input)) :
    extractID resolve input = ParseInt ds := by
  have hne : trimSpace input ≠ [] := by
    rw [ht]
    intro h
    have := congrArg List.length h
    simp only [List.length_append, List.length_nil] at this
    omega
  have hfind : numberRegexFind (trimSpace input) = some ds := by
    rw [ht] at hleft ⊢
    exact numberRegexFind_leftmost pre ds post h5 hds hp hleft
  rw [extractID_chain resolve input hne hnd hm, idRegexFind_none _ hnoid,
    songIDPatternFind_none _ hnokw, hfind]

theorem extractID_nothing (resolve : Text → Text × Option Error) (input : Text)
    (hnd : digitsOnlyRegex (trimSpace input) = false)
    (hnoid : ∀ k, ¬ IdTokenAt ((trimSpace input).drop k))
    (hnokw : ∀ k, ¬ KeywordPatternAt ((trimSpace input).drop k))
    (hno5 : ∀ k, ¬ FiveDigitsAt ((trimSpace input).drop k))
    (hm : ¬ HasMarker (trimSpace input)) :
    ∃ e, extractID resolve input = (0, some e) := by
  by_cases hne : trimSpace input = []
  · refine ⟨.msg "ID不能为空", ?_⟩
    unfold extractID
    simp only [hne, if_true]
  · refine ⟨.msg "无法从输入中提取ID", ?_⟩
    rw [extractID_chain resolve input hne hnd hm, idRegexFind_none _ hnoid,
      songIDPatternFind_none _ hnokw, numberRegexFind_none _ hno5]

/-- The two outcomes of `strconv.ParseInt` on a digit run. -/
theorem ParseInt_outcomes (ds : Text) (hne : ds ≠ []) (hds : AllDigits ds) :
    (decimal ds < 2 ^ 63 → ParseInt ds = ((decimal ds : Int), none)) ∧
    (2 ^ 63 ≤ decimal ds → ParseInt ds = ((2 : Int) ^ 63 - 1, some .outOfRange)) := by
  rw [ParseInt_digits ds hne hds]
  constructor
  · intro h; rw [if_pos h]
  · intro h; rw [if_neg (by omega)]

/-! ### Checking the hypotheses on a given text -/

theorem drop_all (P : Text → Prop) (t : Text) (h : ∀ k, k ≤ t.length → P (t.drop k)) :
    ∀ k, P (t.drop k) := by
  intro k
  by_cases hk : k ≤ t.length
  · exact h k hk
  · have h1 : t.drop k = [] := List.drop_eq_nil_of_le (by omega)
    have h2 := h t.length (Nat.le_refl _)
    rw [List.drop_length] at h2
    rw [h1]; exact h2

theorem noIdToken_check (t : Text) (h : ∀ k, k ≤ t.length → idRegexAt (t.drop k) = none) :
    ∀ k, ¬ IdTokenAt (t.drop k) :=
  drop_all (fun s => ¬ IdTokenAt s) t (fun k hk => (idRegexAt_none_iff _).mp (h k hk))

theorem noKeyword_check (t : Text)
    (h : ∀ k, k ≤ t.length → songIDPatternAt (t.drop k) = none) :
    ∀ k, ¬ KeywordPatternAt (t.drop k) :=
  drop_all (fun s => ¬ KeywordPatternAt s) t
    (fun k hk => (songIDPatternAt_none_iff _).mp (h k hk))

theorem noFiveDigits_check (t : Text)
    (h : ∀ k, k ≤ t.length → numberRegexAt (t.drop k) = none) :
    ∀ k, ¬ FiveDigitsAt (t.drop k) :=
  drop_all (fun s => ¬ FiveDigitsAt s) t (fun k hk => (numberRegexAt_none_iff _).mp (h k hk))

theorem noMarker_check (t : Text) (h : containsText shortLinkMarker t = false) :
    ¬ HasMarker t := by
  intro hm
  rw [(containsText_iff _ t).mpr hm] at h
  exact absurd h (by simp)

theorem noDigitAhead_nil : NoDigitAhead [] := fun c rest h => by simp at h

theorem noDigitAhead_cons (c : Char) (rest : Text) (h : isDigit c = false) :
    NoDigitAhead (c :: rest) := by
  intro x r hx
  simp only [List.cons.injEq] at hx
  rw [← hx.1]; exact h

/-! ## The properties of the identifier resolver -/

/-- C1, as stated, fails: the digit string "9223372036854775808" (2^63) is not
returned; extractID reports a range error. -/
theorem extractID_digits_counterexample :
    AllDigits "9223372036854775808".toList ∧
    extractID (fun _ => ([], none)) "9223372036854775808".toList =
      (9223372036854775807, some .outOfRange) ∧
    extractID (fun _ => ([], none)) "9223372036854775808".toList ≠
      ((decimal "9223372036854775808".toList : Int), none) := by
  refine ⟨by unfold AllDigits; decide, by decide, by decide⟩

/-- C1, amended: for every non-empty string of ASCII digits that denotes a value below
2^63, optionally surrounded by white space, extractID returns without error exactly
that value; when the digits denote 2^63 or more it returns a range error. -/
theorem extractID_digits (resolve : Text → Text × Option Error) (pre ds post : Text)
    (hpre : AllSpace pre) (hpost : AllSpace post) (hne : ds ≠ []) (hds : AllDigits ds) :
    (decimal ds < 2 ^ 63 →
      extractID resolve (pre ++ ds ++ post) = ((decimal ds : Int), none)) ∧
    (2 ^ 63 ≤ decimal ds →
      extractID resolve (pre ++ ds ++ post) = ((2 : Int) ^ 63 - 1, some .outOfRange)) := by
  rw [extractID_purelyDigits resolve pre ds post hpre hpost hne hds]
  exact ParseInt_outcomes ds hne hds

theorem extractID_digits_witness :
    AllSpace "  ".toList ∧ AllDigits "12345".toList ∧ decimal "12345".toList = 12345 ∧
    extractID (fun _ => ([], none)) ("  ".toList ++ "12345".toList ++ "  ".toList) =
      ((decimal "12345".toList : Int), none) :=
  ⟨by unfold AllSpace; decide, by unfold AllDigits; decide, by decide,
   (extractID_digits (fun _ => ([], none)) "  ".toList "12345".toList "  ".toList
      (by unfold AllSpace; decide) (by unfold AllSpace; decide) (by decide)
      (by unfold AllDigits; decide)).1 (by decide)⟩

/-- C2, as stated, fails: "id=1&id=12345" contains the token id=12345 and no short-link
marker, and extractID returns 1, from the leftmost token; "id=123456" contains it too,
and extractID returns 123456, the whole digit run. -/
theorem extractID_id12345_counterexample :
    containsText "id=12345".toList "id=1&id=12345".toList = true ∧
    containsText shortLinkMarker "id=1&id=12345".toList = false ∧
    extractID (fun _ => ([], none)) "id=1&id=12345".toList = (1, none) ∧
    containsText "id=12345".toList "id=123456".toList = true ∧
    containsText shortLinkMarker "id=123456".toList = false ∧
    extractID (fun _ => ([], none)) "id=123456".toList = (123456, none) := by
  decide

/-- C2, amended: for every input without a short-link marker whose leftmost token
id=<digits> ('id' in any letter case) is id=12345, the digit run ending there (no
further digit follows the 5), extractID returns 12345, whatever the text around. -/
theorem extractID_id12345 (resolve : Text → Text × Option Error) (input pre : Text)
    (i d : Char) (post : Text)
    (ht : trimSpace input = pre ++ i :: d :: '=' :: ("12345".toList ++ post))
    (hi : i = 'i' ∨ i = 'I') (hd : d = 'd' ∨ d = 'D') (hp : NoDigitAhead post)
    (hleft : ∀ k, k < pre.length → ¬ IdTokenAt ((trimSpace input).drop k))
    (hm : ¬ HasMarker (trimSpace input)) :
    extractID resolve input = (12345, none) := by
  rw [extractID_idToken resolve input pre i d "12345".toList post ht hi hd (by decide)
    (by unfold AllDigits; decide) hp hleft hm]
  decide

theorem extractID_id12345_witness :
    trimSpace " see ?ID=12345&x=7 ".toList =
      "see ?".toList ++ 'I' :: 'D' :: '=' :: ("12345".toList ++ "&x=7".toList) ∧
    extractID (fun _ => ([], none)) " see ?ID=12345&x=7 ".toList = (12345, none) :=
  ⟨by decide,
   extractID_id12345 (fun _ => ([], none)) " see ?ID=12345&x=7 ".toList "see ?".toList
     'I' 'D' "&x=7".toList (by decide) (by decide) (by decide)
     (noDigitAhead_cons _ _ (by decide))
     (fun k hk => (idRegexAt_none_iff _).mp (by
        have h : ∀ k, k < 5 → idRegexAt ((trimSpace " see ?ID=12345&x=7 ".toList).drop k) = none := by
          decide
        exact h k hk))
     (noMarker_check _ (by decide))⟩

/-- C3: for every input made of the keyword song, album or playlist in any letter
case, then a possibly empty run of non-digits, then a final run of digits denoting a
value below 2^63, extractID returns that value. -/
theorem extractID_keywordInput (resolve : Text → Text × Option Error) (w kw nd ds : Text)
    (hw : w ∈ keywords) (hk : AnyCase w kw) (hnd : NoDigit nd) (hne : ds ≠ [])
    (hds : AllDigits ds) (hv : decimal ds < 2 ^ 63) :
    extractID resolve (kw ++ nd ++ ds) = ((decimal ds : Int), none) := by
  have hf := foldCase_of_anyCase w kw hw hk
  obtain ⟨hplain, c0, kw', hkw⟩ := foldCase_plain w kw hw hf
  have hc0 : c0 ∈ kw := by rw [hkw]; simp
  have hA : NoDigit (kw ++ nd) := by
    intro c hc
    rcases List.mem_append.mp hc with h | h
    · exact (hplain c h).1
    · exact hnd c h
  have ht : trimSpace (kw ++ nd ++ ds) = kw ++ nd ++ ds := by
    have := trimSpace_core [] [] (kw ++ nd ++ ds) (fun c hc => by simp at hc)
      (fun c hc => by simp at hc) (by rw [hkw]; simp)
      (fun c rest h => by
        rw [hkw] at h
        simp only [List.cons_append, List.cons.injEq] at h
        rw [← h.1]; exact (hplain c0 hc0).2)
      (fun c front h => isDigit_not_space c (hds c (last_of_run front ds c _ hne h)))
    simpa using this
  have hm : ¬ HasMarker (trimSpace (kw ++ nd ++ ds)) := by
    rw [ht]; exact no_marker_in_run _ ds hA hds
  have hdo : digitsOnlyRegex (trimSpace (kw ++ nd ++ ds)) = false := by
    rw [ht]
    exact not_digitsOnly_of_mem _ c0 (by simp [hc0]) (hplain c0 hc0).1
  have hparse := (ParseInt_outcomes ds hne hds).1 hv
  rw [extractID_chain resolve _ (by rw [ht, hkw]; simp) hdo hm, ht]
  cases hid : idRegexFind (kw ++ nd ++ ds) with
  | some g =>
    have := idRegexFind_in_run (kw ++ nd) ds g hA hds hid
    rw [this]
    exact hparse
  | none =>
    obtain ⟨c, ds', rfl⟩ := List.exists_cons_of_ne_nil hne
    have hfind := songIDPatternFind_leftmost [] w kw nd c ds' hw hf hnd (hds c (by simp))
      (fun k hk => absurd hk (by simp))
    have htw := takeWhile_digits (c :: ds') [] hds noDigitAhead_nil
    rw [List.append_nil] at htw
    rw [List.nil_append, htw] at hfind
    rw [hfind]
    exact hparse

theorem extractID_keywordInput_witness :
    AnyCase "playlist".toList "PLAYLIST".toList ∧ NoDigit "/".toList ∧
    decimal "7654321".toList = 7654321 ∧
    extractID (fun _ => ([], none)) ("PLAYLIST".toList ++ "/".toList ++ "7654321".toList) =
      ((decimal "7654321".toList : Int), none) :=
  have hk : AnyCase "playlist".toList "PLAYLIST".toList := by
    unfold AnyCase
    repeat (first | exact List.Forall₂.nil | refine List.Forall₂.cons (by decide) ?_)
  ⟨hk, by unfold NoDigit; decide, by decide,
   extractID_keywordInput (fun _ => ([], none)) "playlist".toList "PLAYLIST".toList "/".toList
     "7654321".toList (by decide) hk (by unfold NoDigit; decide) (by decide)
     (by unfold AllDigits; decide) (by decide)⟩

/-- C4, as stated, fails: in "id=9223372036854775808" the leftmost id= token has the
digits of 2^63, and the result is a range error, not those digits. -/
theorem extractID_precedence_counterexample :
    idRegexFind (trimSpace "id=9223372036854775808".toList) =
      some "9223372036854775808".toList ∧
    containsText shortLinkMarker "id=9223372036854775808".toList = false ∧
    extractID (fun _ => ([], none)) "id=9223372036854775808".toList =
      (9223372036854775807, some .outOfRange) := by
  decide

/-- C4, amended: on an input without a short-link marker (and not purely digits), if a
token id=<digits> occurs, the result comes from the digits of the leftmost such token,
whatever keyword pattern or run of 5+ digits also occurs: their value when it is below
2^63, a range error otherwise. If no id= token occurs but a keyword pattern (keyword in
any letter case as Go folds case, non-digits, digits) does, the result comes in the same
way from the digit run of the leftmost keyword pattern, even when a run of 5+ digits
stands earlier in the text. -/
theorem extractID_precedence (resolve : Text → Text × Option Error) (input : Text)
    (hm : ¬ HasMarker (trimSpace input)) :
    (∀ (pre : Text) (i d : Char) (ds post : Text),
      trimSpace input = pre ++ i :: d :: '=' :: (ds ++ post) →
      (i = 'i' ∨ i = 'I') → (d = 'd' ∨ d = 'D') →
      ds ≠ [] → AllDigits ds → NoDigitAhead post →
      (∀ k, k < pre.length → ¬ IdTokenAt ((trimSpace input).drop k)) →
      (decimal ds < 2 ^ 63 → extractID resolve input = ((decimal ds : Int), none)) ∧
      (2 ^ 63 ≤ decimal ds →
        extractID resolve input = ((2 : Int) ^ 63 - 1, some .outOfRange))) ∧
    (∀ (pre w kw nd ds post : Text),
      trimSpace input = pre ++ (kw ++ nd ++ (ds ++ post)) →
      w ∈ keywords → FoldCase w kw → NoDigit nd →
      ds ≠ [] → AllDigits ds → NoDigitAhead post →
      (∀ k, ¬ IdTokenAt ((trimSpace input).drop k)) →
      (∀ k, k < pre.length → ¬ KeywordPatternAt ((trimSpace input).drop k)) →
      (decimal ds < 2 ^ 63 → extractID resolve input = ((decimal ds : Int), none)) ∧
      (2 ^ 63 ≤ decimal ds →
        extractID resolve input = ((2 : Int) ^ 63 - 1, some .outOfRange))) := by
  constructor
  · intro pre i d ds post ht hi hd hne hds hp hleft
    rw [extractID_idToken resolve input pre i d ds post ht hi hd hne hds hp hleft hm]
    exact ParseInt_outcomes ds hne hds
  · intro pre w kw nd ds post ht hw hf hnd hne hds hp hnoid hleft
    rw [extractID_keyword resolve input pre w kw nd ds post ht hw hf hnd hne hds hp hnoid
      hleft hm]
    exact ParseInt_outcomes ds hne hds

theorem extractID_precedence_witness :
    extractID (fun _ => ([], none)) "https://music.example/song?id=99".toList =
      ((decimal "99".toList : Int), none) ∧
    extractID (fun _ => ([], none)) "12345 song 7".toList =
      ((decimal "7".toList : Int), none) :=
  ⟨((extractID_precedence (fun _ => ([], none)) "https://music.example/song?id=99".toList
      (noMarker_check _ (by decide))).1
      "https://music.example/song?".toList 'i' 'd' "99".toList [] (by decide)
      (by decide) (by decide) (by decide) (by unfold AllDigits; decide) noDigitAhead_nil
      (fun k hk => (idRegexAt_none_iff _).mp (by
        have h : ∀ k, k < 27 →
            idRegexAt ((trimSpace "https://music.example/song?id=99".toList).drop k) = none := by
          decide
        exact h k hk))).1 (by decide),
   ((extractID_precedence (fun _ => ([], none)) "12345 song 7".toList
      (noMarker_check _ (by decide))).2
      "12345 ".toList "song".toList "song".toList " ".toList "7".toList [] (by decide)
      (by decide)
      (by unfold FoldCase
          repeat (first | exact List.Forall₂.nil | refine List.Forall₂.cons (by decide) ?_))
      (by unfold NoDigit; decide) (by decide) (by unfold AllDigits; decide) noDigitAhead_nil
      (noIdToken_check _ (by decide))
      (fun k hk => (songIDPatternAt_none_iff _).mp (by
        have h : ∀ k, k < 6 →
            songIDPatternAt ((trimSpace "12345 song 7".toList).drop k) = none := by
          decide
        exact h k hk))).1 (by decide)⟩

/-- C5, as stated, fails: "x99999999999999999999" has no marker, no id= token and no
keyword, and its run of twenty digits is not returned; the result is a range error. -/
theorem extractID_lastResort_counterexample :
    numberRegexFind (trimSpace "x99999999999999999999".toList) =
      some "99999999999999999999".toList ∧
    idRegexFind (trimSpace "x99999999999999999999".toList) = none ∧
    songIDPatternFind (trimSpace "x99999999999999999999".toList) = none ∧
    containsText shortLinkMarker "x99999999999999999999".toList = false ∧
    extractID (fun _ => ([], none)) "x99999999999999999999".toList =
      (9223372036854775807, some .outOfRange) := by
  decide

/-- C5, amended: for every input with no short-link marker that is not purely digits and
contains neither an id=<digits> token nor a keyword followed later by digits: if the
text contains a run of 5 or more digits, extractID returns the value of the leftmost
such run taken to its full length when that value is below 2^63, and a range error
when it is not; if the text contains no such run (as when it is empty or only white
space), extractID fails with an error. -/
theorem extractID_lastResort (resolve : Text → Text × Option Error) (input : Text)
    (hnd : digitsOnlyRegex (trimSpace input) = false)
    (hm : ¬ HasMarker (trimSpace input))
    (hnoid : ∀ k, ¬ IdTokenAt ((trimSpace input).drop k))
    (hnokw : ∀ k, ¬ KeywordPatternAt ((trimSpace input).drop k)) :
    (∀ (pre ds post : Text),
      trimSpace input = pre ++ (ds ++ post) →
      5 ≤ ds.length → AllDigits ds → NoDigitAhead post →
      (∀ k, k < pre.length → ¬ FiveDigitsAt ((trimSpace input).drop k)) →
      (decimal ds < 2 ^ 63 → extractID resolve input = ((decimal ds : Int), none)) ∧
      (2 ^ 63 ≤ decimal ds →
        extractID resolve input = ((2 : Int) ^ 63 - 1, some .outOfRange))) ∧
    ((∀ k, ¬ FiveDigitsAt ((trimSpace input).drop k)) →
      ∃ e, extractID resolve input = (0, some e)) := by
  constructor
  · intro pre ds post ht h5 hds hp hleft
    have hne : ds ≠ [] := by
      intro h
      rw [h] at h5
      simp at h5
    rw [extractID_number resolve input pre ds post ht h5 hds hp hnd hnoid hnokw hleft hm]
    exact ParseInt_outcomes ds hne hds
  · intro hno5
    exact extractID_nothing resolve input hnd hnoid hnokw hno5 hm

theorem extractID_lastResort_witness :
    extractID (fun _ => ([], none)) "ab123456c 99999".toList =
      ((decimal "123456".toList : Int), none) ∧
    (∃ e, extractID (fun _ => ([], none)) "  ".toList = (0, some e)) ∧
    (∃ e, extractID (fun _ => ([], none)) "x1234".toList = (0, some e)) :=
  ⟨((extractID_lastResort (fun _ => ([], none)) "ab123456c 99999".toList (by decide)
      (noMarker_check _ (by decide)) (noIdToken_check _ (by decide))
      (noKeyword_check _ (by decide))).1
      "ab".toList "123456".toList "c 99999".toList (by decide) (by decide)
      (by unfold AllDigits; decide) (noDigitAhead_cons _ _ (by decide))
      (fun k hk => (numberRegexAt_none_iff _).mp (by
        have h : ∀ k, k < 2 →
            numberRegexAt ((trimSpace "ab123456c 99999".toList).drop k) = none := by
          decide
        exact h k hk))).1 (by decide),
   (extractID_lastResort (fun _ => ([], none)) "  ".toList (by decide)
      (noMarker_check _ (by decide)) (noIdToken_check _ (by decide))
      (noKeyword_check _ (by decide))).2 (noFiveDigits_check _ (by decide)),
   (extractID_lastResort (fun _ => ([], none)) "x1234".toList (by decide)
      (noMarker_check _ (by decide)) (noIdToken_check _ (by decide))
      (noKeyword_check _ (by decide))).2 (noFiveDigits_check _ (by decide))⟩

/-- Under `(?i)` the rune U+017F counts as the letter s: "ſong12" matches the keyword
pattern. -/
theorem extractID_longS :
    extractID (fun _ => ([], none)) [Char.ofNat 0x17F, 'o', 'n', 'g', '1', '2'] = (12, none) := by
  decide


/-! ## Proofs: maps -/

theorem StrMap.get_set_self (m : StrMap) (k v : GoString) : (m.set k v).get k = some v := by
  simp [StrMap.set, StrMap.get]

theorem StrMap.get_filter_ne (k k' : GoString) (h : k ≠ k') :
    ∀ m : StrMap, StrMap.get (m.filter fun p => p.1 ≠ k) k' = StrMap.get m k' := by
  intro m
  induction m with
  | nil => rfl
  | cons p m ih =>
    obtain ⟨a, b⟩ := p
    by_cases ha : a = k
    · subst ha
      have : StrMap.get ((a, b) :: m) k' = StrMap.get m k' := by
        simp [StrMap.get, h]
      rw [this, ← ih]
      simp
    · have hf : List.filter (fun p : GoString × GoString => decide (p.1 ≠ k)) ((a, b) :: m) =
          (a, b) :: List.filter (fun p : GoString × GoString => decide (p.1 ≠ k)) m := by
        simp [ha]
      rw [hf]
      by_cases hk : a = k'
      · simp [StrMap.get, hk]
      · simp only [StrMap.get, if_neg hk]
        exact ih

theorem StrMap.get_set_ne (m : StrMap) (k k' v : GoString) (h : k ≠ k') :
    (m.set k v).get k' = m.get k' := by
  unfold StrMap.set
  rw [StrMap.get, if_neg h]
  exact StrMap.get_filter_ne k k' h m

theorem StrMap.get_none_of_not_mem (k : GoString) :
    ∀ m : StrMap, k ∉ m.map Prod.fst → m.get k = none := by
  intro m
  induction m with
  | nil => intro _; rfl
  | cons p m ih =>
    obtain ⟨a, b⟩ := p
    intro h
    simp only [List.map_cons, List.mem_cons, not_or] at h
    rw [StrMap.get, if_neg (fun e => h.1 e.symm)]
    exact ih h.2

theorem StrMap.mem_iff_get (k v : GoString) :
    ∀ m : StrMap, (m.map Prod.fst).Nodup → ((k, v) ∈ m ↔ m.get k = some v) := by
  intro m
  induction m with
  | nil => intro _; simp [StrMap.get]
  | cons p m ih =>
    obtain ⟨a, b⟩ := p
    intro h
    simp only [List.map_cons, List.nodup_cons] at h
    by_cases ha : a = k
    · subst ha
      simp only [StrMap.get, if_true, List.mem_cons, Prod.mk.injEq, true_and, Option.some.injEq]
      constructor
      · rintro (h1 | h1)
        · exact h1.symm
        · exact absurd (List.mem_map_of_mem Prod.fst h1) h.1
      · intro h1
        exact Or.inl h1.symm
    · simp only [StrMap.get, if_neg ha, List.mem_cons, Prod.mk.injEq]
      rw [← ih h.2]
      constructor
      · rintro (h1 | h1)
        · exact absurd h1.1.symm ha
        · exact h1
      · intro h1
        exact Or.inr h1

theorem StrMap.set_nodup (m : StrMap) (k v : GoString) (h : (m.map Prod.fst).Nodup) :
    ((m.set k v).map Prod.fst).Nodup := by
  unfold StrMap.set
  rw [List.map_cons, List.nodup_cons]
  constructor
  · intro hk
    obtain ⟨p, hp, hpk⟩ := List.mem_map.mp hk
    have := (List.mem_filter.mp hp).2
    simp at this
    exact this hpk
  · exact (List.Nodup.sublist (List.Sublist.map _ (List.filter_sublist _)) h)

/-- The second loop of `applyCookies`, pair by pair. -/
theorem foldl_user_get (k : GoString) :
    ∀ (cookies m : StrMap), (cookies.map Prod.fst).Nodup →
      (cookies.foldl
        (fun m kv => if kv.1 = [] ∨ kv.2 = [] then m else m.set kv.1 kv.2) m).get k =
      match cookies.get k with
      | some v => if k ≠ [] ∧ v ≠ [] then some v else m.get k
      | none => m.get k := by
  intro cookies
  induction cookies with
  | nil => intro m _; rfl
  | cons p cookies ih =>
    obtain ⟨a, b⟩ := p
    intro m h
    simp only [List.map_cons, List.nodup_cons] at h
    rw [List.foldl_cons, ih _ h.2]
    by_cases ha : a = k
    · subst ha
      rw [StrMap.get_none_of_not_mem a cookies h.1]
      simp only [StrMap.get, if_true]
      by_cases he : a = [] ∨ b = []
      · rw [if_pos he, if_neg (by tauto)]
      · rw [if_neg he, if_pos (by tauto)]
        exact StrMap.get_set_self _ _ _
    · have hstep : StrMap.get (if a = [] ∨ b = [] then m else m.set a b) k = m.get k := by
        by_cases he : a = [] ∨ b = []
        · rw [if_pos he]
        · rw [if_neg he]
          exact StrMap.get_set_ne m a k b ha
      simp only [StrMap.get, if_neg ha, hstep]

theorem foldl_user_nodup :
    ∀ (cookies m : StrMap), (m.map Prod.fst).Nodup →
      ((cookies.foldl
        (fun m kv => if kv.1 = [] ∨ kv.2 = [] then m else m.set kv.1 kv.2) m).map
          Prod.fst).Nodup := by
  intro cookies
  induction cookies with
  | nil => intro m h; exact h
  | cons p cookies ih =>
    intro m h
    rw [List.foldl_cons]
    apply ih
    by_cases he : p.1 = [] ∨ p.2 = []
    · rw [if_pos he]; exact h
    · rw [if_neg he]; exact StrMap.set_nodup m _ _ h

theorem defaults_merged :
    defaultCookies.foldl (fun (m : StrMap) kv => m.set kv.1 kv.2) [] = defaultCookies.reverse := by
  decide

theorem defaults_get (k : GoString) :
    StrMap.get defaultCookies.reverse k = StrMap.get defaultCookies k := by
  have hn : (defaultCookies.map Prod.fst).Nodup := by decide
  have hr : (defaultCookies.reverse.map Prod.fst).Nodup := by decide
  cases h : StrMap.get defaultCookies k with
  | none =>
    cases h' : StrMap.get defaultCookies.reverse k with
    | none => rfl
    | some v =>
      have := (StrMap.mem_iff_get k v _ hr).mpr h'
      rw [List.mem_reverse] at this
      rw [(StrMap.mem_iff_get k v _ hn).mp this] at h
      exact absurd h (by simp)
  | some v =>
    have := (StrMap.mem_iff_get k v _ hn).mpr h
    exact (StrMap.mem_iff_get k v _ hr).mp (List.mem_reverse.mpr this)

/-- The content of the merged cookie map, key by key. -/
theorem mergedCookies_get (cookies : StrMap) (hmap : (cookies.map Prod.fst).Nodup)
    (k : GoString) :
    (mergedCookies cookies).get k =
      match cookies.get k with
      | some v => if k ≠ [] ∧ v ≠ [] then some v else defaultCookies.get k
      | none => defaultCookies.get k := by
  unfold mergedCookies
  simp only []
  rw [foldl_user_get k cookies _ hmap, defaults_merged, defaults_get]

theorem mergedCookies_nodup (cookies : StrMap) :
    ((mergedCookies cookies).map Prod.fst).Nodup := by
  unfold mergedCookies
  simp only []
  apply foldl_user_nodup
  rw [defaults_merged]
  decide

/-! ## Proofs: the failures of EncryptECB -/

theorem EncryptECB_invalid (aes : Bytes → Bytes16 → Bytes16) (key data : Bytes)
    (hk : ¬ (key.length = 16 ∨ key.length = 24 ∨ key.length = 32)) :
    EncryptECB aes key data =
      some ([], some (if key.length = 0 then .msg "empty key" else .keySize key.length)) := by
  unfold EncryptECB
  by_cases h0 : key.length = 0
  · rw [if_pos h0, if_pos h0]
  · rw [if_neg h0, if_neg h0]
    simp only [NewCipher, if_neg hk]

/-- C11: EncryptECB returns an error exactly when the key is empty or its length is
none of 16, 24, 32, and then it returns no ciphertext; with a valid key it succeeds for
every data; the error "data is not a multiple of block size" is never returned, and
the call never panics. -/
theorem EncryptECB_error_iff (aes : Bytes → Bytes16 → Bytes16) (key data : Bytes) :
    ((∃ ct e, EncryptECB aes key data = some (ct, some e)) ↔
      (key.length = 0 ∨ ¬ (key.length = 16 ∨ key.length = 24 ∨ key.length = 32))) ∧
    (∀ ct e, EncryptECB aes key data = some (ct, some e) → ct = []) ∧
    ((key.length = 16 ∨ key.length = 24 ∨ key.length = 32) →
      ∃ ct, EncryptECB aes key data = some (ct, none)) ∧
    EncryptECB aes key data ≠
      some ([], some (.msg "data is not a multiple of block size")) ∧
    EncryptECB aes key data ≠ none := by
  by_cases hk : key.length = 16 ∨ key.length = 24 ∨ key.length = 32
  · obtain ⟨ct, hct, _, _⟩ := EncryptECB_ok aes key data hk
    rw [hct]
    refine ⟨⟨?_, ?_⟩, ?_, ?_, ?_, ?_⟩
    · rintro ⟨ct', e, h⟩
      simp at h
    · rintro (h0 | hn)
      · omega
      · exact absurd hk hn
    · intro ct' e h
      simp at h
    · intro _
      exact ⟨ct, rfl⟩
    · simp
    · simp
  · rw [EncryptECB_invalid aes key data hk]
    refine ⟨⟨?_, ?_⟩, ?_, ?_, ?_, ?_⟩
    · intro _
      exact Or.inr hk
    · intro _
      exact ⟨[], _, rfl⟩
    · intro ct' e h
      simp only [Option.some.injEq, Prod.mk.injEq] at h
      exact h.1.symm
    · intro h
      exact absurd h hk
    · by_cases h0 : key.length = 0
      · rw [if_pos h0]; decide
      · rw [if_neg h0]; simp
    · simp

theorem EncryptECB_error_iff_witness :
    (∃ ct e, EncryptECB (fun _ b => b) [1, 2, 3] [7] = some (ct, some e)) ∧
    (∃ ct, EncryptECB (fun _ b => b) (lit EAPIKey) [7] = some (ct, none)) :=
  ⟨(EncryptECB_error_iff (fun _ b => b) [1, 2, 3] [7]).1.mpr (Or.inr (by decide)),
   (EncryptECB_error_iff (fun _ b => b) (lit EAPIKey) [7]).2.2.1 (by decide)⟩

/-! ## Proofs: the search limit -/

theorem searchLimit_eq (limit : Int) :
    searchLimit limit =
      if (if limit ≤ 0 then 10 else limit) > 100 then 100
      else (if limit ≤ 0 then 10 else limit) := rfl

/-- C20: the limit that Search sends to the provider is 10 when limit <= 0, 100 when
limit > 100 and limit itself otherwise, hence always within [1, 100]; 500 gives 100
and 0 gives 10. -/
theorem searchLimit_spec (keywords : GoString) (limit : Int) :
    (searchForm keywords limit).get (str "limit") = some (Itoa (searchLimit limit)) ∧
    (limit ≤ 0 → searchLimit limit = 10) ∧
    (limit > 100 → searchLimit limit = 100) ∧
    (0 < limit → limit ≤ 100 → searchLimit limit = limit) ∧
    (1 ≤ searchLimit limit ∧ searchLimit limit ≤ 100) ∧
    searchLimit 500 = 100 ∧ searchLimit 0 = 10 := by
  refine ⟨?_, ?_, ?_, ?_, ?_, by decide, by decide⟩
  · unfold searchForm
    exact StrMap.get_set_self _ _ _
  · intro h
    rw [searchLimit_eq]
    split_ifs <;> omega
  · intro h
    rw [searchLimit_eq]
    split_ifs <;> omega
  · intro h1 h2
    rw [searchLimit_eq]
    split_ifs <;> omega
  · rw [searchLimit_eq]
    split_ifs <;> omega

theorem searchLimit_spec_witness :
    (searchForm (str "x") 500).get (str "limit") = some (Itoa 100) ∧
    searchLimit (-3) = 10 ∧ searchLimit 101 = 100 ∧ searchLimit 37 = 37 :=
  ⟨(searchLimit_spec (str "x") 500).1.trans (by decide),
   (searchLimit_spec (str "x") (-3)).2.1 (by decide),
   (searchLimit_spec (str "x") 101).2.2.1 (by decide),
   (searchLimit_spec (str "x") 37).2.2.2.1 (by decide) (by decide)⟩

/-! ## Proofs: GetMusicInfo -/

/-- C17: with a client whose stream-URL operation succeeds with a response that has no
data entry, or whose first entry has an empty URL, GetMusicInfo returns no record and
the error "music url not available", whatever the song-detail and lyrics operations of
the client are. -/
theorem GetMusicInfo_noURL (lib : Lib) (d : Downloader) (client : Client) (songID : Int)
    (quality : GoString) (urlResp : SongURLResponse)
    (hc : d.client = some client)
    (hurl : ∀ cookies, client.GetSongURL songID quality cookies = .ok urlResp)
    (hempty : urlResp.Data = [] ∨
      ∃ first rest, urlResp.Data = first :: rest ∧ first.URL = []) :
    GetMusicInfo lib d songID quality = (none, some (.msg "music url not available")) := by
  unfold GetMusicInfo
  simp only [hc, hurl]
  rcases hempty with h | ⟨first, rest, h, hu⟩
  · simp only [h]
  · simp only [h, hu, if_true]

theorem GetMusicInfo_noURL_witness :
    GetMusicInfo sampleLib
      ⟨some (sampleClient (.ok ⟨200, []⟩) (.error (.msg "down")) (.error (.msg "down"))),
        none, str "downloads"⟩ 5 (str "lossless") =
      (none, some (.msg "music url not available")) :=
  GetMusicInfo_noURL sampleLib _ _ 5 (str "lossless") ⟨200, []⟩ rfl (fun _ => rfl)
    (Or.inl rfl)

/-- C18: with the provider operations as given results. If the stream-URL operation
yields a non-empty first URL and the song-detail operation yields at least one song,
GetMusicInfo succeeds whether or not the lyrics operation fails, and on lyrics failure
Lyric and TLyric are empty. If the stream-URL operation fails, GetMusicInfo fails with
that same error and no record. If the song-detail operation fails, GetMusicInfo fails
with that same error and no record: GetMusicInfo asks for the song detail once the
stream-URL step has given a non-empty first URL, and only then, so that the result is
the same for every song-detail operation when that step gives an error or no URL. -/
theorem GetMusicInfo_outcomes (lib : Lib) (d : Downloader) (client : Client) (songID : Int)
    (quality : GoString) (hc : d.client = some client) :
    (∀ (urlResp : SongURLResponse) (first : SongURLData) (rest : List SongURLData)
        (detailResp : SongDetailResponse) (song : SongDetailSong)
        (others : List SongDetailSong),
      (∀ cookies, client.GetSongURL songID quality cookies = .ok urlResp) →
      urlResp.Data = first :: rest → first.URL ≠ [] →
      client.GetSongDetail songID = .ok detailResp →
      detailResp.Songs = song :: others →
      (∃ info, GetMusicInfo lib d songID quality = (some info, none) ∧
        info.URL = first.URL ∧
        ((∃ e, ∀ cookies, client.GetLyrics songID cookies = .error e) →
          info.Lyric = [] ∧ info.TLyric = []))) ∧
    (∀ e, (∀ cookies, client.GetSongURL songID quality cookies = .error e) →
      GetMusicInfo lib d songID quality = (none, some e)) ∧
    (∀ (urlResp : SongURLResponse) (first : SongURLData) (rest : List SongURLData) e,
      (∀ cookies, client.GetSongURL songID quality cookies = .ok urlResp) →
      urlResp.Data = first :: rest → first.URL ≠ [] →
      client.GetSongDetail songID = .error e →
      GetMusicInfo lib d songID quality = (none, some e)) ∧
    (∀ other : Int → Except Error SongDetailResponse,
      ((∃ e, ∀ cookies, client.GetSongURL songID quality cookies = .error e) ∨
        (∃ urlResp, (∀ cookies, client.GetSongURL songID quality cookies = .ok urlResp) ∧
          (urlResp.Data = [] ∨ ∃ first rest, urlResp.Data = first :: rest ∧ first.URL = []))) →
      GetMusicInfo lib { d with client := some { client with GetSongDetail := other } }
        songID quality = GetMusicInfo lib d songID quality) := by
  refine ⟨?_, ?_, ?_, ?_⟩
  · intro urlResp first rest detailResp song others hurl hdata hne hdet hsongs
    unfold GetMusicInfo
    simp only [hc, hurl, hdata, if_neg hne, hdet, hsongs]
    refine ⟨_, rfl, rfl, ?_⟩
    rintro ⟨e, he⟩
    simp only [he, and_self]
  · intro e hurl
    unfold GetMusicInfo
    simp only [hc, hurl]
  · intro urlResp first rest e hurl hdata hne hdet
    unfold GetMusicInfo
    simp only [hc, hurl, hdata, if_neg hne, hdet]
  · intro other h
    unfold GetMusicInfo
    rcases h with ⟨e, hurl⟩ | ⟨urlResp, hurl, hdata | ⟨first, rest, hdata, hempty⟩⟩
    · simp only [hc, hurl]
    · simp only [hc, hurl, hdata]
    · simp only [hc, hurl, hdata, hempty, if_true]

theorem GetMusicInfo_outcomes_witness :
    (∃ info, GetMusicInfo sampleLib
      ⟨some (sampleClient (.ok ⟨200, [⟨5, str "http://x/a.flac", [], 9, str "flac", 0⟩]⟩)
        (.ok ⟨200, [⟨5, str "t", [⟨str "a"⟩], ⟨str "al", [], 0⟩, 1, 1⟩]⟩)
        (.error (.msg "lyric down"))), none, str "downloads"⟩ 5 (str "lossless") =
        (some info, none) ∧ info.Lyric = [] ∧ info.TLyric = []) ∧
    GetMusicInfo sampleLib
      ⟨some (sampleClient (.error (.msg "url down")) (.error (.msg "detail down"))
        (.error (.msg "lyric down"))), none, str "downloads"⟩ 5 (str "lossless") =
      (none, some (.msg "url down")) ∧
    GetMusicInfo sampleLib
      ⟨some (sampleClient (.ok ⟨200, [⟨5, str "http://x/a.flac", [], 9, str "flac", 0⟩]⟩)
        (.error (.msg "detail down")) (.error (.msg "lyric down"))), none,
        str "downloads"⟩ 5 (str "lossless") =
      (none, some (.msg "detail down")) :=
  ⟨((GetMusicInfo_outcomes sampleLib
      ⟨some (sampleClient (.ok ⟨200, [⟨5, str "http://x/a.flac", [], 9, str "flac", 0⟩]⟩)
        (.ok ⟨200, [⟨5, str "t", [⟨str "a"⟩], ⟨str "al", [], 0⟩, 1, 1⟩]⟩)
        (.error (.msg "lyric down"))), none, str "downloads"⟩ _ 5 (str "lossless") rfl).1
      _ _ _ _ _ _ (fun _ => rfl) rfl (by decide) rfl rfl).elim
      (fun info h => ⟨info, h.1, h.2.2 ⟨_, fun _ => rfl⟩⟩),
   (GetMusicInfo_outcomes sampleLib
      ⟨some (sampleClient (.error (.msg "url down")) (.error (.msg "detail down"))
        (.error (.msg "lyric down"))), none, str "downloads"⟩ _ 5 (str "lossless") rfl).2.1
      _ (fun _ => rfl),
   (GetMusicInfo_outcomes sampleLib
      ⟨some (sampleClient (.ok ⟨200, [⟨5, str "http://x/a.flac", [], 9, str "flac", 0⟩]⟩)
        (.error (.msg "detail down")) (.error (.msg "lyric down"))), none,
        str "downloads"⟩ _ 5 (str "lossless") rfl).2.2.1
      _ _ _ _ (fun _ => rfl) rfl (by decide) rfl⟩

theorem defaultCookies_entry (k d : GoString) (h : (k, d) ∈ defaultCookies) :
    k ≠ [] ∧ StrMap.get defaultCookies k = some d ∧
      (d = [] → k = str "appver" ∨ k = str "osver") := by
  have hn : (defaultCookies.map Prod.fst).Nodup := by decide
  refine ⟨?_, (StrMap.mem_iff_get k d _ hn).mp h, ?_⟩
  · simp only [defaultCookies, List.mem_cons, Prod.mk.injEq, List.mem_singleton,
      List.not_mem_nil, or_false] at h
    rcases h with ⟨rfl, _⟩ | ⟨rfl, _⟩ | ⟨rfl, _⟩ | ⟨rfl, _⟩ <;> decide
  · intro hd
    simp only [defaultCookies, List.mem_cons, Prod.mk.injEq, List.mem_singleton,
      List.not_mem_nil, or_false] at h
    rcases h with ⟨rfl, rfl⟩ | ⟨rfl, _⟩ | ⟨rfl, _⟩ | ⟨rfl, rfl⟩
    · exact absurd hd (by decide)
    · exact Or.inl rfl
    · exact Or.inr rfl
    · exact absurd hd (by decide)

/-- C15: for every user cookie map, the merged cookie set of applyCookies holds each
default key (os, appver, osver, deviceId), with the user's value when the user gave a
non-empty value for it and with the default value otherwise; every user pair with
non-empty key and non-empty value is in the set unchanged; and every pair of the set
is one of these. No key occurs twice. -/
theorem mergedCookies_spec (cookies : StrMap) (hmap : (cookies.map Prod.fst).Nodup) :
    (∀ k d, (k, d) ∈ defaultCookies →
      ∃ v, (k, v) ∈ mergedCookies cookies ∧
        ((∃ u, (k, u) ∈ cookies ∧ u ≠ [] ∧ v = u) ∨
         ((∀ u, (k, u) ∈ cookies → u = []) ∧ v = d))) ∧
    (∀ k v, (k, v) ∈ cookies → k ≠ [] → v ≠ [] → (k, v) ∈ mergedCookies cookies) ∧
    (∀ k v, (k, v) ∈ mergedCookies cookies →
      (∃ d, (k, d) ∈ defaultCookies) ∨ ((k, v) ∈ cookies ∧ k ≠ [] ∧ v ≠ [])) ∧
    ((mergedCookies cookies).map Prod.fst).Nodup ∧
    defaultCookies =
      [(str "os", str "pc"), (str "appver", str ""), (str "osver", str ""),
       (str "deviceId", str "pyncm!")] := by
  have hnd := mergedCookies_nodup cookies
  have hn : (defaultCookies.map Prod.fst).Nodup := by decide
  refine ⟨?_, ?_, ?_, hnd, rfl⟩
  · intro k d hkd
    obtain ⟨hk, hget, _⟩ := defaultCookies_entry k d hkd
    have hm := mergedCookies_get cookies hmap k
    cases hc : StrMap.get cookies k with
    | none =>
      rw [hc] at hm
      simp only [hget] at hm
      refine ⟨d, (StrMap.mem_iff_get k d _ hnd).mpr hm, Or.inr ⟨?_, rfl⟩⟩
      intro u hu
      rw [(StrMap.mem_iff_get k u _ hmap).mp hu] at hc
      exact absurd hc (by simp)
    | some u =>
      rw [hc] at hm
      by_cases hu : u = []
      · simp only [hu, ne_eq, not_true_eq_false, and_false, if_false, hget] at hm
        refine ⟨d, (StrMap.mem_iff_get k d _ hnd).mpr hm, Or.inr ⟨?_, rfl⟩⟩
        intro u' hu'
        rw [(StrMap.mem_iff_get k u' _ hmap).mp hu'] at hc
        simp only [Option.some.injEq] at hc
        rw [hc, hu]
      · simp only [if_pos (show k ≠ [] ∧ u ≠ [] from ⟨hk, hu⟩)] at hm
        exact ⟨u, (StrMap.mem_iff_get k u _ hnd).mpr hm,
          Or.inl ⟨u, (StrMap.mem_iff_get k u _ hmap).mpr hc, hu, rfl⟩⟩
  · intro k v hkv hk hv
    have hm := mergedCookies_get cookies hmap k
    rw [(StrMap.mem_iff_get k v _ hmap).mp hkv] at hm
    simp only [if_pos (show k ≠ [] ∧ v ≠ [] from ⟨hk, hv⟩)] at hm
    exact (StrMap.mem_iff_get k v _ hnd).mpr hm
  · intro k v hkv
    have hm := mergedCookies_get cookies hmap k
    rw [(StrMap.mem_iff_get k v _ hnd).mp hkv] at hm
    cases hc : StrMap.get cookies k with
    | none =>
      rw [hc] at hm
      exact Or.inl ⟨v, (StrMap.mem_iff_get k v _ hn).mpr hm.symm⟩
    | some u =>
      rw [hc] at hm
      by_cases hku : k ≠ [] ∧ u ≠ []
      · simp only [if_pos hku, Option.some.injEq] at hm
        subst hm
        exact Or.inr ⟨(StrMap.mem_iff_get k v _ hmap).mpr hc, hku.1, hku.2⟩
      · simp only [if_neg hku] at hm
        exact Or.inl ⟨v, (StrMap.mem_iff_get k v _ hn).mpr hm.symm⟩

theorem mergedCookies_spec_witness :
    ([(str "os", str "ios"), (str "osver", str ""), (str "MUSIC_U", str "abc")].map
      Prod.fst).Nodup ∧
    (str "MUSIC_U", str "abc") ∈
      mergedCookies [(str "os", str "ios"), (str "osver", str ""), (str "MUSIC_U", str "abc")] ∧
    ((mergedCookies
      [(str "os", str "ios"), (str "osver", str ""), (str "MUSIC_U", str "abc")]).map
        Prod.fst).Nodup :=
  have h := mergedCookies_spec
    [(str "os", str "ios"), (str "osver", str ""), (str "MUSIC_U", str "abc")] (by decide)
  ⟨by decide, h.2.1 _ _ (by decide) (by decide) (by decide), h.2.2.2.1⟩

/-- C16, as stated, fails: with no user cookie the merged set holds the default pairs
appver= and osver=, whose values are empty. -/
theorem mergedCookies_empties_counterexample :
    (str "appver", []) ∈ mergedCookies [] ∧ (str "osver", []) ∈ mergedCookies [] := by
  decide

/-- C16, amended: for every user cookie map, the merged cookie set that applyCookies
writes into the Cookie header contains no pair whose key is empty, and the pairs whose
value is empty are exactly the default pairs of appver and of osver for which the user
has given no non-empty value: such a pair is one of these two, and each of these two
stays in the set whenever the user gives no non-empty value for its key. The set is not
empty, so the header is always set, and it lists the merged pairs in the order in which
the map is visited. -/
theorem mergedCookies_empties (cookies : StrMap) (hmap : (cookies.map Prod.fst).Nodup) :
    (∀ k v, (k, v) ∈ mergedCookies cookies → k ≠ []) ∧
    (∀ k, (k, []) ∈ mergedCookies cookies ↔
      (k = str "appver" ∨ k = str "osver") ∧ ∀ u, (k, u) ∈ cookies → u = []) ∧
    mergedCookies cookies ≠ [] ∧
    (∀ order : StrMap → StrMap,
      applyCookies order cookies =
        some (stringsJoin (str "; ")
          ((order (mergedCookies cookies)).map fun kv => kv.1 ++ str "=" ++ kv.2))) := by
  have hnd := mergedCookies_nodup cookies
  have hn : (defaultCookies.map Prod.fst).Nodup := by decide
  have hne : mergedCookies cookies ≠ [] := by
    have hm := mergedCookies_get cookies hmap (str "os")
    intro h
    rw [h] at hm
    cases hc : StrMap.get cookies (str "os") with
    | none =>
      rw [hc] at hm
      revert hm
      decide
    | some u =>
      rw [hc] at hm
      by_cases hu : str "os" ≠ [] ∧ u ≠ []
      · simp only [if_pos hu] at hm
        simp [StrMap.get] at hm
      · simp only [if_neg hu] at hm
        revert hm
        decide
  have hdef : ∀ k v, StrMap.get defaultCookies k = some v →
      k ≠ [] ∧ (v = [] → k = str "appver" ∨ k = str "osver") := by
    intro k v h
    have := defaultCookies_entry k v ((StrMap.mem_iff_get k v _ hn).mpr h)
    exact ⟨this.1, this.2.2⟩
  have hfwd : ∀ k v, (k, v) ∈ mergedCookies cookies →
      k ≠ [] ∧
      (v = [] → (k = str "appver" ∨ k = str "osver") ∧ ∀ u, (k, u) ∈ cookies → u = []) := by
    intro k v hkv
    have hm := mergedCookies_get cookies hmap k
    rw [(StrMap.mem_iff_get k v _ hnd).mp hkv] at hm
    cases hc : StrMap.get cookies k with
    | none =>
      rw [hc] at hm
      obtain ⟨h1, h2⟩ := hdef k v hm.symm
      refine ⟨h1, fun hv => ⟨h2 hv, ?_⟩⟩
      intro u hu
      rw [(StrMap.mem_iff_get k u _ hmap).mp hu] at hc
      exact absurd hc (by simp)
    | some u =>
      rw [hc] at hm
      by_cases hku : k ≠ [] ∧ u ≠ []
      · simp only [if_pos hku, Option.some.injEq] at hm
        subst hm
        exact ⟨hku.1, fun hv => absurd hv hku.2⟩
      · simp only [if_neg hku] at hm
        obtain ⟨h1, h2⟩ := hdef k v hm.symm
        refine ⟨h1, fun hv => ⟨h2 hv, ?_⟩⟩
        intro u' hu'
        rw [(StrMap.mem_iff_get k u' _ hmap).mp hu'] at hc
        simp only [Option.some.injEq] at hc
        subst hc
        by_contra hne'
        exact hku ⟨h1, hne'⟩
  refine ⟨fun k v hkv => (hfwd k v hkv).1, ?_, hne, ?_⟩
  · intro k
    constructor
    · intro hk
      exact (hfwd k [] hk).2 rfl
    · rintro ⟨hk, huser⟩
      have hget : StrMap.get defaultCookies k = some [] := by
        rcases hk with rfl | rfl <;> decide
      have hm := mergedCookies_get cookies hmap k
      apply (StrMap.mem_iff_get k [] _ hnd).mpr
      cases hc : StrMap.get cookies k with
      | none =>
        rw [hc] at hm
        rw [hm]
        exact hget
      | some u =>
        rw [hc] at hm
        have hu : u = [] := huser u ((StrMap.mem_iff_get k u _ hmap).mpr hc)
        have hnot : ¬ (k ≠ [] ∧ u ≠ []) := fun h => h.2 hu
        simp only [if_neg hnot] at hm
        rw [hm]
        exact hget
  · intro order
    unfold applyCookies
    simp only []
    rw [if_neg]
    intro h
    exact hne (List.length_eq_zero.mp h)

theorem mergedCookies_empties_witness :
    ([(str "", str "x"), (str "q", str ""), (str "appver", str "9")].map Prod.fst).Nodup ∧
    (str "osver", []) ∈
      mergedCookies [(str "", str "x"), (str "q", str ""), (str "appver", str "9")] ∧
    (str "appver", []) ∉
      mergedCookies [(str "", str "x"), (str "q", str ""), (str "appver", str "9")] ∧
    (mergedCookies [(str "", str "x"), (str "q", str ""), (str "appver", str "9")]).get
      (str "q") = none ∧
    mergedCookies [(str "", str "x"), (str "q", str ""), (str "appver", str "9")] ≠ [] :=
  have h := mergedCookies_empties
    [(str "", str "x"), (str "q", str ""), (str "appver", str "9")] (by decide)
  ⟨by decide,
   (h.2.1 (str "osver")).mpr ⟨Or.inr rfl, fun u hu => by
      simp only [List.mem_cons, List.mem_singleton, Prod.mk.injEq, List.not_mem_nil,
        or_false] at hu
      rcases hu with ⟨e, _⟩ | ⟨e, _⟩ | ⟨e, _⟩ <;> exact absurd e (by decide)⟩,
   fun hm => absurd (((h.2.1 (str "appver")).mp hm).2 (str "9") (by decide)) (by decide),
   by decide,
   h.2.2.1⟩

/-! ## Proofs: byte offsets in a Go string -/

theorem utf8Encode_length (c : Char) :
    1 ≤ (utf8Encode c).length ∧ (utf8Encode c).length ≤ 4 := by
  unfold utf8Encode
  simp only []
  split_ifs <;> simp

theorem GoRune.width_pos (u : GoRune) : 1 ≤ u.width ∧ u.width ≤ 4 := by
  cases u with
  | rune c => exact utf8Encode_length c
  | byte b => simp [GoRune.width, GoRune.toBytes]

theorem length_le_byteLen : ∀ s : GoString, s.length ≤ byteLen s := by
  intro s
  induction s with
  | nil => simp [byteLen]
  | cons u t ih =>
    have := (GoRune.width_pos u).1
    simp only [List.length_cons, byteLen]
    omega

theorem byteLen_bytes (bs : Bytes) : byteLen (bs.map GoRune.byte) = bs.length := by
  induction bs with
  | nil => rfl
  | cons b bs ih =>
    simp only [List.map_cons, byteLen, ih, List.length_cons, GoRune.width, GoRune.toBytes,
      List.length_nil]
    omega

theorem byteLen_byteTake : ∀ (s : GoString) (n : Nat), byteLen (byteTake n s) ≤ n := by
  intro s
  induction s with
  | nil => intro n; simp [byteTake, byteLen]
  | cons u t ih =>
    intro n
    rw [byteTake]
    by_cases h : u.width ≤ n
    · rw [if_pos h, byteLen]
      have := ih (n - u.width)
      omega
    · rw [if_neg h, byteLen_bytes, List.length_take]
      omega

theorem mem_byteTake (v : GoRune) : ∀ (s : GoString) (n : Nat),
    v ∈ byteTake n s → v ∈ s ∨ ∃ b, v = GoRune.byte b := by
  intro s
  induction s with
  | nil => intro n h; simp [byteTake] at h
  | cons u t ih =>
    intro n h
    rw [byteTake] at h
    by_cases hw : u.width ≤ n
    · rw [if_pos hw] at h
      rcases List.mem_cons.mp h with h1 | h1
      · exact Or.inl (by rw [h1]; simp)
      · rcases ih _ h1 with h2 | h2
        · exact Or.inl (by simp [h2])
        · exact Or.inr h2
    · rw [if_neg hw] at h
      obtain ⟨b, _, hb⟩ := List.mem_map.mp h
      exact Or.inr ⟨b, hb.symm⟩

/-! ## Proofs: BuildFilename -/

theorem mem_trimLeftSpace (v : GoRune) (s : GoString) (h : v ∈ trimLeftSpace s) : v ∈ s :=
  (List.dropWhile_sublist _).subset h

theorem mem_trimRightSpace (v : GoRune) (s : GoString) (h : v ∈ trimRightSpace s) : v ∈ s := by
  unfold trimRightSpace at h
  rw [List.mem_reverse] at h
  exact List.mem_reverse.mp ((List.dropWhile_sublist _).subset h)

theorem mem_stringsTrimSpace (v : GoRune) (s : GoString) (h : v ∈ stringsTrimSpace s) :
    v ∈ s :=
  mem_trimLeftSpace v s (mem_trimRightSpace v _ h)

theorem replaceIllegal_clean (s : GoString) :
    ∀ u ∈ replaceIllegal s, illegalFilenameChars u = false := by
  intro u hu
  unfold replaceIllegal at hu
  obtain ⟨x, _, hx⟩ := List.mem_map.mp hu
  by_cases h : illegalFilenameChars x = true
  · rw [if_pos h] at hx
    rw [← hx]; decide
  · rw [if_neg h] at hx
    rw [← hx]
    simpa using h

/-- C12: for every MusicInfo, BuildFilename returns a string of at most 200 characters
(it has at most 200 bytes), which contains none of the characters of
illegalFilenameChars and is not empty. -/
theorem BuildFilename_spec (info : MusicInfo) :
    (BuildFilename info).length ≤ 200 ∧
    byteLen (BuildFilename info) ≤ 200 ∧
    (∀ c ∈ ['<', '>', ':', '"', '/', '\\', '|', '?', '*'],
      GoRune.rune c ∉ BuildFilename info) ∧
    BuildFilename info ≠ [] := by
  have hclean : ∀ u ∈ BuildFilename info, illegalFilenameChars u = false := by
    intro u hu
    unfold BuildFilename at hu
    simp only [] at hu
    split_ifs at hu with h1 h2 h3
    · revert hu u; decide
    · rcases mem_byteTake u _ _ hu with h | ⟨b, rfl⟩
      · exact replaceIllegal_clean _ u (mem_stringsTrimSpace u _ h)
      · rfl
    · revert hu u; decide
    · exact replaceIllegal_clean _ u (mem_stringsTrimSpace u _ hu)
  have hbytes : byteLen (BuildFilename info) ≤ 200 := by
    unfold BuildFilename
    simp only []
    split_ifs with h1 h2 h3
    · decide
    · exact byteLen_byteTake _ 200
    · decide
    · omega
  refine ⟨le_trans (length_le_byteLen _) hbytes, hbytes, ?_, ?_⟩
  · intro c hc hmem
    have hill : ∀ c ∈ ['<', '>', ':', '"', '/', '\\', '|', '?', '*'],
        illegalFilenameChars (GoRune.rune c) = true := by
      decide
    have h1 := hclean _ hmem
    rw [hill c hc] at h1
    exact absurd h1 (by decide)
  · unfold BuildFilename
    simp only []
    split_ifs with h1 h2 h3
    · decide
    · exact h2
    · decide
    · exact h3

theorem BuildFilename_spec_witness :
    BuildFilename ⟨1, str " x:y?  ", str "A/B", [], [], 0, str "mp3", 0, [], str "u", [], []⟩ =
      str "A_B -  x_y_" ∧
    byteLen (BuildFilename
      ⟨1, str " x:y?  ", str "A/B", [], [], 0, str "mp3", 0, [], str "u", [], []⟩) ≤ 200 ∧
    GoRune.rune '/' ∉ BuildFilename
      ⟨1, str " x:y?  ", str "A/B", [], [], 0, str "mp3", 0, [], str "u", [], []⟩ :=
  have h := BuildFilename_spec
    ⟨1, str " x:y?  ", str "A/B", [], [], 0, str "mp3", 0, [], str "u", [], []⟩
  ⟨by decide, h.2.1, h.2.2.1 '/' (by decide)⟩

/-! ## Proofs: DownloadToFile -/

/-- C19, as stated, fails: for the title "a.mp3" of type mp3, BuildFilename ends with
".mp3" already, so the destination is "d/b - a.mp3"; a file of size 3 at the download
directory joined with BuildFilename plus the extension, "d/b - a.mp3.mp3", is not
looked at, and the stream is fetched. -/
theorem DownloadToFile_existing_counterexample :
    sampleFS.Stat [(str "d/b - a.mp3.mp3", [7, 7, 7])]
      (sampleFS.Join (str "d")
        (BuildFilename ⟨1, str "a.mp3", str "b", [], [], 0, str "mp3", 0, [], str "u", [], []⟩
          ++ str "." ++ str "mp3")) = .ok 3 ∧
    (DownloadToFile sampleFS
      ⟨some (sampleClient (.error (.msg "x")) (.error (.msg "x")) (.error (.msg "x"))),
        none, str "d"⟩
      [(str "d/b - a.mp3.mp3", [7, 7, 7])]
      (some ⟨1, str "a.mp3", str "b", [], [], 0, str "mp3", 0, [], str "u", [], []⟩)).map
        (fun r => (r.filePath, r.fetched)) =
      some (str "d/b - a.mp3", [str "u"]) := by
  constructor
  · rfl
  · decide

/-- C19, amended: for every MusicInfo with a non-empty URL, if ensuring the download
directory succeeds and, in the state it leaves, a file of size n > 0 exists at the
destination path (the download directory joined with BuildFilename(info), followed by
"." and the file type unless BuildFilename(info) already ends with that suffix), then
DownloadToFile returns that path and n without error, fetches no stream, and leaves
the file system in the state that ensuring the directory left: nothing is created or
written. -/
theorem DownloadToFile_existing {σ : Type} (os : FileOps σ) (d : Downloader) (s s' : σ)
    (info : MusicInfo) (n : Int)
    (hurl : info.URL ≠ [])
    (hmk : os.MkdirAll s d.downloadDir = (s', none))
    (hstat : os.Stat s' (os.Join d.downloadDir (downloadName info)) = .ok n)
    (hn : 0 < n) :
    DownloadToFile os d s (some info) =
      some ⟨os.Join d.downloadDir (downloadName info), n, none, s', []⟩ ∧
    downloadName info =
      (if stringsHasSuffix (BuildFilename info) (str "." ++ info.FileType) = true
        then BuildFilename info
        else BuildFilename info ++ str "." ++ info.FileType) := by
  constructor
  · unfold DownloadToFile
    simp only [if_neg hurl, hmk, hstat, if_pos (show n > 0 from hn)]
  · unfold downloadName
    simp only []
    by_cases h : stringsHasSuffix (BuildFilename info) (str "." ++ info.FileType) = true
    · simp [h]
    · simp [h]

theorem DownloadToFile_existing_witness :
    DownloadToFile sampleFS ⟨none, none, str "d"⟩ [(str "d/b - a.mp3", [7, 7, 7])]
      (some ⟨1, str "a", str "b", [], [], 0, str "mp3", 0, [], str "u", [], []⟩) =
    some ⟨str "d/b - a.mp3", 3, none, [(str "d/b - a.mp3", [7, 7, 7])], []⟩ :=
  (DownloadToFile_existing sampleFS ⟨none, none, str "d"⟩ [(str "d/b - a.mp3", [7, 7, 7])]
    [(str "d/b - a.mp3", [7, 7, 7])]
    ⟨1, str "a", str "b", [], [], 0, str "mp3", 0, [], str "u", [], []⟩ 3
    (by decide) rfl rfl (by decide)).1

/-! ## Proofs: strings.TrimSpace on decoded strings -/

theorem trimLeftSpace_append (w s : GoString) (hw : SpaceOnly w) :
    trimLeftSpace (w ++ s) = trimLeftSpace s :=
  List.dropWhile_append_of_pos hw

theorem trimLeftSpace_cons (a : GoRune) (t : GoString) (ha : a.isSpace = false) :
    trimLeftSpace (a :: t) = a :: t :=
  List.dropWhile_cons_of_neg (by rw [ha]; simp)

theorem trimLeftSpace_spaceOnly (w : GoString) (hw : SpaceOnly w) : trimLeftSpace w = [] :=
  List.dropWhile_eq_nil_iff.mpr hw

theorem trimRightSpace_nil : trimRightSpace [] = [] := rfl

theorem trimRightSpace_append (s w : GoString) (hw : SpaceOnly w) :
    trimRightSpace (s ++ w) = trimRightSpace s := by
  unfold trimRightSpace
  rw [List.reverse_append, List.dropWhile_append_of_pos]
  intro u hu
  exact hw u (List.mem_reverse.mp hu)

theorem trimRightSpace_concat (t : GoString) (b : GoRune) (hb : b.isSpace = false) :
    trimRightSpace (t ++ [b]) = t ++ [b] := by
  unfold trimRightSpace
  rw [List.reverse_append, List.reverse_singleton, List.singleton_append,
    List.dropWhile_cons_of_neg (by rw [hb]; simp)]
  simp

theorem trimRightSpace_cons (a : GoRune) (t : GoString) :
    trimRightSpace (a :: t) =
      if trimRightSpace t = [] then (if a.isSpace = true then [] else [a])
      else a :: trimRightSpace t := by
  unfold trimRightSpace
  rw [List.reverse_cons, List.dropWhile_append]
  by_cases h : List.dropWhile GoRune.isSpace t.reverse = []
  · simp only [h, List.isEmpty_nil, if_true, List.reverse_nil]
    by_cases ha : a.isSpace = true
    · simp [ha]
    · simp [ha]
  · have h1 : (List.dropWhile GoRune.isSpace t.reverse).isEmpty = false := by
      cases hd : List.dropWhile GoRune.isSpace t.reverse with
      | nil => exact absurd hd h
      | cons x y => rfl
    have h2 : (List.dropWhile GoRune.isSpace t.reverse).reverse ≠ [] := by
      simpa using h
    simp only [h1, Bool.false_eq_true, if_false, if_neg h2]
    simp

/-- Trimming on the right stops at a part that ends with a rune that is no white space. -/
theorem trimRightSpace_after (x : GoString) (b : GoRune) (hb : b.isSpace = false) :
    ∀ front : GoString, trimRightSpace (front ++ [b] ++ x) = front ++ [b] ++ trimRightSpace x := by
  intro front
  induction front with
  | nil =>
    simp only [List.nil_append, List.singleton_append]
    rw [trimRightSpace_cons]
    by_cases h : trimRightSpace x = []
    · simp [h, hb]
    · simp [h]
  | cons c front ih =>
    simp only [List.cons_append] at ih ⊢
    rw [trimRightSpace_cons, ih]
    simp

theorem trim_commute : ∀ x : GoString,
    trimLeftSpace (trimRightSpace x) = trimRightSpace (trimLeftSpace x) := by
  intro x
  induction x with
  | nil => rfl
  | cons a t ih =>
    by_cases ha : a.isSpace = true
    · have hl : trimLeftSpace (a :: t) = trimLeftSpace t := List.dropWhile_cons_of_pos ha
      rw [hl, trimRightSpace_cons]
      by_cases ht : trimRightSpace t = []
      · simp only [ht, if_true, ha]
        rw [← ih, ht]
      · simp only [ht, if_false]
        have : trimLeftSpace (a :: trimRightSpace t) = trimLeftSpace (trimRightSpace t) :=
          List.dropWhile_cons_of_pos ha
        rw [this, ih]
    · have ha' : a.isSpace = false := by simpa using ha
      rw [trimLeftSpace_cons a t ha', trimRightSpace_cons]
      by_cases ht : trimRightSpace t = []
      · simp only [ht, if_true, ha', Bool.false_eq_true, if_false]
        exact trimLeftSpace_cons a [] ha'
      · simp only [ht, if_false]
        exact trimLeftSpace_cons a _ ha'

theorem trimRightSpace_idem (x : GoString) :
    trimRightSpace (trimRightSpace x) = trimRightSpace x := by
  unfold trimRightSpace
  rw [List.reverse_reverse, List.dropWhile_idempotent]

/-- Trimming after trimming on the right is trimming. -/
theorem stringsTrimSpace_trimRight (x : GoString) :
    stringsTrimSpace (trimRightSpace x) = stringsTrimSpace x := by
  unfold stringsTrimSpace
  rw [trim_commute, trimRightSpace_idem]

theorem stringsTrimSpace_append_left (w s : GoString) (hw : SpaceOnly w) :
    stringsTrimSpace (w ++ s) = stringsTrimSpace s := by
  unfold stringsTrimSpace
  rw [trimLeftSpace_append w s hw]

theorem stringsTrimSpace_spaceOnly (w : GoString) (hw : SpaceOnly w) :
    stringsTrimSpace w = [] := by
  unfold stringsTrimSpace
  rw [trimLeftSpace_spaceOnly w hw]
  rfl

/-- White space around a core that has none around is trimmed away. -/
theorem stringsTrimSpace_core (l core r : GoString) (hl : SpaceOnly l) (hr : SpaceOnly r)
    (hc : NoSpaceAround core) : stringsTrimSpace (l ++ core ++ r) = core := by
  rw [List.append_assoc, stringsTrimSpace_append_left l _ hl]
  unfold stringsTrimSpace
  cases core with
  | nil =>
    rw [List.nil_append, trimLeftSpace_spaceOnly r hr]
    rfl
  | cons a t =>
    rw [List.cons_append, trimLeftSpace_cons a _ (hc.1 a t rfl), ← List.cons_append,
      trimRightSpace_append _ r hr]
    rcases List.eq_nil_or_concat (a :: t) with h | ⟨front, b, h⟩
    · exact absurd h (by simp)
    · rw [List.concat_eq_append] at h
      rw [h]
      exact trimRightSpace_concat front b (hc.2 b front h)

theorem stringsTrimSpace_self (s : GoString) (hs : NoSpaceAround s) :
    stringsTrimSpace s = s := by
  have := stringsTrimSpace_core [] s [] (fun u hu => by simp at hu)
    (fun u hu => by simp at hu) hs
  simpa using this

/-- A string that begins with a part whose first and last rune are no white space is
trimmed on the right only, behind that part. -/
theorem stringsTrimSpace_after (a b : GoRune) (mid x : GoString) (ha : a.isSpace = false)
    (hb : b.isSpace = false) :
    stringsTrimSpace (a :: mid ++ [b] ++ x) = a :: mid ++ [b] ++ trimRightSpace x := by
  unfold stringsTrimSpace
  rw [show a :: mid ++ [b] ++ x = a :: (mid ++ [b] ++ x) from by simp,
    trimLeftSpace_cons a _ ha]
  have := trimRightSpace_after x b hb (a :: mid)
  simpa using this

/-! ## Proofs: the head of ParseCookieString -/

/-- Without a byte-order mark and a `cookie:` prefix at the head of the trimmed string,
`ParseCookieString` is `cookieBody` of the trimmed string. -/
theorem ParseCookieString_plain (s : GoString)
    (hbom : bom.isPrefixOf (stringsTrimSpace s) = false)
    (hck : hasPrefixLower "cookie:".toList (stringsTrimSpace s) = false) :
    ParseCookieString s = cookieBody (stringsTrimSpace s) := by
  unfold ParseCookieString stringsTrimPrefix
  simp only [hbom, Bool.false_eq_true, if_false, hck]

theorem anyCaseOf_cons (c : Char) (w : List Char) (P : GoString) (h : AnyCaseOf (c :: w) P) :
    ∃ u P', P = u :: P' ∧ (u = GoRune.rune c ∨ u = GoRune.rune c.toUpper) ∧ AnyCaseOf w P' := by
  unfold AnyCaseOf at h
  rw [List.forall₂_cons_left_iff] at h
  obtain ⟨u, P', hu, hP, rfl⟩ := h
  exact ⟨u, P', rfl, hu, hP⟩

theorem anyCaseOf_nil (P : GoString) (h : AnyCaseOf [] P) : P = [] := by
  unfold AnyCaseOf at h
  exact List.forall₂_nil_left_iff.mp h

/-- What the letters of `cookie:` are like, in either case: one byte wide, no white
space, lower-cased to the letter. -/
theorem cookie_letters : ∀ c ∈ "cookie:".toList, ∀ u ∈ [GoRune.rune c, GoRune.rune c.toUpper],
    u.width = 1 ∧ u.isSpace = false ∧ lowerASCII u = some c ∧
      u ≠ GoRune.rune (Char.ofNat 0xFEFF) := by
  decide

theorem hasPrefixLower_anyCase (y : GoString) : ∀ (w : List Char) (P : GoString),
    (∀ c ∈ w, c ∈ "cookie:".toList) → AnyCaseOf w P →
      hasPrefixLower w (P ++ y) = true ∧ byteDrop P.length (P ++ y) = y ∧
      (∀ u ∈ P, u.isSpace = false ∧ u ≠ GoRune.rune (Char.ofNat 0xFEFF)) ∧
      P.length = w.length := by
  intro w
  induction w with
  | nil =>
    intro P _ h
    rw [anyCaseOf_nil P h]
    refine ⟨rfl, ?_, ?_, rfl⟩
    · cases y <;> simp [byteDrop]
    · intro u hu; simp at hu
  | cons c w ih =>
    intro P hw h
    obtain ⟨u, P', rfl, hu, hP'⟩ := anyCaseOf_cons c w P h
    obtain ⟨h1, h2, h3, h4⟩ := ih P' (fun x hx => hw x (by simp [hx])) hP'
    have hc := cookie_letters c (hw c (by simp)) u (by
      rcases hu with rfl | rfl <;> simp)
    refine ⟨?_, ?_, ?_, by simp [h4]⟩
    · rw [List.cons_append, hasPrefixLower, hc.2.2.1, h1]
      simp
    · rw [List.cons_append, byteDrop, if_neg (by simp), if_pos (by rw [hc.1]; simp)]
      rw [hc.1]
      simpa using h2
    · intro x hx
      rcases List.mem_cons.mp hx with rfl | hx'
      · exact ⟨hc.2.1, hc.2.2.2⟩
      · exact h3 x hx'

/-- C14: for a prefix P that is "cookie:" in any letter case, any white space w, and
every string s whose trimmed form begins neither with a byte-order mark nor, as Go
lower-cases it, with "cookie:", ParseCookieString(P + w + s) = ParseCookieString(s). -/
theorem ParseCookieString_cookiePrefix (P w s : GoString)
    (hP : AnyCaseOf "cookie:".toList P) (hw : SpaceOnly w)
    (hbom : bom.isPrefixOf (stringsTrimSpace s) = false)
    (hck : hasPrefixLower "cookie:".toList (stringsTrimSpace s) = false) :
    ParseCookieString (P ++ w ++ s) = ParseCookieString s := by
  rw [ParseCookieString_plain s hbom hck]
  have hP7 : ∀ y, hasPrefixLower "cookie:".toList (P ++ y) = true ∧
      byteDrop 7 (P ++ y) = y ∧
      (∀ u ∈ P, u.isSpace = false ∧ u ≠ GoRune.rune (Char.ofNat 0xFEFF)) ∧ P.length = 7 := by
    intro y
    have := hasPrefixLower_anyCase y "cookie:".toList P (fun c hc => hc) hP
    have hl : P.length = 7 := this.2.2.2
    refine ⟨this.1, ?_, this.2.2.1, hl⟩
    have h2 := this.2.1
    rw [hl] at h2
    exact h2
  have hlen := (hP7 []).2.2.2
  have hunits := (hP7 []).2.2.1
  obtain ⟨a, rest, hPa⟩ : ∃ a rest, P = a :: rest := by
    cases P with
    | nil => simp at hlen
    | cons a rest => exact ⟨a, rest, rfl⟩
  obtain ⟨mid, b, hrest⟩ : ∃ mid b, rest = mid ++ [b] := by
    rcases List.eq_nil_or_concat rest with h | ⟨mid, b, h⟩
    · rw [hPa, h] at hlen; simp at hlen
    · exact ⟨mid, b, by rw [h, List.concat_eq_append]⟩
  have ha : a.isSpace = false := (hunits a (by rw [hPa]; simp)).1
  have hb : b.isSpace = false := (hunits b (by rw [hPa, hrest]; simp)).1
  have habom : a ≠ GoRune.rune (Char.ofNat 0xFEFF) := (hunits a (by rw [hPa]; simp)).2
  have htrim : stringsTrimSpace (P ++ w ++ s) = P ++ trimRightSpace (w ++ s) := by
    have := stringsTrimSpace_after a b mid (w ++ s) ha hb
    rw [hPa, hrest]
    simpa using this
  have hnb : bom.isPrefixOf (P ++ trimRightSpace (w ++ s)) = false := by
    rw [hPa]
    simp only [bom, List.cons_append, List.isPrefixOf, Bool.and_true]
    simpa using fun h => habom h.symm
  unfold ParseCookieString stringsTrimPrefix
  simp only [htrim, hnb, Bool.false_eq_true, if_false, (hP7 _).1, if_true, (hP7 _).2.1]
  rw [stringsTrimSpace_trimRight, stringsTrimSpace_append_left w s hw]

theorem ParseCookieString_cookiePrefix_witness :
    AnyCaseOf "cookie:".toList (str "COOkie:") ∧ SpaceOnly (str " \t") ∧
    ParseCookieString (str "COOkie:" ++ str " \t" ++ str "a=1; b=2 ") =
      ParseCookieString (str "a=1; b=2 ") ∧
    ParseCookieString (str "a=1; b=2 ") = [(str "b", str "2"), (str "a", str "1")] :=
  have hP : AnyCaseOf "cookie:".toList (str "COOkie:") := by
    unfold AnyCaseOf
    repeat (first | exact List.Forall₂.nil | refine List.Forall₂.cons (by decide) ?_)
  have hw : SpaceOnly (str " \t") := by unfold SpaceOnly; decide
  ⟨hP, hw,
   ParseCookieString_cookiePrefix (str "COOkie:") (str " \t") (str "a=1; b=2 ") hP hw
     (by decide) (by decide),
   by decide⟩

/-! ## Proofs: splitting and joining -/

theorem stringsSplit_absent (sep : GoRune) : ∀ s : GoString, sep ∉ s →
    stringsSplit sep s = [s] := by
  intro s
  induction s with
  | nil => intro _; rfl
  | cons u t ih =>
    intro h
    simp only [List.mem_cons, not_or] at h
    rw [stringsSplit, if_neg (fun e => h.1 e.symm), ih h.2]

theorem stringsSplit_append (sep : GoRune) (t : GoString) : ∀ p : GoString, sep ∉ p →
    stringsSplit sep (p ++ sep :: t) = p :: stringsSplit sep t := by
  intro p
  induction p with
  | nil => intro _; simp [stringsSplit]
  | cons u p ih =>
    intro h
    simp only [List.mem_cons, not_or] at h
    rw [List.cons_append, stringsSplit, if_neg (fun e => h.1 e.symm), ih h.2]

theorem stringsSplit_prepend (sep : GoRune) (X h : GoString) (tl : List GoString)
    (hX : stringsSplit sep X = h :: tl) : ∀ pad : GoString, sep ∉ pad →
    stringsSplit sep (pad ++ X) = (pad ++ h) :: tl := by
  intro pad
  induction pad with
  | nil => intro _; simpa using hX
  | cons u pad ih =>
    intro hp
    simp only [List.mem_cons, not_or] at hp
    rw [List.cons_append, stringsSplit, if_neg (fun e => hp.1 e.symm), ih hp.2]
    rfl

/-- Splitting a joined list at the first rune of the separator gives the items back,
all but the first with the rest of the separator in front. -/
theorem stringsSplit_join (sep : GoRune) (pad : GoString) (hpad : sep ∉ pad) :
    ∀ (it : GoString) (items : List GoString), (∀ x ∈ it :: items, sep ∉ x) →
      stringsSplit sep (stringsJoin (sep :: pad) (it :: items)) =
        it :: items.map fun x => pad ++ x := by
  intro it items
  induction items generalizing it with
  | nil =>
    intro h
    exact stringsSplit_absent sep it (h it (by simp))
  | cons q ps ih =>
    intro h
    have hq := ih q (fun x hx => h x (by simp [List.mem_cons] at hx ⊢; tauto))
    rw [stringsJoin, List.append_assoc, List.cons_append,
      stringsSplit_append sep _ it (h it (by simp)),
      stringsSplit_prepend sep _ _ _ hq pad hpad]
    rfl

theorem mem_stringsJoin (u : GoRune) (sep : GoString) : ∀ items : List GoString,
    u ∈ stringsJoin sep items → u ∈ sep ∨ ∃ x ∈ items, u ∈ x := by
  intro items
  induction items with
  | nil => intro h; simp [stringsJoin] at h
  | cons p ps ih =>
    intro h
    cases ps with
    | nil => exact Or.inr ⟨p, by simp, by simpa [stringsJoin] using h⟩
    | cons q qs =>
      rw [stringsJoin, List.mem_append, List.mem_append] at h
      rcases h with (h | h) | h
      · exact Or.inr ⟨p, by simp, h⟩
      · exact Or.inl h
      · rcases ih h with h' | ⟨x, hx, hux⟩
        · exact Or.inl h'
        · exact Or.inr ⟨x, by simp [List.mem_cons] at hx ⊢; tauto, hux⟩

theorem stringsJoin_head (sep it : GoString) (items : List GoString) :
    ∃ post, stringsJoin sep (it :: items) = it ++ post := by
  cases items with
  | nil => exact ⟨[], by simp [stringsJoin]⟩
  | cons q qs => exact ⟨sep ++ stringsJoin sep (q :: qs), by simp [stringsJoin]⟩

theorem stringsJoin_last (sep : GoString) : ∀ (items : List GoString) (front : List GoString)
    (it : GoString), items = front ++ [it] → ∃ pre, stringsJoin sep items = pre ++ it := by
  intro items
  induction items with
  | nil => intro front it h; simp at h
  | cons p ps ih =>
    intro front it h
    cases ps with
    | nil =>
      have : p = it := by
        cases front with
        | nil => simpa using h
        | cons f fs =>
          simp only [List.cons_append, List.cons.injEq] at h
          exact absurd h.2 (by simp)
      exact ⟨[], by simp [stringsJoin, this]⟩
    | cons q qs =>
      cases front with
      | nil => simp at h
      | cons f fs =>
        simp only [List.cons_append, List.cons.injEq] at h
        obtain ⟨pre, hpre⟩ := ih fs it h.2
        exact ⟨p ++ sep ++ pre, by rw [stringsJoin, hpre]; simp⟩

theorem stringsSplitN2_item (sep : GoRune) (v : GoString) : ∀ k : GoString, sep ∉ k →
    stringsSplitN2 sep (k ++ sep :: v) = some (k, v) := by
  intro k
  induction k with
  | nil => intro _; simp [stringsSplitN2]
  | cons u k ih =>
    intro h
    simp only [List.mem_cons, not_or] at h
    rw [List.cons_append, stringsSplitN2, if_neg (fun e => h.1 e.symm), ih h.2]

/-! ## Proofs: the loop of ParseCookieString -/

theorem cookieItem_eq (kv : GoString × GoString) :
    cookieItem kv = kv.1 ++ GoRune.rune '=' :: kv.2 := by
  simp [cookieItem, str]

theorem cookieItem_noSpaceAround (kv : GoString × GoString) (h : PlainPair kv) :
    NoSpaceAround (cookieItem kv) ∧ cookieItem kv ≠ [] := by
  obtain ⟨hk, hv, hks, hvs, _⟩ := h
  rw [cookieItem_eq]
  obtain ⟨a, kt, hka⟩ := List.exists_cons_of_ne_nil hk
  refine ⟨⟨?_, ?_⟩, by rw [hka]; simp⟩
  · intro u t hut
    rw [hka, List.cons_append] at hut
    simp only [List.cons.injEq] at hut
    rw [← hut.1]
    exact hks.1 a kt hka
  · intro u t hut
    rcases List.eq_nil_or_concat kv.2 with h0 | ⟨front, b, hb⟩
    · exact absurd h0 hv
    · rw [List.concat_eq_append] at hb
      rw [hb, ← List.cons_append, ← List.append_assoc] at hut
      have := List.append_inj' hut rfl
      simp only [List.cons.injEq, and_true] at this
      rw [← this.2]
      exact hvs.2 b front hb

/-- One part of a cookie text that holds a plain pair, white space in front allowed,
puts the pair into the map. -/
theorem parseCookiePart_item (result : StrMap) (pad : GoString) (kv : GoString × GoString)
    (hpad : SpaceOnly pad) (h : PlainPair kv) :
    parseCookiePart result (pad ++ cookieItem kv) = result.set kv.1 kv.2 := by
  obtain ⟨hns, hne⟩ := cookieItem_noSpaceAround kv h
  obtain ⟨hk, hv, hks, hvs, _, _, heq, _, _⟩ := h
  have htrim : stringsTrimSpace (pad ++ cookieItem kv) = cookieItem kv := by
    have := stringsTrimSpace_core pad (cookieItem kv) [] hpad (fun u hu => by simp at hu) hns
    simpa using this
  unfold parseCookiePart
  simp only [htrim, if_neg hne]
  rw [cookieItem_eq, stringsSplitN2_item _ _ _ heq]
  simp only [stringsTrimSpace_self _ hks, stringsTrimSpace_self _ hvs]
  rw [if_neg (by tauto)]

theorem StrMap.set_fresh (m : StrMap) (k v : GoString) (h : k ∉ m.map Prod.fst) :
    m.set k v = (k, v) :: m := by
  unfold StrMap.set
  congr 1
  rw [List.filter_eq_self]
  intro p hp
  simp only [ne_eq, decide_eq_true_eq]
  intro e
  exact h (List.mem_map.mpr ⟨p, hp, e⟩)

theorem foldl_set_fresh : ∀ (pairs m : StrMap), (pairs.map Prod.fst).Nodup →
    (∀ kv ∈ pairs, kv.1 ∉ m.map Prod.fst) →
    pairs.foldl (fun m kv => m.set kv.1 kv.2) m = pairs.reverse ++ m := by
  intro pairs
  induction pairs with
  | nil => intro m _ _; rfl
  | cons p pairs ih =>
    intro m hn hm
    simp only [List.map_cons, List.nodup_cons] at hn
    rw [List.foldl_cons, StrMap.set_fresh m _ _ (hm p (by simp)), ih _ hn.2]
    · simp
    · intro kv hkv
      simp only [List.map_cons, List.mem_cons, not_or]
      refine ⟨?_, hm kv (by simp [hkv])⟩
      intro e
      exact hn.1 (by rw [← e]; exact List.mem_map_of_mem Prod.fst hkv)

theorem foldl_parts (f : GoString × GoString → GoString)
    (hf : ∀ kv, ∃ pad, SpaceOnly pad ∧ f kv = pad ++ cookieItem kv) :
    ∀ (pairs m : StrMap), (∀ kv ∈ pairs, PlainPair kv) →
      (pairs.map f).foldl parseCookiePart m = pairs.foldl (fun m kv => m.set kv.1 kv.2) m := by
  intro pairs
  induction pairs with
  | nil => intro m _; rfl
  | cons p pairs ih =>
    intro m h
    obtain ⟨pad, hpad, hfp⟩ := hf p
    rw [List.map_cons, List.foldl_cons, List.foldl_cons, hfp,
      parseCookiePart_item m pad p hpad (h p (by simp))]
    exact ih _ (fun kv hkv => h kv (by simp [hkv]))

/-! ## Proofs: cookie texts made of plain pairs -/

theorem stringsJoin_noSpaceAround (sep : GoString) (it : GoString) (items : List GoString)
    (h : ∀ x ∈ it :: items, NoSpaceAround x ∧ x ≠ []) :
    NoSpaceAround (stringsJoin sep (it :: items)) ∧ stringsJoin sep (it :: items) ≠ [] := by
  obtain ⟨post, hpost⟩ := stringsJoin_head sep it items
  obtain ⟨hit, hne⟩ := h it (by simp)
  obtain ⟨a, t, hat⟩ := List.exists_cons_of_ne_nil hne
  refine ⟨⟨?_, ?_⟩, by rw [hpost, hat]; simp⟩
  · intro u r hur
    rw [hpost, hat, List.cons_append] at hur
    simp only [List.cons.injEq] at hur
    rw [← hur.1]
    exact hit.1 a t hat
  · intro u r hur
    rcases List.eq_nil_or_concat (it :: items) with h0 | ⟨front, last, hl⟩
    · exact absurd h0 (by simp)
    · rw [List.concat_eq_append] at hl
      obtain ⟨pre, hpre⟩ := stringsJoin_last sep _ front last hl
      obtain ⟨hlast, hlne⟩ := h last (by rw [hl]; simp)
      rcases List.eq_nil_or_concat last with h1 | ⟨lf, b, hb⟩
      · exact absurd h1 hlne
      · rw [List.concat_eq_append] at hb
        rw [hpre, hb, ← List.append_assoc] at hur
        have := List.append_inj' hur rfl
        simp only [List.cons.injEq, and_true] at this
        rw [← this.2]
        exact hlast.2 b lf hb

theorem hasPrefixLower_key (more : GoString) : ∀ (p : List Char) (k : GoString),
    '=' ∉ p → hasPrefixLower p k = false →
      hasPrefixLower p (k ++ GoRune.rune '=' :: more) = false := by
  intro p
  induction p with
  | nil => intro k _ h; cases k <;> simp [hasPrefixLower] at h
  | cons c p ih =>
    intro k hp h
    simp only [List.mem_cons, not_or] at hp
    cases k with
    | nil =>
      rw [List.nil_append, hasPrefixLower]
      have : lowerASCII (GoRune.rune '=') = some '=' := by decide
      rw [this]
      simp only [Bool.and_eq_false_iff, beq_eq_false_iff_ne, ne_eq, Option.some.injEq]
      exact Or.inl hp.1
    | cons u t =>
      rw [List.cons_append, hasPrefixLower]
      rw [hasPrefixLower] at h
      rcases Bool.and_eq_false_iff.mp h with h1 | h1
      · rw [h1]; rfl
      · rw [ih t hp.2 h1]; simp

theorem item_mem (u : GoRune) (kv : GoString × GoString) (h : u ∈ cookieItem kv) :
    u ∈ kv.1 ∨ u = GoRune.rune '=' ∨ u ∈ kv.2 := by
  rw [cookieItem_eq] at h
  simpa using h

/-- The map that `cookieBody` builds from plain pairs joined by "; ". -/
theorem cookieBody_semicolons (kv : GoString × GoString) (rest : StrMap)
    (hplain : ∀ p ∈ kv :: rest, PlainPair p) (hkeys : ((kv :: rest).map Prod.fst).Nodup) :
    cookieBody (stringsJoin (str "; ") ((kv :: rest).map cookieItem)) =
      (kv :: rest).reverse := by
  have hsep : str "; " = GoRune.rune ';' :: [GoRune.rune ' '] := rfl
  have hitems : ∀ x ∈ cookieItem kv :: rest.map cookieItem, GoRune.rune ';' ∉ x ∧
      GoRune.rune '\n' ∉ x ∧ NoSpaceAround x ∧ x ≠ [] := by
    intro x hx
    rw [← List.map_cons] at hx
    obtain ⟨p, hp, rfl⟩ := List.mem_map.mp hx
    have hpp := hplain p hp
    obtain ⟨h1, h2⟩ := cookieItem_noSpaceAround p hpp
    obtain ⟨_, _, _, _, a1, a2, _, a4, a5⟩ := hpp
    refine ⟨?_, ?_, h1, h2⟩
    · intro hm
      rcases item_mem _ p hm with h | h | h
      · exact a1 h
      · exact absurd h (by decide)
      · exact a4 h
    · intro hm
      rcases item_mem _ p hm with h | h | h
      · exact a2 h
      · exact absurd h (by decide)
      · exact a5 h
  have hne := (stringsJoin_noSpaceAround (str "; ") _ _
    (fun x hx => ⟨(hitems x hx).2.2.1, (hitems x hx).2.2.2⟩)).2
  have hnl : GoRune.rune '\n' ∉ stringsJoin (str "; ") (cookieItem kv :: rest.map cookieItem) := by
    intro hm
    rcases mem_stringsJoin _ _ _ hm with h | ⟨x, hx, hux⟩
    · revert h; decide
    · exact (hitems x hx).2.1 hux
  have hsplit := stringsSplit_join (GoRune.rune ';') [GoRune.rune ' '] (by decide)
    (cookieItem kv) (rest.map cookieItem) (fun x hx => (hitems x hx).1)
  rw [← hsep] at hsplit
  have hparts : (if GoRune.rune ';' ∈ stringsJoin (str "; ") (cookieItem kv :: rest.map cookieItem)
      then stringsSplit (.rune ';') (stringsJoin (str "; ") (cookieItem kv :: rest.map cookieItem))
      else if GoRune.rune '\n' ∈ stringsJoin (str "; ") (cookieItem kv :: rest.map cookieItem)
        then stringsSplit (.rune '\n')
          (stringsJoin (str "; ") (cookieItem kv :: rest.map cookieItem))
        else [stringsJoin (str "; ") (cookieItem kv :: rest.map cookieItem)]) =
      stringsSplit (.rune ';') (stringsJoin (str "; ") (cookieItem kv :: rest.map cookieItem)) := by
    by_cases h : GoRune.rune ';' ∈ stringsJoin (str "; ") (cookieItem kv :: rest.map cookieItem)
    · rw [if_pos h]
    · rw [if_neg h, if_neg hnl, stringsSplit_absent _ _ h]
  unfold cookieBody
  simp only [List.map_cons]
  rw [if_neg hne, hparts, hsplit, List.foldl_cons]
  have h0 := parseCookiePart_item [] [] kv (fun u hu => by simp at hu) (hplain kv (by simp))
  rw [List.nil_append] at h0
  rw [h0, List.map_map]
  have hfold := foldl_parts (fun p => [GoRune.rune ' '] ++ cookieItem p)
    (fun p => ⟨[GoRune.rune ' '], by unfold SpaceOnly; decide, rfl⟩) rest
    (StrMap.set [] kv.1 kv.2) (fun p hp => hplain p (by simp [hp]))
  have hcomp : ((fun x => [GoRune.rune ' '] ++ x) ∘ cookieItem) =
      fun p => [GoRune.rune ' '] ++ cookieItem p := rfl
  rw [hcomp, hfold]
  have := foldl_set_fresh (kv :: rest) [] hkeys (fun p _ => by simp)
  rw [List.foldl_cons, List.append_nil] at this
  exact this

/-- The map that `cookieBody` builds from plain pairs joined by newlines. -/
theorem cookieBody_lines (kv : GoString × GoString) (rest : StrMap)
    (hplain : ∀ p ∈ kv :: rest, PlainPair p) (hkeys : ((kv :: rest).map Prod.fst).Nodup) :
    cookieBody (stringsJoin (str "\n") ((kv :: rest).map cookieItem)) =
      (kv :: rest).reverse := by
  have hsep : str "\n" = GoRune.rune '\n' :: [] := rfl
  have hitems : ∀ x ∈ cookieItem kv :: rest.map cookieItem, GoRune.rune ';' ∉ x ∧
      GoRune.rune '\n' ∉ x ∧ NoSpaceAround x ∧ x ≠ [] := by
    intro x hx
    rw [← List.map_cons] at hx
    obtain ⟨p, hp, rfl⟩ := List.mem_map.mp hx
    have hpp := hplain p hp
    obtain ⟨h1, h2⟩ := cookieItem_noSpaceAround p hpp
    obtain ⟨_, _, _, _, a1, a2, _, a4, a5⟩ := hpp
    refine ⟨?_, ?_, h1, h2⟩
    · intro hm
      rcases item_mem _ p hm with h | h | h
      · exact a1 h
      · exact absurd h (by decide)
      · exact a4 h
    · intro hm
      rcases item_mem _ p hm with h | h | h
      · exact a2 h
      · exact absurd h (by decide)
      · exact a5 h
  have hne := (stringsJoin_noSpaceAround (str "\n") _ _
    (fun x hx => ⟨(hitems x hx).2.2.1, (hitems x hx).2.2.2⟩)).2
  have hsc : GoRune.rune ';' ∉ stringsJoin (str "\n") (cookieItem kv :: rest.map cookieItem) := by
    intro hm
    rcases mem_stringsJoin _ _ _ hm with h | ⟨x, hx, hux⟩
    · revert h; decide
    · exact (hitems x hx).1 hux
  have hsplit := stringsSplit_join (GoRune.rune '\n') [] (by simp)
    (cookieItem kv) (rest.map cookieItem) (fun x hx => (hitems x hx).2.1)
  rw [← hsep] at hsplit
  have hparts : (if GoRune.rune ';' ∈ stringsJoin (str "\n") (cookieItem kv :: rest.map cookieItem)
      then stringsSplit (.rune ';') (stringsJoin (str "\n") (cookieItem kv :: rest.map cookieItem))
      else if GoRune.rune '\n' ∈ stringsJoin (str "\n") (cookieItem kv :: rest.map cookieItem)
        then stringsSplit (.rune '\n')
          (stringsJoin (str "\n") (cookieItem kv :: rest.map cookieItem))
        else [stringsJoin (str "\n") (cookieItem kv :: rest.map cookieItem)]) =
      stringsSplit (.rune '\n') (stringsJoin (str "\n") (cookieItem kv :: rest.map cookieItem)) := by
    rw [if_neg hsc]
    by_cases h : GoRune.rune '\n' ∈ stringsJoin (str "\n") (cookieItem kv :: rest.map cookieItem)
    · rw [if_pos h]
    · rw [if_neg h, stringsSplit_absent _ _ h]
  unfold cookieBody
  simp only [List.map_cons]
  rw [if_neg hne, hparts, hsplit]
  have hmap : (List.map (fun x => ([] : GoString) ++ x) (List.map cookieItem rest)) =
      List.map (fun p => [] ++ cookieItem p) rest := by
    rw [List.map_map]; rfl
  rw [hmap, ← List.nil_append (cookieItem kv)]
  have hfold := foldl_parts (fun p => [] ++ cookieItem p)
    (fun p => ⟨[], fun u hu => by simp at hu, rfl⟩) (kv :: rest) []
    hplain
  rw [List.map_cons] at hfold
  rw [hfold]
  have := foldl_set_fresh (kv :: rest) [] hkeys (fun p _ => by simp)
  rw [List.append_nil] at this
  exact this

/-- A cookie text of plain pairs is taken by `ParseCookieString` as it is. -/
theorem ParseCookieString_joined (sep : GoString) (kv : GoString × GoString) (rest : StrMap)
    (hplain : ∀ p ∈ kv :: rest, PlainPair p)
    (hbom : bom.isPrefixOf kv.1 = false)
    (hck : hasPrefixLower "cookie:".toList kv.1 = false) :
    ParseCookieString (stringsJoin sep ((kv :: rest).map cookieItem)) =
      cookieBody (stringsJoin sep ((kv :: rest).map cookieItem)) := by
  have hns := stringsJoin_noSpaceAround sep (cookieItem kv) (rest.map cookieItem) (by
    intro x hx
    rw [← List.map_cons] at hx
    obtain ⟨p, hp, rfl⟩ := List.mem_map.mp hx
    exact cookieItem_noSpaceAround p (hplain p hp))
  rw [List.map_cons]
  have htrim := stringsTrimSpace_self _ hns.1
  obtain ⟨post, hpost⟩ := stringsJoin_head sep (cookieItem kv) (rest.map cookieItem)
  obtain ⟨hk, _⟩ := hplain kv (by simp)
  obtain ⟨a, kt, hka⟩ := List.exists_cons_of_ne_nil hk
  have hshape : stringsJoin sep (cookieItem kv :: rest.map cookieItem) =
      kv.1 ++ GoRune.rune '=' :: (kv.2 ++ post) := by
    rw [hpost, cookieItem_eq]; simp
  rw [ParseCookieString_plain]
  · rw [htrim]
  · rw [htrim, hshape, hka]
    rw [hka] at hbom
    simpa [bom, List.isPrefixOf] using hbom
  · rw [htrim, hshape]
    exact hasPrefixLower_key _ _ _ (by decide) hck

theorem ParseCookieString_spaceOnly (w : GoString) (hw : SpaceOnly w) :
    ParseCookieString w = [] := by
  unfold ParseCookieString
  simp only [stringsTrimSpace_spaceOnly w hw]
  rfl

theorem StrMap.get_reverse (m : StrMap) (h : (m.map Prod.fst).Nodup) (k : GoString) :
    StrMap.get m.reverse k = StrMap.get m k := by
  have hr : (m.reverse.map Prod.fst).Nodup := by
    rw [List.map_reverse]
    exact List.nodup_reverse.mpr h
  cases hg : StrMap.get m k with
  | none =>
    cases hg' : StrMap.get m.reverse k with
    | none => rfl
    | some v =>
      have := (StrMap.mem_iff_get k v _ hr).mpr hg'
      rw [List.mem_reverse] at this
      rw [(StrMap.mem_iff_get k v _ h).mp this] at hg
      exact absurd hg (by simp)
  | some v =>
    have := (StrMap.mem_iff_get k v _ h).mpr hg
    exact (StrMap.mem_iff_get k v _ hr).mp (List.mem_reverse.mpr this)

/-- C13: for every list of pairs with distinct keys, keys and values non-empty, without
white space around and without ';' and newline, keys without '=', the first key
beginning neither with a byte-order mark nor, as Go lower-cases it, with "cookie:",
ParseCookieString of the pairs written k=v and joined by "; ", or by newlines, yields
exactly the mapping of these pairs; of a string of white space only, and of the empty
string, it yields the empty mapping. -/
theorem ParseCookieString_pairs (pairs : StrMap)
    (hplain : ∀ p ∈ pairs, PlainPair p) (hkeys : (pairs.map Prod.fst).Nodup)
    (hfirst : ∀ kv rest, pairs = kv :: rest →
      bom.isPrefixOf kv.1 = false ∧ hasPrefixLower "cookie:".toList kv.1 = false) :
    (∀ k v, (k, v) ∈ ParseCookieString (stringsJoin (str "; ") (pairs.map cookieItem)) ↔
      (k, v) ∈ pairs) ∧
    (∀ k, (ParseCookieString (stringsJoin (str "; ") (pairs.map cookieItem))).get k =
      StrMap.get pairs k) ∧
    (∀ k v, (k, v) ∈ ParseCookieString (stringsJoin (str "\n") (pairs.map cookieItem)) ↔
      (k, v) ∈ pairs) ∧
    (∀ k, (ParseCookieString (stringsJoin (str "\n") (pairs.map cookieItem))).get k =
      StrMap.get pairs k) ∧
    (∀ w, SpaceOnly w → ParseCookieString w = []) ∧
    ParseCookieString [] = [] := by
  have hboth : ParseCookieString (stringsJoin (str "; ") (pairs.map cookieItem)) =
        pairs.reverse ∧
      ParseCookieString (stringsJoin (str "\n") (pairs.map cookieItem)) = pairs.reverse := by
    cases pairs with
    | nil => exact ⟨rfl, rfl⟩
    | cons kv rest =>
      obtain ⟨hb, hc⟩ := hfirst kv rest rfl
      exact ⟨by rw [ParseCookieString_joined _ kv rest hplain hb hc,
                  cookieBody_semicolons kv rest hplain hkeys],
             by rw [ParseCookieString_joined _ kv rest hplain hb hc,
                  cookieBody_lines kv rest hplain hkeys]⟩
  rw [hboth.1, hboth.2]
  refine ⟨fun k v => List.mem_reverse, fun k => StrMap.get_reverse pairs hkeys k,
    fun k v => List.mem_reverse, fun k => StrMap.get_reverse pairs hkeys k,
    ParseCookieString_spaceOnly, rfl⟩

theorem ParseCookieString_pairs_witness :
    stringsJoin (str "; ") ([(str "a", str "1"), (str "b", str "2")].map cookieItem) =
      str "a=1; b=2" ∧
    (∀ k, (ParseCookieString
        (stringsJoin (str "; ") ([(str "a", str "1"), (str "b", str "2")].map cookieItem))).get k =
      StrMap.get [(str "a", str "1"), (str "b", str "2")] k) ∧
    ParseCookieString (str " \n ") = [] :=
  have hp : ∀ p ∈ [(str "a", str "1"), (str "b", str "2")], PlainPair p := by
    intro p hp
    have key : ∀ u : GoRune, NoSpaceAround [u] ↔ u.isSpace = false := by
      intro u
      constructor
      · intro h; exact h.1 u [] rfl
      · intro h
        constructor
        · intro x t e
          simp only [List.cons.injEq] at e
          rw [← e.1]; exact h
        · intro x t e
          have := List.append_inj' (show [] ++ [u] = t ++ [x] from e) rfl
          simp only [List.cons.injEq, and_true] at this
          rw [← this.2]; exact h
    simp only [List.mem_cons, List.mem_singleton, List.not_mem_nil, or_false] at hp
    rcases hp with rfl | rfl
    · exact ⟨by decide, by decide, (key _).mpr (by decide), (key _).mpr (by decide),
        by decide, by decide, by decide, by decide, by decide⟩
    · exact ⟨by decide, by decide, (key _).mpr (by decide), (key _).mpr (by decide),
        by decide, by decide, by decide, by decide, by decide⟩
  have h := ParseCookieString_pairs [(str "a", str "1"), (str "b", str "2")] hp (by decide)
    (fun kv rest e => by
      simp only [List.cons.injEq] at e
      rw [← e.1]
      exact ⟨by decide, by decide⟩)
  ⟨by decide, h.2.1, h.2.2.2.2.1 (str " \n ") (by unfold SpaceOnly; decide)⟩

/-! ## Proofs: the batches of GetPlaylistDetail -/

/-- The batch that the loop cuts at offset `i`: the next hundred IDs, or what is left. -/
theorem batch_eq (trackIDs : List Int) (i : Nat) :
    (trackIDs.take (if i + 100 > trackIDs.length then trackIDs.length else i + 100)).drop i =
      (trackIDs.drop i).take 100 := by
  rw [List.drop_take]
  split_ifs with h
  · rw [List.take_of_length_le (by rw [List.length_drop]),
      List.take_of_length_le (by rw [List.length_drop]; omega)]
  · rw [Nat.add_sub_cancel_left]

theorem playlistLoop_spec (post : List SongDetailPayload → Except Error SongDetailResponse)
    (trackIDs : List Int) : ∀ (fuel i : Nat) (tracks : List TrackInfo) (issued : List (List Int)),
    (trackIDs.length - i + 99) / 100 ≤ fuel →
    ∃ res more, playlistLoop post trackIDs fuel i tracks issued = some (res, issued ++ more) ∧
      BatchesBounded more ∧ more.flatten <+: trackIDs.drop i ∧
      more.length ≤ (trackIDs.length - i + 99) / 100 ∧
      (∀ tr, res = .ok tr → more.flatten = trackIDs.drop i ∧
        more.length = (trackIDs.length - i + 99) / 100 ∧ tr = tracks ++ tracksOf post more ∧
        ∀ b ∈ more, ∃ songs, getSongDetailBatch post b = .ok songs) ∧
      (∀ e, res = .error e → ∃ front b, more = front ++ [b] ∧
        getSongDetailBatch post b = .error e ∧
        ∀ b' ∈ front, ∃ songs, getSongDetailBatch post b' = .ok songs) := by
  intro fuel
  induction fuel with
  | zero =>
    intro i tracks issued hf
    have hi : ¬ i < trackIDs.length := by omega
    refine ⟨.ok tracks, [], ?_, ?_, ?_, ?_, ?_, ?_⟩
    · rw [playlistLoop, if_neg hi, List.append_nil]
    · intro b hb; simp at hb
    · exact List.nil_prefix
    · simp
    · intro tr htr
      refine ⟨?_, ?_, ?_, ?_⟩
      · rw [List.drop_eq_nil_of_le (by omega)]; rfl
      · simp only [List.length_nil]; omega
      · injection htr with htr
        rw [← htr]; simp [tracksOf]
      · intro b hb; simp at hb
    · intro e he; cases he
  | succ fuel ih =>
    intro i tracks issued hf
    by_cases hi : i < trackIDs.length
    · have hsplit : trackIDs.drop i = (trackIDs.drop i).take 100 ++ trackIDs.drop (i + 100) := by
        rw [← List.drop_drop, List.take_append_drop]
      have hbne : (trackIDs.drop i).take 100 ≠ [] := by
        intro h
        have := congrArg List.length h
        rw [List.length_take, List.length_drop] at this
        simp only [List.length_nil] at this
        omega
      have hble : ((trackIDs.drop i).take 100).length ≤ 100 := by
        rw [List.length_take]; omega
      rw [playlistLoop, if_pos hi]
      simp only [batch_eq]
      cases hl : getSongDetailBatch post ((trackIDs.drop i).take 100) with
      | error err =>
        refine ⟨.error err, [(trackIDs.drop i).take 100], rfl, ?_, ?_, ?_, ?_, ?_⟩
        · intro b hb
          simp only [List.mem_singleton] at hb
          rw [hb]; exact ⟨hbne, hble⟩
        · rw [List.flatten_singleton]; exact List.take_prefix _ _
        · simp only [List.length_singleton]; omega
        · intro tr htr; cases htr
        · intro e he
          injection he with he
          refine ⟨[], _, rfl, by rw [← he]; exact hl, ?_⟩
          intro b' hb'; simp at hb'
      | ok songs =>
        obtain ⟨res, more, hrun, hbd, hpre, hlen, hok, herr⟩ :=
          ih (i + 100) (tracks ++ songs.map trackInfoFromSong)
            (issued ++ [(trackIDs.drop i).take 100]) (by omega)
        refine ⟨res, (trackIDs.drop i).take 100 :: more, ?_, ?_, ?_, ?_, ?_, ?_⟩
        · simp only []
          rw [hrun, List.append_assoc, List.singleton_append]
        · intro b hb
          rcases List.mem_cons.mp hb with h | h
          · rw [h]; exact ⟨hbne, hble⟩
          · exact hbd b h
        · rw [List.flatten_cons]
          nth_rewrite 2 [hsplit]
          exact (List.prefix_append_right_inj _).mpr hpre
        · simp only [List.length_cons]; omega
        · intro tr htr
          obtain ⟨h1, h2, h3, h4⟩ := hok tr htr
          refine ⟨?_, ?_, ?_, ?_⟩
          · rw [List.flatten_cons, h1]; exact hsplit.symm
          · simp only [List.length_cons]; omega
          · rw [h3, List.append_assoc]
            congr 1
            simp only [tracksOf, List.flatMap_cons, hl]
          · intro b hb
            rcases List.mem_cons.mp hb with h | h
            · rw [h]; exact ⟨songs, hl⟩
            · exact h4 b h
        · intro e he
          obtain ⟨front, b, h1, h2, h3⟩ := herr e he
          refine ⟨(trackIDs.drop i).take 100 :: front, b, by rw [h1]; rfl, h2, ?_⟩
          intro b' hb'
          rcases List.mem_cons.mp hb' with h | h
          · rw [h]; exact ⟨songs, hl⟩
          · exact h3 b' h
    · refine ⟨.ok tracks, [], ?_, ?_, ?_, ?_, ?_, ?_⟩
      · rw [playlistLoop, if_neg hi, List.append_nil]
      · intro b hb; simp at hb
      · exact List.nil_prefix
      · simp
      · intro tr htr
        refine ⟨?_, ?_, ?_, ?_⟩
        · rw [List.drop_eq_nil_of_le (by omega)]; rfl
        · simp only [List.length_nil]; omega
        · injection htr with htr
          rw [← htr]; simp [tracksOf]
        · intro b hb; simp at hb
      · intro e he; cases he

/-- C21, amended: for every playlist answer with code 200 and every provider,
`GetPlaylistDetail` ends its batching loop; each batch it hands to the song-detail lookup
is non-empty and holds at most 100 IDs, and the batches concatenated in issue order are a
prefix of the playlist's ID list. When it returns without error it has issued exactly
ceil(n/100) lookups, their concatenation is the ID list, and the track list is made of
their answers in order; that is the case when no issued lookup fails. When it returns an
error, the last lookup issued is the one that failed with it, and the loop stopped
there. For n = 0 no lookup is issued and the track list is empty. -/
theorem GetPlaylistDetail_batches (fetch : Int → Except Error PlaylistDetailResponse)
    (post : List SongDetailPayload → Except Error SongDetailResponse) (playlistID : Int)
    (resp : PlaylistDetailResponse) (hf : fetch playlistID = .ok resp) (hc : resp.Code = 200) :
    ∃ out, GetPlaylistDetail fetch post playlistID = some out ∧
      BatchesBounded out.lookups ∧
      out.lookups.flatten <+: resp.Playlist.TrackIds.map (fun item => item.ID) ∧
      out.lookups.length ≤ (resp.Playlist.TrackIds.length + 99) / 100 ∧
      (out.err = none →
        out.lookups.length = (resp.Playlist.TrackIds.length + 99) / 100 ∧
        out.lookups.flatten = resp.Playlist.TrackIds.map (fun item => item.ID) ∧
        ∃ info, out.info = some info ∧ info.Tracks = tracksOf post out.lookups) ∧
      ((∀ b ∈ out.lookups, ∃ songs, getSongDetailBatch post b = .ok songs) → out.err = none) ∧
      (∀ e, out.err = some e → out.info = none ∧ ∃ front b, out.lookups = front ++ [b] ∧
        getSongDetailBatch post b = .error e ∧
        ∀ b' ∈ front, ∃ songs, getSongDetailBatch post b' = .ok songs) ∧
      (resp.Playlist.TrackIds = [] → out.lookups = [] ∧ out.err = none ∧
        ∃ info, out.info = some info ∧ info.Tracks = []) := by
  have hc' : ¬ resp.Code ≠ 200 := by simp [hc]
  unfold GetPlaylistDetail
  rw [hf]
  simp only [if_neg hc']
  by_cases h0 : (resp.Playlist.TrackIds.map fun item => item.ID).length = 0
  · rw [if_pos h0]
    have hnil : resp.Playlist.TrackIds = [] := by
      rw [List.length_map] at h0
      exact List.length_eq_zero.mp h0
    refine ⟨_, rfl, ?_, ?_, ?_, ?_, ?_, ?_, ?_⟩
    · intro b hb; simp at hb
    · exact List.nil_prefix
    · simp
    · intro _
      refine ⟨by rw [hnil]; rfl, by rw [hnil]; rfl, _, rfl, rfl⟩
    · intro _; rfl
    · intro e he; cases he
    · intro _; exact ⟨rfl, rfl, _, rfl, rfl⟩
  · rw [if_neg h0]
    obtain ⟨res, more, hrun, hbd, hpre, hlen, hok, herr⟩ :=
      playlistLoop_spec post (resp.Playlist.TrackIds.map fun item => item.ID)
        (resp.Playlist.TrackIds.map fun item => item.ID).length 0 [] [] (by omega)
    rw [hrun]
    simp only [List.nil_append, List.drop_zero, Nat.sub_zero, List.length_map] at hpre hlen hok herr ⊢
    have hne : resp.Playlist.TrackIds ≠ [] := by
      intro h; apply h0; rw [h]; rfl
    cases res with
    | error err =>
      refine ⟨_, rfl, hbd, hpre, hlen, ?_, ?_, ?_, ?_⟩
      · intro h; cases h
      · intro hall
        obtain ⟨front, b, h1, h2, _⟩ := herr err rfl
        obtain ⟨songs, hs⟩ := hall b (by simp only [h1]; simp)
        rw [h2] at hs; cases hs
      · intro e he
        injection he with he
        rw [← he]
        exact ⟨rfl, herr err rfl⟩
      · intro h; exact absurd h hne
    | ok tracks =>
      obtain ⟨h1, h2, h3, h4⟩ := hok tracks rfl
      refine ⟨_, rfl, hbd, hpre, hlen, ?_, ?_, ?_, ?_⟩
      · intro _
        exact ⟨h2, h1, _, rfl, by simpa using h3⟩
      · intro _; rfl
      · intro e he; cases he
      · intro h; exact absurd h hne

theorem GetPlaylistDetail_batches_witness :
    ∃ out, GetPlaylistDetail (samplePlaylist (List.replicate 101 5)) samplePost 7 = some out ∧
      out.err = none ∧ out.lookups.length = 2 ∧
      out.lookups.flatten = List.replicate 101 5 :=
  (GetPlaylistDetail_batches (samplePlaylist (List.replicate 101 5)) samplePost 7 _ rfl rfl).elim
    fun out h =>
      have he : out.err = none := h.2.2.2.2.2.1 (fun _ _ => ⟨_, rfl⟩)
      ⟨out, h.1, he, (h.2.2.2.2.1 he).1.trans rfl,
        (h.2.2.2.2.1 he).2.1.trans rfl⟩

/-- C21 as stated fails when a lookup fails: of a playlist of 101 IDs, whose
ceil(101/100) is 2, one batch is issued when the provider refuses it, and the batches
issued do not make up the ID list. -/
theorem GetPlaylistDetail_batches_counterexample :
    GetPlaylistDetail (samplePlaylist (List.replicate 101 5)) (fun _ => .error (.external 1)) 7 =
      some ⟨none, some (.external 1), [List.replicate 100 5]⟩ ∧
    ([List.replicate 100 (5 : Int)]).length ≠ (101 + 99) / 100 ∧
    ([List.replicate 100 (5 : Int)]).flatten ≠ List.replicate 101 5 := by
  refine ⟨by decide, by decide, by decide⟩

/-! ## Proofs: GetPicURL -/

/-- The state of the XOR loop after its first `k` rounds, entry by entry. -/
theorem xorLoop_get (d : Bytes) : ∀ (k i : Nat),
    ((List.range k).foldl
      (fun s j => s.set j (s.getD j 0 ^^^ magic.getD (j % magic.length) 0)) d)[i]? =
      if i < k then (d[i]?).map (fun x => x ^^^ magic.getD (i % 18) 0) else d[i]? := by
  intro k
  induction k with
  | zero => intro i; simp
  | succ k ih =>
    intro i
    rw [List.range_succ, List.foldl_append, List.foldl_cons, List.foldl_nil, List.getElem?_set]
    by_cases hki : k = i
    · subst hki
      rw [if_pos rfl, if_pos (Nat.lt_succ_self k)]
      have hlen : ∀ m, ((List.range m).foldl
          (fun s j => s.set j (s.getD j 0 ^^^ magic.getD (j % magic.length) 0)) d).length =
          d.length := by
        intro m
        induction m with
        | zero => rfl
        | succ m ihm =>
          rw [List.range_succ, List.foldl_append, List.foldl_cons, List.foldl_nil,
            List.length_set, ihm]
      rw [hlen]
      by_cases hk : k < d.length
      · rw [if_pos hk, List.getD_eq_getElem?_getD, ih k, if_neg (Nat.lt_irrefl k),
          List.getElem?_eq_getElem hk]
        rfl
      · rw [if_neg hk, List.getElem?_eq_none (by omega)]
        rfl
    · rw [if_neg hki, ih i]
      by_cases h1 : i < k
      · rw [if_pos h1, if_pos (by omega)]
      · rw [if_neg h1, if_neg (by omega)]

/-- The XOR loop of `GetPicURL` XORs the text byte by byte against the repeating key. -/
theorem xorMagic_eq (d : Bytes) : xorMagic d = xorBytes d (repeatingKey d.length) := by
  apply List.ext_getElem?
  intro i
  unfold xorMagic xorBytes repeatingKey
  rw [xorLoop_get, List.getElem?_zipWith, List.getElem?_map]
  by_cases hi : i < d.length
  · rw [if_pos hi, List.getElem?_eq_getElem hi, List.getElem?_range hi]
    rfl
  · rw [if_neg hi, List.getElem?_eq_none (by omega)]

/-- A replaced rune is gone, when its replacement is another rune. -/
theorem stringsReplaceAll_gone (s : GoString) (old new : Char) (h : old ≠ new) :
    GoRune.rune old ∉ stringsReplaceAll s old new := by
  unfold stringsReplaceAll
  intro hm
  obtain ⟨u, _, hu⟩ := List.mem_map.mp hm
  by_cases he : u = GoRune.rune old
  · rw [if_pos he] at hu
    injection hu with hu
    exact h hu.symm
  · rw [if_neg he] at hu
    exact he hu

/-- A replacement puts no rune into a string but the new one. -/
theorem stringsReplaceAll_keeps (s : GoString) (old new : Char) (v : GoRune)
    (hv : v ≠ GoRune.rune new) (h : v ∉ s) : v ∉ stringsReplaceAll s old new := by
  unfold stringsReplaceAll
  intro hm
  obtain ⟨u, hus, hu⟩ := List.mem_map.mp hm
  by_cases he : u = GoRune.rune old
  · rw [if_pos he] at hu
    exact hv hu.symm
  · rw [if_neg he] at hu
    rw [hu] at hus
    exact h hus

theorem stringsReplaceAll_length (s : GoString) (old new : Char) :
    (stringsReplaceAll s old new).length = s.length := by
  unfold stringsReplaceAll
  rw [List.length_map]

/-- The base64 text of sixteen bytes: twenty-two symbols and the padding `==`. -/
theorem base64_sixteen (b : Bytes16) :
    ∃ body : GoString, base64StdEncode b.val = body ++ str "==" ∧ body.length = 22 := by
  obtain ⟨l, hl⟩ := b
  match l, hl with
  | [b0, b1, b2, b3, b4, b5, b6, b7, b8, b9, b10, b11, b12, b13, b14, b15], _ =>
    exact ⟨(base64StdEncode
      [b0, b1, b2, b3, b4, b5, b6, b7, b8, b9, b10, b11, b12, b13, b14, b15]).take 22,
      by simp only [base64StdEncode]; rfl, by simp only [base64StdEncode]; rfl⟩

/-- The replacements of `GetPicURL` leave the padding where it is. -/
theorem stringsReplaceAll_append (s t : GoString) (old new : Char) :
    stringsReplaceAll (s ++ t) old new =
      stringsReplaceAll s old new ++ stringsReplaceAll t old new := by
  unfold stringsReplaceAll
  rw [List.map_append]

/-- C22: for every picture ID p other than 0 and every size s above 0, `GetPicURL` is the
CDN template "https://p3.music.126.net/" E "/" dec(p) ".jpg?param=" dec(s) "y" dec(s), in
which E is the padded standard base64 text of the MD5 hash of dec(p) XORed byte by byte
against the repeating key, with '/' replaced by '_' and '+' by '-'; E has 24 runes, ends
with the padding "==", and holds no '/' and no '+'. For the picture ID 0 the result is
the empty string. -/
theorem GetPicURL_spec (md5Sum : Bytes → Bytes16) (p s : Int) :
    (p ≠ 0 → 0 < s →
      ∃ E : GoString,
        E = stringsReplaceAll (stringsReplaceAll
              (base64StdEncode (md5Sum (xorBytes (goBytes (FormatInt p))
                (repeatingKey (goBytes (FormatInt p)).length))).val) '/' '_') '+' '-' ∧
        GetPicURL md5Sum p s =
          str "https://p3.music.126.net/" ++ E ++ str "/" ++ FormatInt p ++
            str ".jpg?param=" ++ FormatInt s ++ str "y" ++ FormatInt s ∧
        E.length = 24 ∧ E.drop 22 = str "==" ∧
        GoRune.rune '/' ∉ E ∧ GoRune.rune '+' ∉ E) ∧
    GetPicURL md5Sum 0 s = [] := by
  refine ⟨?_, by unfold GetPicURL; rw [if_pos rfl]⟩
  intro hp hs
  refine ⟨_, rfl, ?_, ?_, ?_, ?_, ?_⟩
  · unfold GetPicURL
    rw [if_neg hp]
    simp only [if_neg (not_le.mpr hs), xorMagic_eq, MD5Bytes, Base64Encode, Itoa, FormatInt]
  · rw [stringsReplaceAll_length, stringsReplaceAll_length]
    obtain ⟨body, hb, hl⟩ := base64_sixteen (md5Sum (xorBytes (goBytes (FormatInt p))
      (repeatingKey (goBytes (FormatInt p)).length)))
    rw [hb, List.length_append, hl]
    rfl
  · obtain ⟨body, hb, hl⟩ := base64_sixteen (md5Sum (xorBytes (goBytes (FormatInt p))
      (repeatingKey (goBytes (FormatInt p)).length)))
    rw [hb, stringsReplaceAll_append, stringsReplaceAll_append]
    have hl2 : (stringsReplaceAll (stringsReplaceAll body '/' '_') '+' '-').length = 22 := by
      rw [stringsReplaceAll_length, stringsReplaceAll_length, hl]
    rw [List.drop_append_of_le_length (by rw [hl2]), List.drop_of_length_le (by rw [hl2]),
      List.nil_append]
    decide
  · exact stringsReplaceAll_keeps _ _ _ _ (by decide) (stringsReplaceAll_gone _ _ _ (by decide))
  · exact stringsReplaceAll_gone _ _ _ (by decide)

theorem GetPicURL_spec_witness :
    (109951163 : Int) ≠ 0 ∧ (0 : Int) < 300 ∧
    GetPicURL sampleMd5 109951163 300 =
      str "https://p3.music.126.net/-_v7-_v7-_v7-_v7-_v7-w==/109951163.jpg?param=300y300" ∧
    GetPicURL sampleMd5 0 300 = [] :=
  have h := GetPicURL_spec sampleMd5 109951163 300
  ⟨by decide, by decide,
    (h.1 (by decide) (by decide)).elim fun _ hE => hE.2.1.trans (by rw [hE.1]; decide), h.2⟩

/-! ## Proofs: the short-link step of extractID -/

/-- Dropping leading white space keeps an occurrence of a text that begins with no white
space. -/
theorem infix_dropWhile_space (a : Char) (m : Text) (ha : isSpace a = false) :
    ∀ s : Text, a :: m <:+: s → a :: m <:+: s.dropWhile isSpace := by
  intro s
  induction s with
  | nil => intro h; exact h
  | cons c t ih =>
    intro h
    by_cases hc : isSpace c = true
    · rw [List.dropWhile_cons, if_pos hc]
      rcases List.infix_cons_iff.mp h with hp | hi
      · obtain ⟨r, hr⟩ := hp
        simp only [List.cons_append, List.cons.injEq] at hr
        rw [hr.1, hc] at ha
        exact absurd ha (by simp)
      · exact ih hi
    · rw [List.dropWhile_cons, if_neg hc]
      exact h

/-- Trimming keeps an occurrence of a text that begins and ends with no white space. -/
theorem infix_trimSpace (m s : Text) (hne : m ≠ [])
    (hfirst : ∀ a r, m = a :: r → isSpace a = false)
    (hlast : ∀ a r, m.reverse = a :: r → isSpace a = false) (h : m <:+: s) :
    m <:+: trimSpace s := by
  unfold trimSpace
  obtain ⟨a, r, hm⟩ := List.exists_cons_of_ne_nil hne
  have h1 : m <:+: s.dropWhile isSpace := by
    rw [hm] at h ⊢
    exact infix_dropWhile_space a r (hfirst a r hm) s h
  have hrne : m.reverse ≠ [] := by
    intro e
    exact hne (List.reverse_eq_nil_iff.mp e)
  obtain ⟨b, q, hq⟩ := List.exists_cons_of_ne_nil hrne
  have h2 : m.reverse <:+: (s.dropWhile isSpace).reverse.dropWhile isSpace := by
    rw [hq]
    refine infix_dropWhile_space b q (hlast b q hq) _ ?_
    rw [← hq]
    exact List.reverse_infix.mpr h1
  have h3 := List.reverse_infix.mpr h2
  rw [List.reverse_reverse] at h3
  exact h3

/-- A text with the short-link marker keeps it when trimmed, and is not purely digits. -/
theorem marker_trimmed (input : Text) (h : HasMarker input) :
    HasMarker (trimSpace input) ∧ trimSpace input ≠ [] ∧
      digitsOnlyRegex (trimSpace input) = false := by
  have hm : HasMarker (trimSpace input) := by
    refine infix_trimSpace shortLinkMarker input (by decide) ?_ ?_ h
    · intro a r e
      have : a = '1' := by
        have := congrArg List.head? e
        simpa [shortLinkMarker] using this.symm
      rw [this]; decide
    · intro a r e
      have : a = 'v' := by
        have := congrArg List.head? e
        simpa [shortLinkMarker] using this.symm
      rw [this]; decide
  have hc : 'c' ∈ trimSpace input := by
    obtain ⟨p, q, hpq⟩ := hm
    rw [← hpq]
    simp [shortLinkMarker]
  refine ⟨hm, ?_, not_digitsOnly_of_mem _ 'c' hc (by decide)⟩
  intro e
  rw [e] at hc
  simp at hc

/-- Past the digits-only test, `extractID` is the later strategies on the text that the
short-link step leaves. -/
theorem extractID_later (resolve : Text → Text × Option Error) (input : Text)
    (hne : trimSpace input ≠ []) (hnd : digitsOnlyRegex (trimSpace input) = false) :
    extractID resolve input =
      laterStrategies
        (if containsText shortLinkMarker (trimSpace input) then
          match resolve (trimSpace input) with
          | (resolved, none) => if resolved ≠ [] then resolved else trimSpace input
          | (_, some _) => trimSpace input
        else trimSpace input) := by
  unfold extractID laterStrategies
  simp only [if_neg hne, hnd, Bool.false_eq_true, if_false]

/-- C23: with the short-link resolution as a given outcome, for every input that contains
the marker "163cn.tv" (such an input is not purely digits): when the resolution of the
trimmed text fails or yields the empty string, `extractID` returns what the later
strategies (id= token, keyword pattern, run of five or more digits, else failure) give
on the trimmed text; when it yields a non-empty target, `extractID` returns what those
strategies give on the target. On a purely-digit input the result is that of
`strconv.ParseInt` whatever the resolution would answer: it is not asked. -/
theorem extractID_shortLink (resolve : Text → Text × Option Error) (input : Text) :
    (HasMarker input →
      digitsOnlyRegex (trimSpace input) = false ∧
      ((resolve (trimSpace input)).2 ≠ none ∨ (resolve (trimSpace input)).1 = [] →
        extractID resolve input = laterStrategies (trimSpace input)) ∧
      ((resolve (trimSpace input)).2 = none → (resolve (trimSpace input)).1 ≠ [] →
        extractID resolve input = laterStrategies (resolve (trimSpace input)).1)) ∧
    (digitsOnlyRegex (trimSpace input) = true →
      extractID resolve input = ParseInt (trimSpace input) ∧
      ∀ other : Text → Text × Option Error, extractID other input = extractID resolve input) := by
  constructor
  · intro h
    obtain ⟨hm, hne, hnd⟩ := marker_trimmed input h
    have hc : containsText shortLinkMarker (trimSpace input) = true :=
      (containsText_iff _ _).mpr hm
    rw [extractID_later resolve input hne hnd, if_pos hc]
    refine ⟨hnd, ?_, ?_⟩
    · intro hfail
      rcases hr : resolve (trimSpace input) with ⟨r, e⟩
      rw [hr] at hfail
      cases e with
      | some err => rfl
      | none =>
        rcases hfail with hf | hf
        · exact absurd rfl hf
        · simp only at hf
          simp only [hf, ne_eq, not_true_eq_false, if_false]
    · intro hok hr1
      rcases hr : resolve (trimSpace input) with ⟨r, e⟩
      rw [hr] at hok hr1
      simp only at hok hr1
      subst hok
      simp only [ne_eq, hr1, not_false_eq_true, if_true]
  · intro hd
    have key : ∀ f : Text → Text × Option Error, extractID f input = ParseInt (trimSpace input) := by
      intro f
      have hne : trimSpace input ≠ [] := by
        intro e
        rw [e] at hd
        exact absurd hd (by decide)
      unfold extractID
      simp only [if_neg hne, hd, if_true]
    exact ⟨key resolve, fun other => (key other).trans (key resolve).symm⟩

theorem extractID_shortLink_witness :
    HasMarker "http://163cn.tv/abc".toList ∧
    extractID (fun _ => ("https://music.example/song?id=99".toList, none))
      "http://163cn.tv/abc".toList = (99, none) ∧
    extractID (fun _ => ([], some (.external 1))) " http://163cn.tv/a12345 ".toList =
      (12345, none) ∧
    extractID (fun _ => ("id=7".toList, none)) "12345".toList = (12345, none) :=
  have hm : HasMarker "http://163cn.tv/abc".toList := (containsText_iff _ _).mp (by decide)
  have hm2 : HasMarker " http://163cn.tv/a12345 ".toList := (containsText_iff _ _).mp (by decide)
  ⟨hm,
    ((extractID_shortLink (fun _ => ("https://music.example/song?id=99".toList, none))
      "http://163cn.tv/abc".toList).1 hm).2.2 rfl (by decide) |>.trans (by decide),
    ((extractID_shortLink (fun _ => ([], some (.external 1)))
      " http://163cn.tv/a12345 ".toList).1 hm2).2.1 (Or.inl (by decide)) |>.trans (by decide),
    ((extractID_shortLink (fun _ => ("id=7".toList, none)) "12345".toList).2 (by decide)).1.trans
      (by decide)⟩

/-! ## Proofs: the range of the IDs that extractID returns -/

theorem digitRun_digits (s g : Text) (h : digitRun s = some g) : g ≠ [] ∧ AllDigits g := by
  obtain ⟨c, rest, hs, hc, hg⟩ := digitRun_some s g h
  rw [hg]
  refine ⟨?_, takeWhile_allDigits s⟩
  rw [hs, List.takeWhile_cons, if_pos hc]
  simp

theorem bind_afterKeyword_digits (w t g : Text)
    (h : (litFold w t).bind afterKeyword = some g) : g ≠ [] ∧ AllDigits g := by
  obtain ⟨r, _, hr⟩ := Option.bind_eq_some.mp h
  exact digitRun_digits _ g hr

/-- What the three searches capture is a non-empty run of digits. -/
theorem captures_digits (t g : Text) :
    (idRegexFind t = some g → g ≠ [] ∧ AllDigits g) ∧
    (songIDPatternFind t = some g → g ≠ [] ∧ AllDigits g) ∧
    (numberRegexFind t = some g → g ≠ [] ∧ AllDigits g) := by
  refine ⟨?_, ?_, ?_⟩
  · intro h
    obtain ⟨k, hk⟩ := findFirst_some _ t g h
    unfold idRegexAt at hk
    obtain ⟨r, _, hr⟩ := Option.bind_eq_some.mp hk
    exact digitRun_digits r g hr
  · intro h
    obtain ⟨k, hk⟩ := findFirst_some _ t g h
    unfold songIDPatternAt at hk
    cases h1 : (litFold ['s', 'o', 'n', 'g'] (t.drop k)).bind afterKeyword with
    | some g1 =>
      rw [h1] at hk
      simp only [Option.some.injEq] at hk
      rw [← hk]
      exact bind_afterKeyword_digits _ _ g1 h1
    | none =>
      rw [h1] at hk
      cases h2 : (litFold ['a', 'l', 'b', 'u', 'm'] (t.drop k)).bind afterKeyword with
      | some g2 =>
        rw [h2] at hk
        simp only [Option.some.injEq] at hk
        rw [← hk]
        exact bind_afterKeyword_digits _ _ g2 h2
      | none =>
        rw [h2] at hk
        exact bind_afterKeyword_digits _ _ g hk
  · intro h
    obtain ⟨k, hk⟩ := findFirst_some _ t g h
    unfold numberRegexAt at hk
    by_cases h5 : 5 ≤ ((t.drop k).takeWhile isDigit).length
    · rw [if_pos h5] at hk
      simp only [Option.some.injEq] at hk
      rw [← hk]
      refine ⟨?_, takeWhile_allDigits _⟩
      intro e
      rw [e] at h5
      simp at h5
    · rw [if_neg h5] at hk
      exact absurd hk (by simp)

/-- An ID that `strconv.ParseInt` reads from a run of digits without error. -/
theorem ParseInt_range (g : Text) (hne : g ≠ []) (hd : AllDigits g) (id : Int)
    (h : ParseInt g = (id, none)) : 0 ≤ id ∧ id < 2 ^ 63 := by
  rw [ParseInt_digits g hne hd] at h
  by_cases hlt : decimal g < 2 ^ 63
  · rw [if_pos hlt] at h
    simp only [Prod.mk.injEq, and_true] at h
    rw [← h]
    exact ⟨Int.ofNat_nonneg _, by exact_mod_cast hlt⟩
  · rw [if_neg hlt] at h
    simp at h

theorem laterStrategies_range (t : Text) (id : Int) (h : laterStrategies t = (id, none)) :
    0 ≤ id ∧ id < 2 ^ 63 := by
  unfold laterStrategies at h
  cases h1 : idRegexFind t with
  | some g =>
    rw [h1] at h
    obtain ⟨hne, hd⟩ := (captures_digits t g).1 h1
    exact ParseInt_range g hne hd id h
  | none =>
    rw [h1] at h
    cases h2 : songIDPatternFind t with
    | some g =>
      rw [h2] at h
      obtain ⟨hne, hd⟩ := (captures_digits t g).2.1 h2
      exact ParseInt_range g hne hd id h
    | none =>
      rw [h2] at h
      cases h3 : numberRegexFind t with
      | some g =>
        rw [h3] at h
        obtain ⟨hne, hd⟩ := (captures_digits t g).2.2 h3
        exact ParseInt_range g hne hd id h
      | none =>
        rw [h3] at h
        simp at h

/-- A minus sign before a run of digits: the text is not purely digits, is its own
trimmed form, has no short-link marker, no `id=` token and no keyword. -/
theorem minus_run (ds : Text) (hds : AllDigits ds) :
    trimSpace ('-' :: ds) = '-' :: ds ∧ digitsOnlyRegex ('-' :: ds) = false ∧
    ¬ HasMarker ('-' :: ds) ∧ idRegexFind ('-' :: ds) = none ∧
    songIDPatternFind ('-' :: ds) = none := by
  have hmem : ∀ c ∈ '-' :: ds, c = '-' ∨ isDigit c = true := by
    intro c hc
    rcases List.mem_cons.mp hc with h | h
    · exact Or.inl h
    · exact Or.inr (hds c h)
  have hdrop : ∀ k, ∀ c ∈ ('-' :: ds).drop k, c = '-' ∨ isDigit c = true :=
    fun k c hc => hmem c (List.mem_of_mem_drop hc)
  refine ⟨?_, not_digitsOnly_of_mem _ '-' (by simp) (by decide), ?_, ?_, ?_⟩
  · have := trimSpace_core [] [] ('-' :: ds) (fun c hc => by simp at hc)
      (fun c hc => by simp at hc) (by simp)
      (fun c rest h => by
        simp only [List.cons.injEq] at h
        rw [← h.1]; decide)
      (fun c front h => by
        rcases hmem c (by rw [h]; simp) with hc | hc
        · rw [hc]; decide
        · exact isDigit_not_space c hc)
    simpa using this
  · have := no_marker_in_run ['-'] ds (by unfold NoDigit; decide) hds
    simpa using this
  · apply idRegexFind_none
    rintro k ⟨i, d, c, rest, ht, _, _, _⟩
    have := hdrop k '=' (by rw [ht]; simp)
    revert this
    decide
  · apply songIDPatternFind_none
    rintro k ⟨w, kw, nd, c, rest, hw, hf, _, _, ht⟩
    obtain ⟨hwne, hwl⟩ := keyword_letters w hw
    obtain ⟨p, ps, hp⟩ := List.exists_cons_of_ne_nil hwne
    rw [hp] at hf
    obtain ⟨c0, kw0, hkw0, hc0⟩ := foldCase_head p ps kw hf
    have hpl : p ∈ "songalbumplaylist".toList := hwl p (by rw [hp]; simp)
    have key : ∀ q ∈ "songalbumplaylist".toList, ∀ y ∈ foldOrbit q,
        y ≠ '-' ∧ isDigit y = false := by decide
    have hin : c0 ∈ ('-' :: ds).drop k := by rw [ht, hkw0]; simp
    rcases hdrop k c0 hin with h | h
    · exact (key p hpl c0 hc0).1 h
    · rw [(key p hpl c0 hc0).2] at h
      exact absurd h (by simp)

/-- C27: whenever `extractID` returns without error, for every input and every outcome of
the short-link resolution, the ID it returns is at least 0 and below 2^63. A leading
minus sign is not read as a sign: of a minus sign followed by five or more digits the
result is that of the digits alone, and of a minus sign followed by fewer digits it is
an error. -/
theorem extractID_nonneg (resolve : Text → Text × Option Error) :
    (∀ (input : Text) (id : Int), extractID resolve input = (id, none) →
      0 ≤ id ∧ id < 2 ^ 63) ∧
    (∀ ds : Text, AllDigits ds → 5 ≤ ds.length →
      extractID resolve ('-' :: ds) = ParseInt ds) ∧
    (∀ ds : Text, AllDigits ds → ds.length < 5 →
      ∃ e, extractID resolve ('-' :: ds) = (0, some e)) := by
  refine ⟨?_, ?_, ?_⟩
  · intro input id h
    by_cases hne : trimSpace input = []
    · unfold extractID at h
      simp only [hne, if_true] at h
      simp at h
    · cases hd : digitsOnlyRegex (trimSpace input) with
      | true =>
        have hall : AllDigits (trimSpace input) := by
          unfold digitsOnlyRegex at hd
          simp only [Bool.and_eq_true, List.all_eq_true] at hd
          exact hd.2
        unfold extractID at h
        simp only [if_neg hne, hd, if_true] at h
        exact ParseInt_range _ hne hall id h
      | false =>
        rw [extractID_later resolve input hne hd] at h
        exact laterStrategies_range _ id h
  · intro ds hds h5
    obtain ⟨ht, hnd, hm, hid, hkw⟩ := minus_run ds hds
    have hfind : numberRegexFind ('-' :: ds) = some ds := by
      have := numberRegexFind_leftmost ['-'] ds [] h5 hds noDigitAhead_nil (by
        intro k hk
        simp only [List.length_singleton, Nat.lt_one_iff] at hk
        rw [hk]
        rintro ⟨r, rest, hr, hr5, hrd⟩
        simp only [List.drop_zero, List.append_nil, List.singleton_append] at hr
        cases r with
        | nil => simp at hr5
        | cons c r' =>
          simp only [List.cons_append, List.cons.injEq] at hr
          have := hrd c (by simp)
          rw [← hr.1] at this
          revert this
          decide)
      simpa using this
    rw [extractID_later resolve _ (by rw [ht]; simp) (by rw [ht]; exact hnd), ht,
      if_neg (by rw [containsText_false _ hm]; simp)]
    unfold laterStrategies
    rw [hid, hkw, hfind]
  · intro ds hds h5
    obtain ⟨ht, hnd, hm, hid, hkw⟩ := minus_run ds hds
    have hnone : numberRegexFind ('-' :: ds) = none := by
      apply numberRegexFind_none
      rintro k ⟨r, rest, hr, hr5, hrd⟩
      have hlen : r.length ≤ (('-' :: ds).drop k).length := by
        rw [hr, List.length_append]; omega
      rw [List.length_drop, List.length_cons] at hlen
      cases k with
      | zero =>
        simp only [List.drop_zero] at hr
        cases r with
        | nil => simp at hr5
        | cons c r' =>
          simp only [List.cons_append, List.cons.injEq] at hr
          have := hrd c (by simp)
          rw [← hr.1] at this
          revert this
          decide
      | succ k => omega
    refine ⟨.msg "无法从输入中提取ID", ?_⟩
    rw [extractID_later resolve _ (by rw [ht]; simp) (by rw [ht]; exact hnd), ht,
      if_neg (by rw [containsText_false _ hm]; simp)]
    unfold laterStrategies
    rw [hid, hkw, hnone]

theorem extractID_nonneg_witness :
    extractID (fun _ => ([], none)) "-12345".toList = (12345, none) ∧
    (0 : Int) ≤ 12345 ∧ (12345 : Int) < 2 ^ 63 ∧
    (∃ e, extractID (fun _ => ([], none)) "-123".toList = (0, some e)) :=
  have h := extractID_nonneg (fun _ => ([], none))
  have h1 : extractID (fun _ => ([], none)) "-12345".toList = (12345, none) :=
    (h.2.1 "12345".toList (by unfold AllDigits; decide) (by decide)).trans (by decide)
  ⟨h1, (h.1 _ _ h1).1, (h.1 _ _ h1).2,
    h.2.2 "123".toList (by unfold AllDigits; decide) (by decide)⟩

/-! ## Proofs: the length limit and the fallback of BuildFilename -/

theorem byteLen_eq_goBytes : ∀ s : GoString, byteLen s = (goBytes s).length := by
  intro s
  induction s with
  | nil => rfl
  | cons u t ih =>
    rw [byteLen, ih]
    simp [goBytes, GoRune.width]

theorem goBytes_bytes (bs : Bytes) : goBytes (bs.map GoRune.byte) = bs := by
  induction bs with
  | nil => rfl
  | cons b t ih =>
    simp only [goBytes, List.map_cons, List.flatMap_cons] at ih ⊢
    rw [ih]
    rfl

/-- The slice `s[:n]` holds the first `n` bytes of the string. -/
theorem goBytes_byteTake : ∀ (s : GoString) (n : Nat),
    goBytes (byteTake n s) = (goBytes s).take n := by
  intro s
  induction s with
  | nil => intro n; simp [byteTake, goBytes]
  | cons u t ih =>
    intro n
    have hcons : ∀ x : GoString, goBytes (u :: x) = u.toBytes ++ goBytes x := by
      intro x; simp [goBytes]
    rw [byteTake, hcons]
    by_cases h : u.width ≤ n
    · rw [if_pos h, hcons, ih, List.take_append_eq_append_take]
      unfold GoRune.width at h
      rw [List.take_of_length_le h]
      rfl
    · rw [if_neg h, goBytes_bytes, List.take_append_eq_append_take]
      unfold GoRune.width at h
      have : n - u.toBytes.length = 0 := by omega
      rw [this, List.take_zero, List.append_nil]

/-- In a string of one-byte elements a byte offset is an element offset. -/
theorem byteTake_ascii : ∀ (s : GoString) (n : Nat), (∀ u ∈ s, u.width = 1) →
    byteTake n s = s.take n := by
  intro s
  induction s with
  | nil => intro n _; simp [byteTake]
  | cons u t ih =>
    intro n h
    have hu : u.width = 1 := h u (by simp)
    rw [byteTake, hu]
    cases n with
    | zero =>
      rw [if_neg (by omega)]
      simp
    | succ n =>
      rw [if_pos (by omega), List.take_succ_cons, Nat.add_sub_cancel,
        ih n (fun v hv => h v (by simp [hv]))]

theorem byteLen_ascii : ∀ s : GoString, (∀ u ∈ s, u.width = 1) → byteLen s = s.length := by
  intro s
  induction s with
  | nil => intro _; rfl
  | cons u t ih =>
    intro h
    rw [byteLen, h u (by simp), ih (fun v hv => h v (by simp [hv])), List.length_cons]
    omega

theorem mem_dropWhile_of_not (p : GoRune → Bool) (v : GoRune) (hv : p v = false) :
    ∀ s : GoString, v ∈ s → v ∈ s.dropWhile p := by
  intro s
  induction s with
  | nil => intro h; exact h
  | cons u t ih =>
    intro h
    by_cases hu : p u = true
    · rw [List.dropWhile_cons, if_pos hu]
      rcases List.mem_cons.mp h with e | e
      · rw [e, hu] at hv
        exact absurd hv (by simp)
      · exact ih e
    · rw [List.dropWhile_cons, if_neg hu]
      exact h

/-- Trimming keeps every element that is no white space. -/
theorem mem_stringsTrimSpace_of_not (v : GoRune) (hv : v.isSpace = false) (s : GoString)
    (h : v ∈ s) : v ∈ stringsTrimSpace s := by
  unfold stringsTrimSpace trimRightSpace trimLeftSpace
  rw [List.mem_reverse]
  apply mem_dropWhile_of_not _ v hv
  rw [List.mem_reverse]
  exact mem_dropWhile_of_not _ v hv s h

/-- The separator's hyphen is in the sanitised and trimmed string. -/
theorem dash_mem_sanitisedBase (info : MusicInfo) : GoRune.rune '-' ∈ sanitisedBase info := by
  unfold sanitisedBase
  apply mem_stringsTrimSpace_of_not _ (by decide)
  unfold replaceIllegal
  refine List.mem_map.mpr ⟨GoRune.rune '-', ?_, by decide⟩
  simp [str]

/-- The fallback branch of `BuildFilename` is not taken. -/
theorem BuildFilename_eq (info : MusicInfo) :
    BuildFilename info =
      if byteLen (sanitisedBase info) > 200 then byteTake 200 (sanitisedBase info)
      else sanitisedBase info := by
  have hdash := dash_mem_sanitisedBase info
  have hne : sanitisedBase info ≠ [] := by
    intro e
    rw [e] at hdash
    simp at hdash
  unfold BuildFilename
  simp only []
  change (if (if byteLen (sanitisedBase info) > 200 then byteTake 200 (sanitisedBase info)
      else sanitisedBase info) = [] then str "unknown"
    else (if byteLen (sanitisedBase info) > 200 then byteTake 200 (sanitisedBase info)
      else sanitisedBase info)) = _
  rw [if_neg]
  by_cases h : byteLen (sanitisedBase info) > 200
  · rw [if_pos h]
    intro e
    have := congrArg goBytes e
    rw [goBytes_byteTake] at this
    have hl := congrArg List.length this
    rw [List.length_take, ← byteLen_eq_goBytes] at hl
    simp only [goBytes, List.flatMap_nil, List.length_nil] at hl
    omega
  · rw [if_neg h]
    exact hne

theorem BuildFilename_clean (info : MusicInfo) :
    ∀ u ∈ BuildFilename info, illegalFilenameChars u = false := by
  intro u hu
  rw [BuildFilename_eq] at hu
  unfold sanitisedBase at hu
  split_ifs at hu with h
  · rcases mem_byteTake u _ _ hu with h1 | ⟨b, rfl⟩
    · exact replaceIllegal_clean _ u (mem_stringsTrimSpace u _ h1)
    · rfl
  · exact replaceIllegal_clean _ u (mem_stringsTrimSpace u _ hu)

/-- The cut of `BuildFilename` in bytes: a sanitised and trimmed string of at most 200
bytes is returned whole; of a longer one the first 200 bytes are returned; in a string of
one-byte characters these are its first 200 characters. -/
theorem BuildFilename_bytes (info : MusicInfo) :
    (byteLen (sanitisedBase info) ≤ 200 → BuildFilename info = sanitisedBase info) ∧
    (200 < byteLen (sanitisedBase info) →
      goBytes (BuildFilename info) = (goBytes (sanitisedBase info)).take 200 ∧
      byteLen (BuildFilename info) = 200) ∧
    ((∀ u ∈ sanitisedBase info, u.width = 1) →
      BuildFilename info = (sanitisedBase info).take 200) := by
  refine ⟨?_, ?_, ?_⟩
  · intro h
    rw [BuildFilename_eq, if_neg (by omega)]
  · intro h
    rw [BuildFilename_eq, if_pos h, goBytes_byteTake]
    refine ⟨rfl, ?_⟩
    rw [byteLen_eq_goBytes, goBytes_byteTake, List.length_take, ← byteLen_eq_goBytes]
    omega
  · intro h
    rw [BuildFilename_eq, byteLen_ascii _ h]
    by_cases hl : (sanitisedBase info).length > 200
    · rw [if_pos hl, byteTake_ascii _ _ h]
    · rw [if_neg hl, List.take_of_length_le (by omega)]

/-- C24, the code against the claim: for an empty artist text and a name of fifty
four-byte runes (U+1F600), the sanitised and trimmed string "- " followed by the name
has 52 characters, so that the claim has `BuildFilename` return it whole. It has 202
bytes, and the code returns its first 200 bytes: "- ", forty-nine of the runes, and the
first two bytes, 0xF0 and 0x9F, of the fiftieth, which are no character. The result is
neither the whole string nor a string of its first characters. -/
theorem BuildFilename_truncation_diverges :
    (sanitisedBase ⟨1, List.replicate 50 (.rune (Char.ofNat 0x1F600)), [], [], [], 0,
      str "mp3", 0, [], str "u", [], []⟩).length = 52 ∧
    sanitisedBase ⟨1, List.replicate 50 (.rune (Char.ofNat 0x1F600)), [], [], [], 0,
      str "mp3", 0, [], str "u", [], []⟩ =
      str "- " ++ List.replicate 50 (.rune (Char.ofNat 0x1F600)) ∧
    byteLen (sanitisedBase ⟨1, List.replicate 50 (.rune (Char.ofNat 0x1F600)), [], [], [], 0,
      str "mp3", 0, [], str "u", [], []⟩) = 202 ∧
    BuildFilename ⟨1, List.replicate 50 (.rune (Char.ofNat 0x1F600)), [], [], [], 0,
      str "mp3", 0, [], str "u", [], []⟩ =
      str "- " ++ List.replicate 49 (.rune (Char.ofNat 0x1F600)) ++ [.byte 240, .byte 159] ∧
    BuildFilename ⟨1, List.replicate 50 (.rune (Char.ofNat 0x1F600)), [], [], [], 0,
      str "mp3", 0, [], str "u", [], []⟩ ≠
      sanitisedBase ⟨1, List.replicate 50 (.rune (Char.ofNat 0x1F600)), [], [], [], 0,
        str "mp3", 0, [], str "u", [], []⟩ ∧
    (∀ n, BuildFilename ⟨1, List.replicate 50 (.rune (Char.ofNat 0x1F600)), [], [], [], 0,
      str "mp3", 0, [], str "u", [], []⟩ ≠
      (sanitisedBase ⟨1, List.replicate 50 (.rune (Char.ofNat 0x1F600)), [], [], [], 0,
        str "mp3", 0, [], str "u", [], []⟩).take n) := by
  refine ⟨by decide, by decide, by decide, by decide, by decide, ?_⟩
  intro n h
  have hb : GoRune.byte 240 ∈ BuildFilename ⟨1, List.replicate 50 (.rune (Char.ofNat 0x1F600)),
      [], [], [], 0, str "mp3", 0, [], str "u", [], []⟩ := by decide
  rw [h] at hb
  have := List.mem_of_mem_take hb
  revert this
  decide

theorem replaceIllegal_spaceOnly (w : GoString) (hw : SpaceOnly w) : replaceIllegal w = w := by
  unfold replaceIllegal
  have key : ∀ u : GoRune, illegalFilenameChars u = true → u.isSpace = false := by
    intro u hu
    unfold illegalFilenameChars at hu
    simp only [decide_eq_true_eq] at hu
    rcases hu with h | h | h | h | h | h | h | h | h <;> rw [h] <;> decide
  conv_rhs => rw [← List.map_id w]
  apply List.map_congr_left
  intro u hu
  by_cases h : illegalFilenameChars u = true
  · have := key u h
    rw [hw u hu] at this
    exact absurd this (by simp)
  · rw [if_neg h]; rfl

/-- C28: the fallback "unknown" of `BuildFilename` is unreachable. For every MusicInfo the
sanitised and trimmed string contains the hyphen of the separator, so it is not empty,
the string is not empty after the cut to 200 bytes either, it is what `BuildFilename`
returns, and that is never "unknown"; for artists and name that are empty or white space
only, `BuildFilename` returns "-". -/
theorem BuildFilename_fallback (info : MusicInfo) :
    GoRune.rune '-' ∈ sanitisedBase info ∧ sanitisedBase info ≠ [] ∧
    (if byteLen (sanitisedBase info) > 200 then byteTake 200 (sanitisedBase info)
      else sanitisedBase info) ≠ [] ∧
    BuildFilename info =
      (if byteLen (sanitisedBase info) > 200 then byteTake 200 (sanitisedBase info)
        else sanitisedBase info) ∧
    BuildFilename info ≠ str "unknown" ∧
    (SpaceOnly info.Artists → SpaceOnly info.Name → BuildFilename info = str "-") := by
  have hdash := dash_mem_sanitisedBase info
  have hne : sanitisedBase info ≠ [] := by
    intro e
    rw [e] at hdash
    simp at hdash
  have hcut : 200 < byteLen (sanitisedBase info) →
      byteLen (byteTake 200 (sanitisedBase info)) = 200 := by
    intro h
    rw [byteLen_eq_goBytes, goBytes_byteTake, List.length_take, ← byteLen_eq_goBytes]
    omega
  refine ⟨hdash, hne, ?_, BuildFilename_eq info, ?_, ?_⟩
  · by_cases h : byteLen (sanitisedBase info) > 200
    · rw [if_pos h]
      intro e
      have := hcut h
      rw [e] at this
      simp [byteLen] at this
    · rw [if_neg h]; exact hne
  · rw [BuildFilename_eq]
    by_cases h : byteLen (sanitisedBase info) > 200
    · rw [if_pos h]
      intro e
      have := hcut h
      rw [e] at this
      revert this
      decide
    · rw [if_neg h]
      intro e
      rw [e] at hdash
      revert hdash
      decide
  · intro ha hn
    have hb : sanitisedBase info = str "-" := by
      unfold sanitisedBase replaceIllegal
      rw [List.map_append, List.map_append]
      have h1 := replaceIllegal_spaceOnly _ ha
      have h2 := replaceIllegal_spaceOnly _ hn
      unfold replaceIllegal at h1 h2
      rw [h1, h2]
      have hsplit : info.Artists ++ List.map (fun u => if illegalFilenameChars u = true then
          GoRune.rune '_' else u) (str " - ") ++ info.Name =
          (info.Artists ++ str " ") ++ str "-" ++ (str " " ++ info.Name) := by
        have : List.map (fun u => if illegalFilenameChars u = true then
          GoRune.rune '_' else u) (str " - ") = str " " ++ str "-" ++ str " " := by decide
        rw [this]
        simp only [List.append_assoc]
      rw [hsplit]
      have hsp : ∀ v ∈ str " ", v.isSpace = true := by decide
      apply stringsTrimSpace_core
      · intro u hu
        rcases List.mem_append.mp hu with h | h
        · exact ha u h
        · exact hsp u h
      · intro u hu
        rcases List.mem_append.mp hu with h | h
        · exact hsp u h
        · exact hn u h
      · constructor
        · intro u t e
          have := congrArg List.head? e
          simp only [str, List.head?_cons] at this
          simp only [String.toList, String.data, List.map_cons, List.head?_cons,
            Option.some.injEq] at this
          rw [← this]; decide
        · intro u t e
          have := congrArg List.getLast? e
          simp only [str, List.getLast?_append, List.getLast?_singleton] at this
          simp only [String.toList, List.map_cons, List.map_nil, List.getLast?_singleton,
            Option.some.injEq, Option.or_some] at this
          rw [← this]; decide
    rw [BuildFilename_eq, hb]
    rfl

theorem BuildFilename_fallback_witness :
    SpaceOnly (str " \t") ∧ SpaceOnly (str "") ∧
    BuildFilename ⟨1, str "", str " \t", [], [], 0, str "mp3", 0, [], str "u", [], []⟩ =
      str "-" :=
  have ha : SpaceOnly (str " \t") := by unfold SpaceOnly; decide
  have hn : SpaceOnly (str "") := by unfold SpaceOnly; decide
  ⟨ha, hn, (BuildFilename_fallback
    ⟨1, str "", str " \t", [], [], 0, str "mp3", 0, [], str "u", [], []⟩).2.2.2.2.2 ha hn⟩

/-! ## Proofs: the file name of DownloadToFile -/

theorem stringsHasSuffix_append (f suffix : GoString) :
    stringsHasSuffix (f ++ suffix) suffix = true := by
  unfold stringsHasSuffix
  rw [List.reverse_append, List.isPrefixOf_iff_prefix]
  exact List.prefix_append _ _

theorem stringsHasSuffix_mem (s suffix : GoString) (h : stringsHasSuffix s suffix = true) :
    ∀ u ∈ suffix, u ∈ s := by
  unfold stringsHasSuffix at h
  rw [List.isPrefixOf_iff_prefix] at h
  intro u hu
  have := h.subset (List.mem_reverse.mpr hu)
  exact List.mem_reverse.mp this

/-- The file name of `DownloadToFile` is the name that `BuildFilename` gives, and the
suffix when the name does not end with it. -/
theorem downloadName_eq (info : MusicInfo) :
    downloadName info =
      if stringsHasSuffix (BuildFilename info) (str "." ++ info.FileType) = true then
        BuildFilename info
      else BuildFilename info ++ (str "." ++ info.FileType) := by
  unfold downloadName
  simp only []
  by_cases h : stringsHasSuffix (BuildFilename info) (str "." ++ info.FileType) = true
  · rw [if_pos h, if_neg (by rw [h]; simp)]
  · rw [if_neg h, if_pos (by simpa using h), List.append_assoc]

/-- C29: `DownloadToFile` sanitises the artist and title part of the destination name
only. The file name it joins to the download directory is `BuildFilename(info)`, followed
by "." and the file type as it is unless the name already ends with that suffix; in
both cases the file name ends with the suffix; it contains one of the characters
`< > : " / \ | ? *` exactly when the file type contains one, and a slash exactly when the
file type contains a slash. Whenever `DownloadToFile` returns without error, the path it
returns is the download directory joined with that file name. -/
theorem downloadName_spec {σ : Type} (os : FileOps σ) (d : Downloader) (s : σ)
    (info : MusicInfo) :
    (downloadName info =
      if stringsHasSuffix (BuildFilename info) (str "." ++ info.FileType) = true then
        BuildFilename info
      else BuildFilename info ++ (str "." ++ info.FileType)) ∧
    stringsHasSuffix (downloadName info) (str "." ++ info.FileType) = true ∧
    ((∃ u ∈ downloadName info, illegalFilenameChars u = true) ↔
      ∃ u ∈ info.FileType, illegalFilenameChars u = true) ∧
    (GoRune.rune '/' ∈ downloadName info ↔ GoRune.rune '/' ∈ info.FileType) ∧
    (∀ out, DownloadToFile os d s (some info) = some out → out.err = none →
      out.filePath = os.Join d.downloadDir (downloadName info)) := by
  have hclean := BuildFilename_clean info
  have hsuf : stringsHasSuffix (downloadName info) (str "." ++ info.FileType) = true := by
    rw [downloadName_eq]
    by_cases h : stringsHasSuffix (BuildFilename info) (str "." ++ info.FileType) = true
    · rw [if_pos h]; exact h
    · rw [if_neg h]; exact stringsHasSuffix_append _ _
  have hmem : ∀ u ∈ downloadName info,
      u ∈ BuildFilename info ∨ u = GoRune.rune '.' ∨ u ∈ info.FileType := by
    intro u hu
    rw [downloadName_eq] at hu
    split_ifs at hu with h
    · exact Or.inl hu
    · rcases List.mem_append.mp hu with h1 | h1
      · exact Or.inl h1
      · rcases List.mem_append.mp h1 with h2 | h2
        · right; left
          simpa [str] using h2
        · exact Or.inr (Or.inr h2)
  have hiff : ∀ P : GoRune → Prop, (∀ u ∈ BuildFilename info, ¬ P u) → ¬ P (GoRune.rune '.') →
      ((∃ u ∈ downloadName info, P u) ↔ ∃ u ∈ info.FileType, P u) := by
    intro P hb hdot
    constructor
    · rintro ⟨u, hu, hp⟩
      rcases hmem u hu with h | h | h
      · exact absurd hp (hb u h)
      · rw [h] at hp; exact absurd hp hdot
      · exact ⟨u, h, hp⟩
    · rintro ⟨u, hu, hp⟩
      exact ⟨u, stringsHasSuffix_mem _ _ hsuf u (List.mem_append_right _ hu), hp⟩
  refine ⟨downloadName_eq info, hsuf, ?_, ?_, ?_⟩
  · exact hiff (fun u => illegalFilenameChars u = true)
      (fun u hu e => by
        have e' : illegalFilenameChars u = true := e
        rw [hclean u hu] at e'
        exact absurd e' (by simp)) (by decide)
  · have := hiff (fun u => u = GoRune.rune '/')
      (fun u hu e => by
        have e' : u = GoRune.rune '/' := e
        have := hclean u hu
        rw [e'] at this
        exact absurd this (by decide)) (by decide)
    simpa using this
  · intro out hout herr
    unfold DownloadToFile at hout
    simp only [] at hout
    split at hout
    · simp only [Option.some.injEq] at hout
      rw [← hout] at herr
      simp at herr
    · split at hout
      · simp only [Option.some.injEq] at hout
        rw [← hout] at herr
        simp at herr
      · split at hout
        · simp only [Option.some.injEq] at hout
          rw [← hout]
        · split at hout
          · cases hout
          · split at hout
            · simp only [Option.some.injEq] at hout
              rw [← hout] at herr
              simp at herr
            · split at hout
              · simp only [Option.some.injEq] at hout
                rw [← hout] at herr
                simp at herr
              · split at hout
                · simp only [Option.some.injEq] at hout
                  rw [← hout] at herr
                  simp at herr
                · simp only [Option.some.injEq] at hout
                  rw [← hout]

theorem downloadName_spec_witness :
    (∃ out, DownloadToFile sampleFS ⟨some (sampleClient (.error (.external 1))
        (.error (.external 1)) (.error (.external 1))), none, str "dl"⟩ []
        (some ⟨1, str "t", str "a", [], [], 0, str "../x", 0, [], str "u", [], []⟩) = some out ∧
      out.err = none ∧ out.filePath = str "dl/a - t.../x") ∧
    GoRune.rune '/' ∈
      downloadName ⟨1, str "t", str "a", [], [], 0, str "../x", 0, [], str "u", [], []⟩ :=
  ⟨⟨_, rfl, rfl,
    ((downloadName_spec sampleFS ⟨some (sampleClient (.error (.external 1))
        (.error (.external 1)) (.error (.external 1))), none, str "dl"⟩ []
        ⟨1, str "t", str "a", [], [], 0, str "../x", 0, [], str "u", [], []⟩).2.2.2.2
      _ rfl rfl).trans (by decide)⟩,
   (downloadName_spec sampleFS ⟨none, none, str "dl"⟩ []
      ⟨1, str "t", str "a", [], [], 0, str "../x", 0, [], str "u", [], []⟩).2.2.2.1.mpr
      (by decide)⟩

/-! ## Proofs: the parts of a cookie text -/

theorem ParseCookieString_text (s : GoString) :
    ParseCookieString s = cookieBody (cookieText s) := rfl

theorem stringsSplitN2_none (sep : GoRune) : ∀ s : GoString, sep ∉ s →
    stringsSplitN2 sep s = none := by
  intro s
  induction s with
  | nil => intro _; rfl
  | cons u t ih =>
    intro h
    simp only [List.mem_cons, not_or] at h
    rw [stringsSplitN2, if_neg (fun e => h.1 e.symm), ih h.2]

theorem stringsSplitN2_some (sep : GoRune) : ∀ (s k v : GoString),
    stringsSplitN2 sep s = some (k, v) → sep ∉ k ∧ s = k ++ sep :: v := by
  intro s
  induction s with
  | nil => intro k v h; simp [stringsSplitN2] at h
  | cons u t ih =>
    intro k v h
    rw [stringsSplitN2] at h
    by_cases hu : u = sep
    · rw [if_pos hu] at h
      simp only [Option.some.injEq, Prod.mk.injEq] at h
      rw [← h.1, ← h.2, hu]
      exact ⟨by simp, rfl⟩
    · rw [if_neg hu] at h
      cases hr : stringsSplitN2 sep t with
      | none => rw [hr] at h; simp at h
      | some kv =>
        obtain ⟨a, b⟩ := kv
        rw [hr] at h
        simp only [Option.some.injEq, Prod.mk.injEq] at h
        obtain ⟨h1, h2⟩ := ih a b hr
        rw [← h.1, ← h.2]
        refine ⟨?_, by rw [h2]; rfl⟩
        simp only [List.mem_cons, not_or]
        exact ⟨fun e => hu e.symm, h1⟩

/-- What one round of the loop of `ParseCookieString` does is to put the pair of the part
into the map, when the part has one. -/
theorem parseCookiePart_eq (result : StrMap) (part : GoString) :
    parseCookiePart result part =
      match partPair part with
      | none => result
      | some kv => result.set kv.1 kv.2 := by
  unfold parseCookiePart partPair
  simp only []
  by_cases hp : stringsTrimSpace part = []
  · rw [if_pos hp, hp]
    rfl
  · rw [if_neg hp]
    cases hs : stringsSplitN2 (.rune '=') (stringsTrimSpace part) with
    | none => rfl
    | some kv =>
      obtain ⟨k, v⟩ := kv
      simp only []
      by_cases hkv : stringsTrimSpace k = [] ∨ stringsTrimSpace v = []
      · rw [if_pos hkv, if_pos hkv]
      · rw [if_neg hkv, if_neg hkv]

theorem foldl_parseCookiePart : ∀ (parts : List GoString) (m : StrMap),
    parts.foldl parseCookiePart m =
      (parts.filterMap partPair).foldl (fun m kv => m.set kv.1 kv.2) m := by
  intro parts
  induction parts with
  | nil => intro m; rfl
  | cons p ps ih =>
    intro m
    rw [List.foldl_cons, parseCookiePart_eq, List.filterMap_cons]
    cases hp : partPair p with
    | none => exact ih m
    | some kv => simp only [List.foldl_cons]; exact ih _

/-- In a map built by assignments the value of a key is that of its last assignment. -/
theorem foldl_set_get (k : GoString) : ∀ (pairs m : StrMap),
    (pairs.foldl (fun m kv => m.set kv.1 kv.2) m).get k =
      match lastValue pairs k with
      | some v => some v
      | none => m.get k := by
  intro pairs
  induction pairs using List.reverseRecOn with
  | nil => intro m; rfl
  | append_singleton init p ih =>
    intro m
    rw [List.foldl_append, List.foldl_cons, List.foldl_nil]
    unfold lastValue at ih ⊢
    rw [List.reverse_append, List.reverse_singleton, List.singleton_append, List.find?_cons]
    by_cases hp : p.1 = k
    · simp only [hp, decide_True, Option.map_some']
      rw [← hp]
      exact StrMap.get_set_self _ _ _
    · simp only [hp, decide_False]
      rw [StrMap.get_set_ne _ _ _ _ hp]
      exact ih m

theorem foldl_set_nodup : ∀ (pairs m : StrMap), (m.map Prod.fst).Nodup →
    ((pairs.foldl (fun m kv => m.set kv.1 kv.2) m).map Prod.fst).Nodup := by
  intro pairs
  induction pairs with
  | nil => intro m h; exact h
  | cons p ps ih =>
    intro m h
    rw [List.foldl_cons]
    exact ih _ (StrMap.set_nodup m _ _ h)

theorem foldl_set_mem (P : GoString × GoString → Prop) : ∀ (pairs m : StrMap),
    (∀ kv ∈ pairs, P kv) → (∀ kv ∈ m, P kv) →
    ∀ kv ∈ pairs.foldl (fun m kv => m.set kv.1 kv.2) m, P kv := by
  intro pairs
  induction pairs with
  | nil => intro m _ hm; exact hm
  | cons p ps ih =>
    intro m hp hm
    rw [List.foldl_cons]
    apply ih _ (fun kv h => hp kv (by simp [h]))
    intro kv hkv
    unfold StrMap.set at hkv
    rcases List.mem_cons.mp hkv with h | h
    · rw [h]; exact hp p (by simp)
    · exact hm kv (List.mem_filter.mp h).1

/-! ## Proofs: trimmed strings -/

theorem dropWhile_head (p : GoRune → Bool) : ∀ (s : GoString) (a : GoRune) (t : GoString),
    s.dropWhile p = a :: t → p a = false := by
  intro s
  induction s with
  | nil => intro a t h; simp at h
  | cons u r ih =>
    intro a t h
    by_cases hu : p u = true
    · rw [List.dropWhile_cons, if_pos hu] at h
      exact ih a t h
    · rw [List.dropWhile_cons, if_neg hu] at h
      simp only [List.cons.injEq] at h
      rw [← h.1]
      simpa using hu

theorem trimRightSpace_prefix (y : GoString) : trimRightSpace y <+: y := by
  unfold trimRightSpace
  have := List.dropWhile_suffix GoRune.isSpace (l := y.reverse)
  have h2 := List.reverse_prefix.mpr this
  rw [List.reverse_reverse] at h2
  exact h2

/-- A trimmed string has no white space at its ends. -/
theorem stringsTrimSpace_noSpaceAround (x : GoString) : NoSpaceAround (stringsTrimSpace x) := by
  constructor
  · intro u t h
    unfold stringsTrimSpace at h
    obtain ⟨r, hr⟩ := trimRightSpace_prefix (trimLeftSpace x)
    rw [h] at hr
    exact dropWhile_head _ x u (t ++ r) (by unfold trimLeftSpace at hr; rw [← hr]; rfl)
  · intro u t h
    unfold stringsTrimSpace trimRightSpace at h
    have h2 := congrArg List.reverse h
    rw [List.reverse_reverse, List.reverse_append, List.reverse_singleton,
      List.singleton_append] at h2
    exact dropWhile_head _ _ u _ h2

theorem dropWhile_append_stop (p : GoRune → Bool) (a : GoRune) (v : GoString)
    (ha : p a = false) : ∀ k : GoString,
    (k ++ a :: v).dropWhile p = k.dropWhile p ++ a :: v := by
  intro k
  induction k with
  | nil => rw [List.nil_append, List.dropWhile_cons, if_neg (by simp [ha])]; rfl
  | cons u t ih =>
    by_cases hu : p u = true
    · rw [List.cons_append, List.dropWhile_cons, if_pos hu, List.dropWhile_cons, if_pos hu, ih]
    · rw [List.cons_append, List.dropWhile_cons, if_neg hu, List.dropWhile_cons, if_neg hu]
      rfl

/-- Trimming a text around an element that is no white space trims what is before it on
the left and what is after it on the right. -/
theorem stringsTrimSpace_around (k v : GoString) (a : GoRune) (ha : a.isSpace = false) :
    stringsTrimSpace (k ++ a :: v) = trimLeftSpace k ++ a :: trimRightSpace v := by
  unfold stringsTrimSpace
  have h1 : trimLeftSpace (k ++ a :: v) = trimLeftSpace k ++ a :: v :=
    dropWhile_append_stop _ a v ha k
  rw [h1]
  have := trimRightSpace_after v a ha (trimLeftSpace k)
  simpa using this

theorem trimLeftSpace_idem (k : GoString) : trimLeftSpace (trimLeftSpace k) = trimLeftSpace k := by
  unfold trimLeftSpace
  cases h : k.dropWhile GoRune.isSpace with
  | nil => rfl
  | cons a t =>
    rw [List.dropWhile_cons, if_neg (by rw [dropWhile_head _ k a t h]; simp)]

theorem stringsTrimSpace_trimLeft (k : GoString) :
    stringsTrimSpace (trimLeftSpace k) = stringsTrimSpace k := by
  unfold stringsTrimSpace
  rw [trimLeftSpace_idem]

/-- The pair of a part written `k=v`, the key without `=`. -/
theorem partPair_item (k v : GoString) (hk : GoRune.rune '=' ∉ k) :
    partPair (k ++ GoRune.rune '=' :: v) =
      if stringsTrimSpace k = [] ∨ stringsTrimSpace v = [] then none
      else some (stringsTrimSpace k, stringsTrimSpace v) := by
  unfold partPair
  rw [stringsTrimSpace_around k v _ (by decide),
    stringsSplitN2_item _ _ _ (fun h => hk (mem_trimLeftSpace _ _ h))]
  simp only [stringsTrimSpace_trimLeft, stringsTrimSpace_trimRight]

theorem partPair_none (part : GoString) (h : GoRune.rune '=' ∉ part) : partPair part = none := by
  unfold partPair
  rw [stringsSplitN2_none _ _ (fun hm => h (mem_stringsTrimSpace _ _ hm))]

theorem partPair_clean (part : GoString) (kv : GoString × GoString)
    (h : partPair part = some kv) : CleanEntry kv := by
  unfold partPair at h
  cases hs : stringsSplitN2 (.rune '=') (stringsTrimSpace part) with
  | none => rw [hs] at h; simp at h
  | some ab =>
    obtain ⟨a, b⟩ := ab
    rw [hs] at h
    simp only [] at h
    by_cases he : stringsTrimSpace a = [] ∨ stringsTrimSpace b = []
    · rw [if_pos he] at h; simp at h
    · rw [if_neg he] at h
      simp only [Option.some.injEq] at h
      rw [← h]
      simp only [not_or] at he
      obtain ⟨hna, _⟩ := stringsSplitN2_some _ _ a b hs
      exact ⟨he.1, he.2, stringsTrimSpace_noSpaceAround a, stringsTrimSpace_noSpaceAround b,
        fun hm => hna (mem_stringsTrimSpace _ _ hm)⟩

/-- The map of `cookieBody` is built from the pairs of the parts, in their order. -/
theorem cookieBody_pairs (cs : GoString) :
    ∃ parts : List GoString, cookieBody cs =
      (parts.filterMap partPair).foldl (fun (m : StrMap) kv => m.set kv.1 kv.2) [] := by
  unfold cookieBody
  simp only []
  by_cases h : cs = []
  · exact ⟨[], by rw [if_pos h]; rfl⟩
  · rw [if_neg h]
    exact ⟨_, foldl_parseCookiePart _ _⟩

/-- C26: for every input string, every key and every value of the mapping that
`ParseCookieString` returns is non-empty and has no leading or trailing white space, no
key contains '=', and no key occurs twice. A part without '=' leaves the map as it is,
and so does a part k=v whose key or value is empty once trimmed; any other part k=v puts
the trimmed key with the trimmed value. -/
theorem ParseCookieString_clean (s : GoString) :
    (∀ kv ∈ ParseCookieString s, kv.1 ≠ [] ∧ kv.2 ≠ [] ∧ NoSpaceAround kv.1 ∧
      NoSpaceAround kv.2 ∧ GoRune.rune '=' ∉ kv.1) ∧
    ((ParseCookieString s).map Prod.fst).Nodup ∧
    (∀ result part, GoRune.rune '=' ∉ part → parseCookiePart result part = result) ∧
    (∀ result k v, GoRune.rune '=' ∉ k →
      (stringsTrimSpace k = [] ∨ stringsTrimSpace v = []) →
      parseCookiePart result (k ++ GoRune.rune '=' :: v) = result) ∧
    (∀ result k v, GoRune.rune '=' ∉ k → stringsTrimSpace k ≠ [] → stringsTrimSpace v ≠ [] →
      parseCookiePart result (k ++ GoRune.rune '=' :: v) =
        result.set (stringsTrimSpace k) (stringsTrimSpace v)) := by
  obtain ⟨parts, hparts⟩ := cookieBody_pairs (cookieText s)
  rw [ParseCookieString_text, hparts]
  refine ⟨?_, ?_, ?_, ?_, ?_⟩
  · apply foldl_set_mem CleanEntry
    · intro kv hkv
      obtain ⟨p, _, hp⟩ := List.mem_filterMap.mp hkv
      exact partPair_clean p kv hp
    · intro kv hkv; simp at hkv
  · exact foldl_set_nodup _ _ (by simp)
  · intro result part h
    rw [parseCookiePart_eq, partPair_none part h]
  · intro result k v hk he
    rw [parseCookiePart_eq, partPair_item k v hk, if_pos he]
  · intro result k v hk h1 h2
    rw [parseCookiePart_eq, partPair_item k v hk, if_neg (by tauto)]

theorem ParseCookieString_clean_witness :
    ParseCookieString (str " =1; a= ; b ;  c = x=3 ") = [(str "c", str "x=3")] ∧
    parseCookiePart [] (str " b ") = [] ∧
    parseCookiePart [] (str " " ++ GoRune.rune '=' :: str "1") = [] ∧
    parseCookiePart [] (str " c " ++ GoRune.rune '=' :: str " x=3 ") = [(str "c", str "x=3")] :=
  have h := ParseCookieString_clean (str " =1; a= ; b ;  c = x=3 ")
  ⟨by decide, h.2.2.1 [] (str " b ") (by decide),
    h.2.2.2.1 [] (str " ") (str "1") (by decide) (Or.inl (by decide)),
    (h.2.2.2.2 [] (str " c ") (str " x=3 ") (by decide) (by decide) (by decide)).trans
      (by decide)⟩

/-! ## Proofs: the semicolon before the newline -/

/-- The slice `s[n:]` is made of some bytes of a cut element and of the elements after
at most `n` elements. -/
theorem byteDrop_shape : ∀ (s : GoString) (n : Nat),
    ∃ (bs : Bytes) (j : Nat), j ≤ n ∧ byteDrop n s = bs.map GoRune.byte ++ s.drop j := by
  intro s
  induction s with
  | nil => intro n; exact ⟨[], 0, Nat.zero_le _, rfl⟩
  | cons u t ih =>
    intro n
    rw [byteDrop]
    by_cases h0 : n = 0
    · rw [if_pos h0]
      exact ⟨[], 0, Nat.zero_le _, rfl⟩
    · rw [if_neg h0]
      by_cases hw : u.width ≤ n
      · rw [if_pos hw]
        obtain ⟨bs, j, hj, hb⟩ := ih (n - u.width)
        have := (GoRune.width_pos u).1
        exact ⟨bs, j + 1, by omega, by rw [hb]; rfl⟩
      · rw [if_neg hw]
        exact ⟨u.toBytes.drop n, 1, by omega, rfl⟩

/-- The elements that a lower-cased prefix is matched against lower-case to its runes. -/
theorem hasPrefixLower_take : ∀ (p : List Char) (s : GoString), hasPrefixLower p s = true →
    ∀ u ∈ s.take p.length, ∃ c ∈ p, lowerASCII u = some c := by
  intro p
  induction p with
  | nil => intro s _ u hu; simp at hu
  | cons c p ih =>
    intro s h u hu
    cases s with
    | nil => simp at hu
    | cons v t =>
      rw [hasPrefixLower, Bool.and_eq_true] at h
      rw [List.length_cons, List.take_succ_cons] at hu
      rcases List.mem_cons.mp hu with e | e
      · refine ⟨c, by simp, ?_⟩
        rw [e]
        simpa using h.1
      · obtain ⟨c', hc', hl⟩ := ih t h.2 u e
        exact ⟨c', by simp [hc'], hl⟩

/-- A semicolon of the argument is still in the cookie text that is split. -/
theorem semicolon_cookieText (s : GoString) (h : GoRune.rune ';' ∈ s) :
    GoRune.rune ';' ∈ cookieText s := by
  have h1 : GoRune.rune ';' ∈ stringsTrimSpace s :=
    mem_stringsTrimSpace_of_not _ (by decide) s h
  have h2 : GoRune.rune ';' ∈ stringsTrimPrefix (stringsTrimSpace s) bom := by
    unfold stringsTrimPrefix
    by_cases hb : bom.isPrefixOf (stringsTrimSpace s) = true
    · rw [if_pos hb]
      obtain ⟨r, hr⟩ := List.isPrefixOf_iff_prefix.mp hb
      rw [← hr] at h1 ⊢
      rcases List.mem_append.mp h1 with e | e
      · exact absurd e (by decide)
      · simpa [bom] using e
    · rw [if_neg hb]; exact h1
  unfold cookieText
  simp only []
  by_cases hc : hasPrefixLower "cookie:".toList (stringsTrimPrefix (stringsTrimSpace s) bom) = true
  · rw [if_pos hc]
    apply mem_stringsTrimSpace_of_not _ (by decide)
    obtain ⟨bs, j, hj, hb⟩ := byteDrop_shape (stringsTrimPrefix (stringsTrimSpace s) bom) 7
    rw [hb]
    apply List.mem_append_right
    have h7 : GoRune.rune ';' ∈ (stringsTrimPrefix (stringsTrimSpace s) bom).drop 7 := by
      rw [← List.take_append_drop 7 (stringsTrimPrefix (stringsTrimSpace s) bom)] at h2
      rcases List.mem_append.mp h2 with e | e
      · obtain ⟨c, hcm, hl⟩ := hasPrefixLower_take _ _ hc _ e
        have : lowerASCII (GoRune.rune ';') = some ';' := by decide
        rw [this] at hl
        simp only [Option.some.injEq] at hl
        rw [← hl] at hcm
        exact absurd hcm (by decide)
      · exact e
    have : (stringsTrimPrefix (stringsTrimSpace s) bom).drop 7 =
        ((stringsTrimPrefix (stringsTrimSpace s) bom).drop j).drop (7 - j) := by
      rw [List.drop_drop]
      congr 1
      omega
    rw [this] at h7
    exact List.mem_of_mem_drop h7
  · rw [if_neg hc]; exact h2

/-- C30: in `ParseCookieString` the semicolon goes before the newline. For every cookie
text with at least one ';', the text that remains after the trimming and the removal of
the byte-order mark and of the "cookie:" prefix still has a ';' and is split at ';' only:
the mapping is what the loop makes of these parts, and the value of a key is that of the
last part that gives the key. A part k=v, the key without '=', gives the trimmed key
with the trimmed value whatever the value holds, newlines and further k=v pairs
included: "a=1;b=2\nc=3" yields a with value "1" and b with value "2\nc=3", and no key
c. -/
theorem ParseCookieString_semicolons (s : GoString) (h : GoRune.rune ';' ∈ s) :
    GoRune.rune ';' ∈ cookieText s ∧
    ParseCookieString s = (stringsSplit (.rune ';') (cookieText s)).foldl parseCookiePart [] ∧
    (∀ k, (ParseCookieString s).get k =
      lastValue ((stringsSplit (.rune ';') (cookieText s)).filterMap partPair) k) ∧
    (∀ (result : StrMap) (k v : GoString), GoRune.rune '=' ∉ k → stringsTrimSpace k ≠ [] →
      stringsTrimSpace v ≠ [] →
      parseCookiePart result (k ++ GoRune.rune '=' :: v) =
        result.set (stringsTrimSpace k) (stringsTrimSpace v)) ∧
    ParseCookieString (str "a=1;b=2\nc=3") = [(str "b", str "2\nc=3"), (str "a", str "1")] ∧
    (ParseCookieString (str "a=1;b=2\nc=3")).get (str "c") = none ∧
    (ParseCookieString (str "a=1;b=2;a=3")).get (str "a") = some (str "3") := by
  have hsemi := semicolon_cookieText s h
  have hne : cookieText s ≠ [] := by
    intro e
    rw [e] at hsemi
    simp at hsemi
  have hbody : ParseCookieString s =
      (stringsSplit (.rune ';') (cookieText s)).foldl parseCookiePart [] := by
    rw [ParseCookieString_text]
    unfold cookieBody
    simp only [if_neg hne, if_pos hsemi]
  refine ⟨hsemi, hbody, ?_, ?_, by decide, by decide, by decide⟩
  · intro k
    rw [hbody, foldl_parseCookiePart, foldl_set_get]
    cases lastValue ((stringsSplit (.rune ';') (cookieText s)).filterMap partPair) k with
    | none => rfl
    | some v => rfl
  · intro result k v hk h1 h2
    rw [parseCookiePart_eq, partPair_item k v hk, if_neg (by tauto)]

theorem ParseCookieString_semicolons_witness :
    GoRune.rune ';' ∈ str "a=1;b=2\nc=3" ∧
    ParseCookieString (str "a=1;b=2\nc=3") =
      (stringsSplit (.rune ';') (str "a=1;b=2\nc=3")).foldl parseCookiePart [] ∧
    (ParseCookieString (str "a=1;b=2\nc=3")).get (str "b") = some (str "2\nc=3") :=
  have hs : GoRune.rune ';' ∈ str "a=1;b=2\nc=3" := by decide
  have h := ParseCookieString_semicolons (str "a=1;b=2\nc=3") hs
  ⟨hs, h.2.1.trans (by decide), (h.2.2.1 (str "b")).trans (by decide)⟩

/-! ## Proofs: the byte-order mark before a cookie text -/

theorem stringsSplit_ne_nil (sep : GoRune) : ∀ s : GoString, stringsSplit sep s ≠ [] := by
  intro s
  induction s with
  | nil => simp [stringsSplit]
  | cons u t ih =>
    rw [stringsSplit]
    by_cases hu : u = sep
    · rw [if_pos hu]; simp
    · rw [if_neg hu]
      cases h : stringsSplit sep t with
      | nil => simp
      | cons p ps => simp

/-- White space in front of a part changes nothing to what the loop makes of it. -/
theorem parseCookiePart_leadingSpace (m : StrMap) (u : GoRune) (p : GoString)
    (hu : u.isSpace = true) : parseCookiePart m (u :: p) = parseCookiePart m p := by
  have ht : stringsTrimSpace (u :: p) = stringsTrimSpace p :=
    stringsTrimSpace_append_left [u] p (fun v hv => by
      simp only [List.mem_singleton] at hv
      rw [hv]; exact hu)
  rw [parseCookiePart_eq, parseCookiePart_eq]
  unfold partPair
  rw [ht]

/-- White space in front of a cookie text changes nothing to what the loop makes of its
parts, whatever the separator. -/
theorem foldl_split_leadingSpace (sep : GoRune) (x : GoString) : ∀ (ws : GoString) (m : StrMap),
    SpaceOnly ws →
    (stringsSplit sep (ws ++ x)).foldl parseCookiePart m =
      (stringsSplit sep x).foldl parseCookiePart m := by
  intro ws
  induction ws with
  | nil => intro m _; rfl
  | cons u ws ih =>
    intro m h
    have hu : u.isSpace = true := h u (by simp)
    have hws : SpaceOnly ws := fun v hv => h v (by simp [hv])
    rw [List.cons_append, stringsSplit]
    by_cases hs : u = sep
    · rw [if_pos hs, List.foldl_cons]
      have : parseCookiePart m [] = m := rfl
      rw [this]
      exact ih m hws
    · rw [if_neg hs]
      cases hp : stringsSplit sep (ws ++ x) with
      | nil => exact absurd hp (stringsSplit_ne_nil sep _)
      | cons p ps =>
        simp only [List.foldl_cons]
        rw [parseCookiePart_leadingSpace m u p hu, ← List.foldl_cons, ← hp]
        exact ih m hws

/-- The map of `cookieBody` as the loop over a split, at `;` when the text has one and at
the newline when it has none. -/
theorem cookieBody_split (z : GoString) :
    cookieBody z =
      if GoRune.rune ';' ∈ z then (stringsSplit (.rune ';') z).foldl parseCookiePart []
      else (stringsSplit (.rune '\n') z).foldl parseCookiePart [] := by
  unfold cookieBody
  simp only []
  by_cases hz : z = []
  · rw [if_pos hz, hz]
    rfl
  · rw [if_neg hz]
    by_cases h1 : GoRune.rune ';' ∈ z
    · rw [if_pos h1, if_pos h1]
    · rw [if_neg h1, if_neg h1]
      by_cases h2 : GoRune.rune '\n' ∈ z
      · rw [if_pos h2]
      · rw [if_neg h2, stringsSplit_absent _ z h2]

theorem cookieBody_leadingSpace (ws x : GoString) (h : SpaceOnly ws) :
    cookieBody (ws ++ x) = cookieBody x := by
  rw [cookieBody_split, cookieBody_split]
  have hiff : GoRune.rune ';' ∈ ws ++ x ↔ GoRune.rune ';' ∈ x := by
    constructor
    · intro hm
      rcases List.mem_append.mp hm with e | e
      · have := h _ e
        exact absurd this (by decide)
      · exact e
    · intro hm; exact List.mem_append_right _ hm
  by_cases h1 : GoRune.rune ';' ∈ x
  · rw [if_pos h1, if_pos (hiff.mpr h1)]
    exact foldl_split_leadingSpace _ x ws [] h
  · rw [if_neg h1, if_neg (fun e => h1 (hiff.mp e))]
    exact foldl_split_leadingSpace _ x ws [] h

theorem cookieBody_trimLeft (y : GoString) : cookieBody (trimLeftSpace y) = cookieBody y := by
  have hsplit : y = y.takeWhile GoRune.isSpace ++ trimLeftSpace y :=
    (List.takeWhile_append_dropWhile _ y).symm
  conv_rhs => rw [hsplit]
  rw [cookieBody_leadingSpace]
  intro u hu
  exact List.mem_takeWhile_imp hu

/-- The trimmed form of a byte-order mark followed by a text. -/
theorem stringsTrimSpace_bom (s : GoString) :
    stringsTrimSpace (bom ++ s) = bom ++ trimRightSpace s := by
  unfold stringsTrimSpace
  have h1 : trimLeftSpace (bom ++ s) = bom ++ s :=
    trimLeftSpace_cons _ s (by decide)
  rw [h1]
  have h2 := trimRightSpace_cons (GoRune.rune (Char.ofNat 0xFEFF)) s
  have hb : (GoRune.rune (Char.ofNat 0xFEFF)).isSpace = false := by decide
  simp only [hb, Bool.false_eq_true, if_false] at h2
  show trimRightSpace (GoRune.rune (Char.ofNat 0xFEFF) :: s) = _
  rw [h2]
  by_cases he : trimRightSpace s = []
  · rw [if_pos he, he]; rfl
  · rw [if_neg he]; rfl

/-- The cookie text of a byte-order mark followed by `s` is made from `s` trimmed on the
right. -/
theorem cookieText_bom (s : GoString) :
    cookieText (bom ++ s) =
      if hasPrefixLower "cookie:".toList (trimRightSpace s) then
        stringsTrimSpace (byteDrop 7 (trimRightSpace s))
      else trimRightSpace s := by
  unfold cookieText
  simp only [stringsTrimSpace_bom]
  have : stringsTrimPrefix (bom ++ trimRightSpace s) bom = trimRightSpace s := by
    unfold stringsTrimPrefix
    rw [if_pos (List.isPrefixOf_iff_prefix.mpr (List.prefix_append _ _))]
    exact List.drop_left _ _
  rw [this]

theorem cookieText_plain (s : GoString) (hbom : bom.isPrefixOf (stringsTrimSpace s) = false) :
    cookieText s =
      if hasPrefixLower "cookie:".toList (stringsTrimSpace s) then
        stringsTrimSpace (byteDrop 7 (stringsTrimSpace s))
      else stringsTrimSpace s := by
  unfold cookieText stringsTrimPrefix
  simp only [hbom, Bool.false_eq_true, if_false]

/-- No white space lower-cases to a rune of "cookie:". -/
theorem space_not_cookie (r : Char) (hr : isSpace r = true) :
    ∀ c ∈ "cookie:".toList, lowerASCII (GoRune.rune r) ≠ some c := by
  have hrn := Char.ofNat_toNat r
  unfold isSpace at hr
  simp only [Bool.or_eq_true, beq_iff_eq, Bool.and_eq_true, decide_eq_true_eq] at hr
  by_cases hlt : r.toNat < 0x80
  · have hcases : r.toNat = 9 ∨ r.toNat = 10 ∨ r.toNat = 11 ∨ r.toNat = 12 ∨ r.toNat = 13 ∨
        r.toNat = 32 := by omega
    rcases hcases with h | h | h | h | h | h <;>
    · rw [h] at hrn
      rw [← hrn]
      decide
  · intro c _
    unfold lowerASCII
    simp only []
    rw [if_neg (by omega), if_neg (by omega), if_neg hlt]
    simp

theorem hasPrefixLower_space (c : Char) (p : List Char) (hc : c ∈ "cookie:".toList)
    (y : GoString) (h : ∀ u t, y = u :: t → u.isSpace = true) :
    hasPrefixLower (c :: p) y = false := by
  cases y with
  | nil => rfl
  | cons u t =>
    have hu := h u t rfl
    rw [hasPrefixLower]
    have : (lowerASCII u == some c) = false := by
      rw [beq_eq_false_iff_ne]
      cases u with
      | byte b => simp [lowerASCII]
      | rune r => exact space_not_cookie r hu c hc
    rw [this]
    rfl

/-- C25 as stated fails: after a byte-order mark, white space and then a "Cookie:" prefix,
the prefix is not recognised and goes into the key. -/
theorem ParseCookieString_bom_counterexample :
    ParseCookieString (bom ++ str " Cookie: a=1") = [(str "Cookie: a", str "1")] ∧
    ParseCookieString (str " Cookie: a=1") = [(str "a", str "1")] ∧
    ParseCookieString (bom ++ str " Cookie: a=1") ≠ ParseCookieString (str " Cookie: a=1") := by
  refine ⟨by decide, by decide, by decide⟩

/-- C25, amended: the byte-order mark is optional before a cookie text that, trimmed of
surrounding white space, does not itself begin with a byte-order mark and, when the text
begins with white space, does not begin with "cookie:" (as Go lower-cases it) either: for
every such string s, `ParseCookieString` of a byte-order mark followed by s is the mapping
of `ParseCookieString(s)`. That is so for every s that begins neither with white space
nor with a byte-order mark. -/
theorem ParseCookieString_bom (s : GoString) :
    (bom.isPrefixOf (stringsTrimSpace s) = false →
      ((∃ u t, s = u :: t ∧ u.isSpace = true) →
        hasPrefixLower "cookie:".toList (stringsTrimSpace s) = false) →
      ParseCookieString (bom ++ s) = ParseCookieString s) ∧
    ((∀ u t, s = u :: t → u.isSpace = false ∧ u ≠ GoRune.rune (Char.ofNat 0xFEFF)) →
      ParseCookieString (bom ++ s) = ParseCookieString s) := by
  have main : bom.isPrefixOf (stringsTrimSpace s) = false →
      ((∃ u t, s = u :: t ∧ u.isSpace = true) →
        hasPrefixLower "cookie:".toList (stringsTrimSpace s) = false) →
      ParseCookieString (bom ++ s) = ParseCookieString s := by
    intro h1 h2
    rw [ParseCookieString_text, ParseCookieString_text, cookieText_bom, cookieText_plain s h1]
    cases s with
    | nil => rfl
    | cons u t =>
      by_cases hu : u.isSpace = true
      · have hck := h2 ⟨u, t, rfl, hu⟩
        rw [hck]
        simp only [Bool.false_eq_true, if_false]
        have hy : hasPrefixLower "cookie:".toList (trimRightSpace (u :: t)) = false := by
          apply hasPrefixLower_space 'c' _ (by decide)
          intro a r e
          obtain ⟨q, hq⟩ := trimRightSpace_prefix (u :: t)
          rw [e] at hq
          simp only [List.cons_append, List.cons.injEq] at hq
          rw [hq.1]; exact hu
        rw [hy]
        simp only [Bool.false_eq_true, if_false]
        unfold stringsTrimSpace
        rw [← trim_commute, cookieBody_trimLeft]
      · have hl : trimLeftSpace (u :: t) = u :: t :=
          trimLeftSpace_cons u t (by simpa using hu)
        unfold stringsTrimSpace
        rw [hl]
  refine ⟨main, ?_⟩
  intro h
  cases s with
  | nil => rfl
  | cons u t =>
    obtain ⟨hsp, hb⟩ := h u t rfl
    apply main
    · unfold stringsTrimSpace
      rw [trimLeftSpace_cons u t hsp]
      cases hp : bom.isPrefixOf (trimRightSpace (u :: t)) with
      | false => rfl
      | true =>
        obtain ⟨r, hr⟩ := List.isPrefixOf_iff_prefix.mp hp
        obtain ⟨q, hq⟩ := trimRightSpace_prefix (u :: t)
        rw [← hr] at hq
        simp only [bom, List.cons_append, List.nil_append, List.cons.injEq] at hq
        exact absurd hq.1.symm hb
    · rintro ⟨a, r, e, ha⟩
      simp only [List.cons.injEq] at e
      rw [← e.1, hsp] at ha
      exact absurd ha (by simp)

theorem ParseCookieString_bom_witness :
    ParseCookieString (bom ++ str "Cookie: a=1; b=2 ") = ParseCookieString (str "Cookie: a=1; b=2 ") ∧
    ParseCookieString (bom ++ str " \n a=1\nb=2") = ParseCookieString (str " \n a=1\nb=2") ∧
    ParseCookieString (bom ++ str "Cookie: a=1; b=2 ") = [(str "b", str "2"), (str "a", str "1")] :=
  ⟨(ParseCookieString_bom (str "Cookie: a=1; b=2 ")).2 (fun u t e => by
      have : u = GoRune.rune 'C' := by
        have := congrArg List.head? e
        simpa [str] using this.symm
      rw [this]
      exact ⟨by decide, by decide⟩),
    (ParseCookieString_bom (str " \n a=1\nb=2")).1 (by decide) (fun _ => by decide),
    by decide⟩

end Wyapi
